import Mathlib

/-!
# ZygosDB: a shallow embedding of the builder and query engine

This file embeds the core of the ZygosDB repository in Lean 4 and proves
(or refutes) the frozen claims about it.  Bytes are modelled as `Nat`
values `< 256` in `List Nat`; 64-bit machine integers are modelled as
`Nat`/`Int` with explicit wrap-around (`% 2^64`) where the Rust code
casts; fallible Rust code returns `Except`/`Option`.

The sections mirror the source files:
* varint / primitive codec         — `src/deserialize.rs`, crate `vint64`
* block (de)compression            — `src/compression.rs` (gzip is external,
                                     modelled abstractly by its contract)
* builder                          — `src/database.rs`
* query engine                     — `src/query.rs`,
                                     `python_bindings/src/lib.rs`
* source ingestion                 — `src/tsv_reader.rs`
* configuration                    — `src/config.rs`
-/

namespace ZygosDB

/-! ## Little-endian / big-endian byte helpers -/

/-- `len` little-endian bytes of `n` (the first byte is the least significant),
modelling `u64::to_le_bytes` truncated/padded to `len` bytes. -/
def leBytes : Nat → Nat → List Nat
  | 0, _ => []
  | len + 1, n => (n % 256) :: leBytes len (n / 256)

/-- Value of a little-endian byte list, modelling `u64::from_le_bytes` of a
zero-padded buffer. -/
def fromLE (l : List Nat) : Nat := l.foldr (fun b acc => b + 256 * acc) 0

/-- The 8 big-endian bytes of `n`, modelling `usize::to_be_bytes` /
`u64::to_be_bytes` on a 64-bit platform. -/
def beBytes8 (n : Nat) : List Nat := (leBytes 8 n).reverse

/-- Value of a big-endian byte list, modelling `u64::from_be_bytes`. -/
def fromBE (l : List Nat) : Nat := l.foldl (fun acc b => 256 * acc + b) 0

theorem leBytes_length (len n : Nat) : (leBytes len n).length = len := by
  induction len generalizing n with
  | zero => rfl
  | succ k ih => simp [leBytes, ih]

theorem fromLE_leBytes (len n : Nat) : fromLE (leBytes len n) = n % 256 ^ len := by
  induction len generalizing n with
  | zero => simp [leBytes, fromLE, Nat.mod_one]
  | succ k ih =>
    simp only [leBytes, fromLE, List.foldr_cons] at *
    rw [ih, pow_succ', Nat.mod_mul]

theorem fromBE_eq_fromLE_reverse (l : List Nat) : fromBE l = fromLE l.reverse := by
  rw [fromBE, fromLE, List.foldr_reverse]
  congr 1
  funext acc b
  ring

theorem fromBE_beBytes8 (n : Nat) : fromBE (beBytes8 n) = n % 2 ^ 64 := by
  rw [beBytes8, fromBE_eq_fromLE_reverse, List.reverse_reverse, fromLE_leBytes]
  norm_num

theorem beBytes8_length (n : Nat) : (beBytes8 n).length = 8 := by
  simp [beBytes8, leBytes_length]

/-! ## The `vint64` variable-length integer encoding

The repository uses the `vint64` crate: a `u64` is stored in 1–9 bytes; the
number of trailing zero bits of the first byte is `length - 1` (a zero first
byte means length 9); the payload is little-endian.  These definitions follow
`vint64::encoded_len`, `vint64::encode`, `vint64::decoded_len`,
`vint64::decode`, and `vint64::signed::{encode, decode}`. -/

/-- `vint64::encoded_len`: number of bytes used to encode `value`. -/
def encodedLenU (u : Nat) : Nat :=
  if u < 2 ^ 7 then 1
  else if u < 2 ^ 14 then 2
  else if u < 2 ^ 21 then 3
  else if u < 2 ^ 28 then 4
  else if u < 2 ^ 35 then 5
  else if u < 2 ^ 42 then 6
  else if u < 2 ^ 49 then 7
  else if u < 2 ^ 56 then 8
  else 9

/-- `vint64::encode` for an unsigned value (`u < 2^64`). -/
def vint64Encode (u : Nat) : List Nat :=
  let len := encodedLenU u
  if len = 9 then 0 :: leBytes 8 u
  else leBytes len (u * 2 ^ len + 2 ^ (len - 1))

/-- Trailing-zero count of a byte, with `fuel` recursion depth
(`u8::trailing_zeros` on a nonzero byte). -/
def tzAux : Nat → Nat → Nat
  | 0, _ => 0
  | fuel + 1, b => if b % 2 = 1 then 0 else tzAux fuel (b / 2) + 1

/-- `vint64::decoded_len`: total length of an encoded `vint64`, given its
first byte (`byte.trailing_zeros() + 1`; a zero byte gives 9). -/
def decodedLen (b : Nat) : Nat :=
  if b % 256 = 0 then 9 else tzAux 8 (b % 256) + 1

/-- `vint64::decode` on a byte slice: returns the decoded value and length,
or `none` on truncated or non-canonical input. -/
def vint64Decode (input : List Nat) : Option (Nat × Nat) :=
  match input with
  | [] => none
  | b0 :: _ =>
    let len := decodedLen b0
    if input.length < len then none
    else
      let result :=
        if len = 9 then fromLE ((input.drop 1).take 8)
        else fromLE (input.take len) / 2 ^ len
      if len = 1 ∨ 2 ^ (7 * (len - 1)) ≤ result then some (result, len) else none

/-- `vint64::signed::zigzag::encode`: map `i64` to `u64`
(`(value << 1) ^ (value >> 63)` with wrapping semantics). -/
def zigzag (v : Int) : Nat :=
  if 0 ≤ v then 2 * v.toNat else 2 * (-v).toNat - 1

/-- `vint64::signed::zigzag::decode`: inverse of `zigzag`
(`(value >> 1) as i64 ^ -((value & 1) as i64)`). -/
def unzigzag (u : Nat) : Int :=
  if u % 2 = 0 then ((u / 2 : Nat) : Int) else -(((u / 2 : Nat) : Int) + 1)

/-- `vint64::signed::encode`. -/
def encodeZigzagI64 (v : Int) : List Nat := vint64Encode (zigzag v)

theorem unzigzag_zigzag (v : Int) : unzigzag (zigzag v) = v := by
  unfold zigzag unzigzag
  by_cases h : 0 ≤ v
  · simp only [h, if_pos]
    have h2 : 2 * v.toNat % 2 = 0 := by omega
    simp [h2]
    omega
  · simp only [h, if_neg, if_false]
    push_neg at h
    have hn : 1 ≤ (-v).toNat := by omega
    have hmod : (2 * (-v).toNat - 1) % 2 = 1 := by omega
    simp only [hmod]
    norm_num
    omega

theorem zigzag_lt (v : Int) (hlo : -(2 ^ 63) ≤ v) (hhi : v < 2 ^ 63) :
    zigzag v < 2 ^ 64 := by
  unfold zigzag
  split <;> omega

theorem tzAux_pow2 : ∀ (fuel k c : Nat), k < fuel →
    tzAux fuel (2 ^ k * (2 * c + 1)) = k := by
  intro fuel
  induction fuel with
  | zero => intro k c h; omega
  | succ f ih =>
    intro k c h
    cases k with
    | zero =>
      have hodd : (2 * c + 1) % 2 = 1 := by omega
      simp [tzAux, hodd]
    | succ j =>
      have hsplit : 2 ^ (j + 1) * (2 * c + 1) = 2 * (2 ^ j * (2 * c + 1)) := by ring
      have hmod : 2 ^ (j + 1) * (2 * c + 1) % 2 = 0 := by rw [hsplit]; omega
      have hdiv : 2 ^ (j + 1) * (2 * c + 1) / 2 = 2 ^ j * (2 * c + 1) := by
        rw [hsplit]; omega
      simp only [tzAux, hmod]
      rw [if_neg (by omega), hdiv, ih j c (by omega)]

theorem encodedLenU_pos (u : Nat) : 1 ≤ encodedLenU u := by
  unfold encodedLenU; split_ifs <;> omega

theorem encodedLenU_le (u : Nat) : encodedLenU u ≤ 9 := by
  unfold encodedLenU; split_ifs <;> omega

theorem vint64Encode_length (u : Nat) :
    (vint64Encode u).length = encodedLenU u := by
  unfold vint64Encode
  by_cases h : encodedLenU u = 9
  · simp [h, leBytes_length]
  · simp [h, leBytes_length]

/-- One `vint64` round-trip case for encoded lengths `1..8`. -/
theorem vint64Decode_leBytes (u L' : Nat) (rest : List Nat)
    (hL8 : L' ≤ 7) (hub : u < 2 ^ (7 * (L' + 1)))
    (hlb : L' + 1 = 1 ∨ 2 ^ (7 * L') ≤ u) :
    vint64Decode (leBytes (L' + 1) (u * 2 ^ (L' + 1) + 2 ^ L') ++ rest) =
      some (u, L' + 1) := by
  set n := u * 2 ^ (L' + 1) + 2 ^ L' with hn
  have hpowsucc : (2 : Nat) ^ L' < 2 ^ (L' + 1) := by
    have h0 : (0 : Nat) < 2 ^ L' := by positivity
    rw [pow_succ]
    omega
  have hfactor : n = 2 ^ L' * (2 * u + 1) := by rw [hn, pow_succ]; ring
  -- first byte of the encoding
  have h256 : (256 : Nat) = 2 ^ L' * 2 ^ (8 - L') := by
    rw [← pow_add]
    have h8 : L' + (8 - L') = 8 := by omega
    rw [h8]
    norm_num
  have hb0 : n % 256 = 2 ^ L' * ((2 * u + 1) % 2 ^ (8 - L')) := by
    rw [hfactor, h256, Nat.mul_mod_mul_left]
  have hr_odd : (2 * u + 1) % 2 ^ (8 - L') % 2 = 1 := by
    rw [Nat.mod_mod_of_dvd _ (dvd_pow_self 2 (by omega))]
    omega
  have hr_form : (2 * u + 1) % 2 ^ (8 - L') =
      2 * ((2 * u + 1) % 2 ^ (8 - L') / 2) + 1 := by omega
  have htz : tzAux 8 (n % 256) = L' := by
    rw [hb0, hr_form]
    exact tzAux_pow2 8 L' _ (by omega)
  have hb0_ne : n % 256 ≠ 0 := by
    rw [hb0, hr_form]
    positivity
  have hmm : n % 256 % 256 = n % 256 := Nat.mod_mod_of_dvd n dvd_rfl
  have hdl : decodedLen (n % 256) = L' + 1 := by
    unfold decodedLen
    rw [hmm, if_neg hb0_ne, htz]
  -- the value stored in the first L'+1 bytes
  have hn_lt : n < 256 ^ (L' + 1) := by
    have h1 : (256 : Nat) ^ (L' + 1) = 2 ^ (7 * (L' + 1)) * 2 ^ (L' + 1) := by
      have h2 : (256 : Nat) = 2 ^ 8 := by norm_num
      rw [h2, ← pow_mul, ← pow_add]
      congr 1
      ring
    have h3 : (u + 1) * 2 ^ (L' + 1) ≤ 2 ^ (7 * (L' + 1)) * 2 ^ (L' + 1) :=
      Nat.mul_le_mul_right _ (by omega)
    have h4 : n < (u + 1) * 2 ^ (L' + 1) := by
      have h5 : (u + 1) * 2 ^ (L' + 1) = u * 2 ^ (L' + 1) + 2 ^ (L' + 1) := by ring
      rw [hn]
      omega
    omega
  have hdiv : n / 2 ^ (L' + 1) = u := by
    rw [hn, add_comm, Nat.add_mul_div_right _ _ (Nat.pos_of_ne_zero (by positivity)),
      Nat.div_eq_of_lt hpowsucc, Nat.zero_add]
  have henc : leBytes (L' + 1) n = (n % 256) :: leBytes L' (n / 256) := rfl
  rw [henc, List.cons_append]
  have hlength : ¬ (((n % 256) :: (leBytes L' (n / 256) ++ rest)).length < L' + 1) := by
    simp [leBytes_length]
  have htake : ((n % 256) :: (leBytes L' (n / 256) ++ rest)).take (L' + 1) =
      leBytes (L' + 1) n := by
    have h1 : (leBytes L' (n / 256) ++ rest).take L' = leBytes L' (n / 256) := by
      have h2 := List.take_left (leBytes L' (n / 256)) rest
      rwa [leBytes_length] at h2
    rw [henc, List.take_succ_cons, h1]
  have hfl : fromLE (leBytes (L' + 1) n) = n := by
    rw [fromLE_leBytes]
    exact Nat.mod_eq_of_lt hn_lt
  have h9 : ¬ (L' + 1 = 9) := by omega
  simp only [vint64Decode, hdl]
  rw [if_neg hlength, if_neg h9, htake, hfl, hdiv]
  have hcanon : L' + 1 = 1 ∨ 2 ^ (7 * (L' + 1 - 1)) ≤ u := by
    simpa using hlb
  rw [if_pos hcanon]

theorem vint64Encode_eq (u : Nat) (h9 : encodedLenU u ≠ 9) :
    vint64Encode u =
      leBytes (encodedLenU u) (u * 2 ^ encodedLenU u + 2 ^ (encodedLenU u - 1)) := by
  simp only [vint64Encode]
  rw [if_neg h9]

theorem vint64Encode_eq9 (u : Nat) (h9 : encodedLenU u = 9) :
    vint64Encode u = 0 :: leBytes 8 u := by
  simp only [vint64Encode]
  rw [h9, if_pos rfl]

/-- `vint64::decode` is a left inverse of `vint64::encode`, also in the
presence of trailing bytes. -/
theorem vint64Decode_encode (u : Nat) (hu : u < 2 ^ 64) (rest : List Nat) :
    vint64Decode (vint64Encode u ++ rest) = some (u, encodedLenU u) := by
  by_cases h1 : u < 2 ^ 7
  · have hL : encodedLenU u = 1 := by unfold encodedLenU; rw [if_pos h1]
    rw [vint64Encode_eq u (by omega), hL]
    simpa using vint64Decode_leBytes u 0 rest (by omega) (by simpa using h1) (Or.inl rfl)
  · by_cases h2 : u < 2 ^ 14
    · have hL : encodedLenU u = 2 := by unfold encodedLenU; rw [if_neg h1, if_pos h2]
      rw [vint64Encode_eq u (by omega), hL]
      simpa using vint64Decode_leBytes u 1 rest (by omega) (by simpa using h2)
        (Or.inr (by simpa using not_lt.mp h1))
    · by_cases h3 : u < 2 ^ 21
      · have hL : encodedLenU u = 3 := by unfold encodedLenU; rw [if_neg h1, if_neg h2, if_pos h3]
        rw [vint64Encode_eq u (by omega), hL]
        simpa using vint64Decode_leBytes u 2 rest (by omega) (by simpa using h3)
          (Or.inr (by simpa using not_lt.mp h2))
      · by_cases h4 : u < 2 ^ 28
        · have hL : encodedLenU u = 4 := by unfold encodedLenU; rw [if_neg h1, if_neg h2, if_neg h3, if_pos h4]
          rw [vint64Encode_eq u (by omega), hL]
          simpa using vint64Decode_leBytes u 3 rest (by omega) (by simpa using h4)
            (Or.inr (by simpa using not_lt.mp h3))
        · by_cases h5 : u < 2 ^ 35
          · have hL : encodedLenU u = 5 := by unfold encodedLenU; rw [if_neg h1, if_neg h2, if_neg h3, if_neg h4, if_pos h5]
            rw [vint64Encode_eq u (by omega), hL]
            simpa using vint64Decode_leBytes u 4 rest (by omega) (by simpa using h5)
              (Or.inr (by simpa using not_lt.mp h4))
          · by_cases h6 : u < 2 ^ 42
            · have hL : encodedLenU u = 6 := by unfold encodedLenU; rw [if_neg h1, if_neg h2, if_neg h3, if_neg h4, if_neg h5, if_pos h6]
              rw [vint64Encode_eq u (by omega), hL]
              simpa using vint64Decode_leBytes u 5 rest (by omega) (by simpa using h6)
                (Or.inr (by simpa using not_lt.mp h5))
            · by_cases h7 : u < 2 ^ 49
              · have hL : encodedLenU u = 7 := by
                  unfold encodedLenU
                  rw [if_neg h1, if_neg h2, if_neg h3, if_neg h4, if_neg h5, if_neg h6, if_pos h7]
                rw [vint64Encode_eq u (by omega), hL]
                simpa using vint64Decode_leBytes u 6 rest (by omega) (by simpa using h7)
                  (Or.inr (by simpa using not_lt.mp h6))
              · by_cases h8 : u < 2 ^ 56
                · have hL : encodedLenU u = 8 := by
                    unfold encodedLenU
                    rw [if_neg h1, if_neg h2, if_neg h3, if_neg h4, if_neg h5, if_neg h6, if_neg h7, if_pos h8]
                  rw [vint64Encode_eq u (by omega), hL]
                  simpa using vint64Decode_leBytes u 7 rest (by omega) (by simpa using h8)
                    (Or.inr (by simpa using not_lt.mp h7))
                · -- nine-byte case: a zero first byte, then eight LE payload bytes
                  have hL : encodedLenU u = 9 := by
                    unfold encodedLenU
                    rw [if_neg h1, if_neg h2, if_neg h3, if_neg h4, if_neg h5, if_neg h6, if_neg h7, if_neg h8]
                  rw [vint64Encode_eq9 u hL, List.cons_append]
                  have hdl0 : decodedLen 0 = 9 := by simp [decodedLen]
                  have hlength : ¬ ((0 :: (leBytes 8 u ++ rest)).length < 9) := by
                    simp [leBytes_length]
                  have htake : (((0 : Nat) :: (leBytes 8 u ++ rest)).drop 1).take 8 =
                      leBytes 8 u := by
                    have h2 := List.take_left (leBytes 8 u) rest
                    rw [leBytes_length] at h2
                    simpa using h2
                  have hfl : fromLE (leBytes 8 u) = u := by
                    rw [fromLE_leBytes]
                    exact Nat.mod_eq_of_lt
                      (by have h9 : (256 : Nat) ^ 8 = 2 ^ 64 := by norm_num
                          omega)
                  simp only [vint64Decode, hdl0]
                  rw [if_neg hlength]
                  simp only [if_true]
                  rw [htake, hfl, hL, if_pos]
                  exact Or.inr (le_trans (by norm_num) (not_lt.mp h8))

/-! ## `src/deserialize.rs`: primitive readers over a byte cursor

Each reader takes the remaining bytes of the cursor and returns the value
together with the number of bytes consumed; `none` models an `Err`. -/

/-- `deserialize::read_zigzag_i64`: reads one prefix byte, determines the
length, reads the remaining bytes and decodes via `vint64::signed::decode`.
Returns `(value, length)`. -/
def read_zigzag_i64 (bytes : List Nat) : Option (Int × Nat) :=
  match bytes with
  | [] => none
  | b0 :: _ =>
    let len := decodedLen b0
    if bytes.length < len then none
    else
      match vint64Decode (bytes.take len) with
      | some (u, _) => some (unzigzag u, len)
      | none => none

/-- `deserialize::skip_zigzag_i64`: consumes an encoded varint without
decoding it; returns the number of bytes consumed. -/
def skip_zigzag_i64 (bytes : List Nat) : Option Nat :=
  match bytes with
  | [] => none
  | b0 :: _ =>
    let len := decodedLen b0
    if bytes.length < len then none else some len

/-- `deserialize::read_f64`: 8 big-endian bytes; the value is modelled by its
bit pattern (the 8 bytes themselves), which `f64::from_be_bytes` preserves. -/
def read_f64 (bytes : List Nat) : Option (List Nat) :=
  if bytes.length < 8 then none else some (bytes.take 8)

/-- `deserialize::skip_f64`. -/
def skip_f64 (bytes : List Nat) : Option Nat :=
  if bytes.length < 8 then none else some 8

/-- Whether a continuation byte `0x80..0xBF` follows (UTF-8). -/
def utf8Cont (b : Nat) : Bool := 0x80 ≤ b && b < 0xC0

/-- UTF-8 validity of a byte sequence, as checked by `String::from_utf8`. -/
def isValidUtf8 : List Nat → Bool
  | [] => true
  | b :: rest =>
    if b < 0x80 then isValidUtf8 rest
    else if b < 0xC2 then false
    else if b < 0xE0 then
      match rest with
      | c1 :: r => utf8Cont c1 && isValidUtf8 r
      | [] => false
    else if b = 0xE0 then
      match rest with
      | c1 :: c2 :: r => (0xA0 ≤ c1 && c1 < 0xC0) && utf8Cont c2 && isValidUtf8 r
      | _ => false
    else if b < 0xED then
      match rest with
      | c1 :: c2 :: r => utf8Cont c1 && utf8Cont c2 && isValidUtf8 r
      | _ => false
    else if b = 0xED then
      match rest with
      | c1 :: c2 :: r => (0x80 ≤ c1 && c1 < 0xA0) && utf8Cont c2 && isValidUtf8 r
      | _ => false
    else if b < 0xF0 then
      match rest with
      | c1 :: c2 :: r => utf8Cont c1 && utf8Cont c2 && isValidUtf8 r
      | _ => false
    else if b = 0xF0 then
      match rest with
      | c1 :: c2 :: c3 :: r =>
        (0x90 ≤ c1 && c1 < 0xC0) && utf8Cont c2 && utf8Cont c3 && isValidUtf8 r
      | _ => false
    else if b < 0xF4 then
      match rest with
      | c1 :: c2 :: c3 :: r => utf8Cont c1 && utf8Cont c2 && utf8Cont c3 && isValidUtf8 r
      | _ => false
    else if b = 0xF4 then
      match rest with
      | c1 :: c2 :: c3 :: r =>
        (0x80 ≤ c1 && c1 < 0x90) && utf8Cont c2 && utf8Cont c3 && isValidUtf8 r
      | _ => false
    else false
termination_by l => l.length
decreasing_by all_goals simp_wf <;> omega

/-- `deserialize::read_string_u8`: a one-byte length `L` followed by `L`
UTF-8 bytes; fails on truncation or invalid UTF-8.  The string value is
modelled by its byte sequence.  Returns `(bytes, 1 + L)`. -/
def read_string_u8 (bytes : List Nat) : Option (List Nat × Nat) :=
  match bytes with
  | [] => none
  | l :: rest =>
    if rest.length < l then none
    else
      let s := rest.take l
      if isValidUtf8 s then some (s, l + 1) else none

/-- `deserialize::skip_string_u8`: consumes the length byte and `L` content
bytes without validation; returns `1 + L`. -/
def skip_string_u8 (bytes : List Nat) : Option Nat :=
  match bytes with
  | [] => none
  | l :: rest => if rest.length < l then none else some (1 + l)

theorem decodedLen_of_encode (u : Nat) (hu : u < 2 ^ 64) (b0 : Nat) (t : List Nat)
    (h : vint64Encode u = b0 :: t) : decodedLen b0 = encodedLenU u := by
  have hd := vint64Decode_encode u hu []
  rw [List.append_nil, h] at hd
  simp only [vint64Decode] at hd
  split_ifs at hd <;> simp_all

theorem read_zigzag_i64_encode (v : Int) (hlo : -(2 ^ 63) ≤ v) (hhi : v < 2 ^ 63)
    (rest : List Nat) :
    read_zigzag_i64 (encodeZigzagI64 v ++ rest) =
      some (v, (encodeZigzagI64 v).length) := by
  have hu : zigzag v < 2 ^ 64 := zigzag_lt v hlo hhi
  have hlen : (vint64Encode (zigzag v)).length = encodedLenU (zigzag v) :=
    vint64Encode_length _
  have hne : vint64Encode (zigzag v) ≠ [] := by
    intro h
    have := encodedLenU_pos (zigzag v)
    rw [h] at hlen
    simp at hlen
    omega
  obtain ⟨b0, t, henc⟩ := List.exists_cons_of_ne_nil hne
  have hdl : decodedLen b0 = encodedLenU (zigzag v) := decodedLen_of_encode _ hu _ _ henc
  have htake : ((vint64Encode (zigzag v)) ++ rest).take (encodedLenU (zigzag v)) =
      vint64Encode (zigzag v) := by
    have h2 := List.take_left (vint64Encode (zigzag v)) rest
    rwa [hlen] at h2
  have hlength : ¬ ((vint64Encode (zigzag v) ++ rest).length < encodedLenU (zigzag v)) := by
    rw [List.length_append, hlen]
    omega
  unfold encodeZigzagI64
  rw [henc] at htake hlength ⊢
  rw [List.cons_append]
  simp only [read_zigzag_i64, hdl]
  rw [if_neg (by simpa using hlength)]
  have hdec : vint64Decode ((b0 :: (t ++ rest)).take (encodedLenU (zigzag v))) =
      some (zigzag v, encodedLenU (zigzag v)) := by
    rw [← List.cons_append, htake, ← List.append_nil (b0 :: t), ← henc]
    exact vint64Decode_encode _ hu []
  rw [hdec]
  show some (unzigzag (zigzag v), encodedLenU (zigzag v)) = some (v, (b0 :: t).length)
  rw [unzigzag_zigzag, ← henc, hlen]

theorem skip_zigzag_i64_encode (v : Int) (hlo : -(2 ^ 63) ≤ v) (hhi : v < 2 ^ 63)
    (rest : List Nat) :
    skip_zigzag_i64 (encodeZigzagI64 v ++ rest) =
      some ((encodeZigzagI64 v).length) := by
  have hu : zigzag v < 2 ^ 64 := zigzag_lt v hlo hhi
  have hlen : (vint64Encode (zigzag v)).length = encodedLenU (zigzag v) :=
    vint64Encode_length _
  have hne : vint64Encode (zigzag v) ≠ [] := by
    intro h
    have := encodedLenU_pos (zigzag v)
    rw [h] at hlen
    simp at hlen
    omega
  obtain ⟨b0, t, henc⟩ := List.exists_cons_of_ne_nil hne
  have hdl : decodedLen b0 = encodedLenU (zigzag v) := decodedLen_of_encode _ hu _ _ henc
  have hlength : ¬ ((vint64Encode (zigzag v) ++ rest).length < encodedLenU (zigzag v)) := by
    rw [List.length_append, hlen]
    omega
  unfold encodeZigzagI64
  rw [henc] at hlength ⊢
  rw [List.cons_append]
  simp only [skip_zigzag_i64, hdl]
  rw [if_neg (by simpa using hlength), ← henc, hlen]

/-- C9. Varint laws: for every `i64` value `v`, `read_zigzag_i64` on the bytes
produced by the `vint64` signed encoder returns `(v, len)` where `len` is the
encoded length in bytes, and `skip_zigzag_i64` on the same bytes succeeds and
returns exactly `len`. -/
theorem varint_laws (v : Int) (hlo : -(2 ^ 63) ≤ v) (hhi : v < 2 ^ 63) :
    read_zigzag_i64 (encodeZigzagI64 v) = some (v, (encodeZigzagI64 v).length) ∧
    skip_zigzag_i64 (encodeZigzagI64 v) = some ((encodeZigzagI64 v).length) := by
  constructor
  · have h := read_zigzag_i64_encode v hlo hhi []
    rwa [List.append_nil] at h
  · have h := skip_zigzag_i64_encode v hlo hhi []
    rwa [List.append_nil] at h

/-- Witness for C9: the varint laws instantiated at `v = -123456789`. -/
theorem varint_laws_witness :
    read_zigzag_i64 (encodeZigzagI64 (-123456789)) =
      some (-123456789, (encodeZigzagI64 (-123456789)).length) ∧
    skip_zigzag_i64 (encodeZigzagI64 (-123456789)) =
      some ((encodeZigzagI64 (-123456789)).length) :=
  varint_laws (-123456789) (by norm_num) (by norm_num)

/-! ## `src/query.rs`: `TableIndex::get_range`

The `BTreeMap<u64, u64>` inside `TableIndex` is modelled by its sorted
association list (strictly increasing keys, the `BTreeMap` invariant).
`get_range` positions a cursor at the gap after the greatest key `≤ start`
(`upper_bound(Bound::Included(&start))`), steps back one entry
(`cursor.prev()`, a no-op at the front), and then collects entries in
ascending order until a key `≥ end` is reached. -/

/-- `TableIndex::get_range` over the sorted entry list of the map. -/
def get_range (entries : List (Nat × Nat)) (s e : Nat) : List (Nat × Nat) :=
  ((entries.drop ((entries.takeWhile (fun kv => decide (kv.1 ≤ s))).length - 1)).takeWhile
    (fun kv => decide (kv.1 < e)))

/-- The `BTreeMap` key invariant: strictly increasing keys. -/
def sortedKeys (entries : List (Nat × Nat)) : Prop :=
  List.Pairwise (fun a b => a.1 < b.1) entries

instance (entries : List (Nat × Nat)) : Decidable (sortedKeys entries) := by
  unfold sortedKeys
  infer_instance

theorem sortedKeys_cons_head {x : Nat × Nat} {t : List (Nat × Nat)}
    (h : sortedKeys (x :: t)) : ∀ kv ∈ t, x.1 < kv.1 :=
  (List.pairwise_cons.mp h).1

theorem sortedKeys_cons_tail {x : Nat × Nat} {t : List (Nat × Nat)}
    (h : sortedKeys (x :: t)) : sortedKeys t :=
  (List.pairwise_cons.mp h).2

theorem all_gt_of_takeWhile_nil {s : Nat} {t : List (Nat × Nat)} (hs : sortedKeys t)
    (htw : t.takeWhile (fun kv => decide (kv.1 ≤ s)) = []) : ∀ kv ∈ t, s < kv.1 := by
  cases t with
  | nil => simp
  | cons y t' =>
    rw [List.takeWhile_cons] at htw
    by_cases hy : y.1 ≤ s
    · simp [hy] at htw
    · intro kv hkv
      rcases List.mem_cons.mp hkv with rfl | hkv'
      · omega
      · have := sortedKeys_cons_head hs kv hkv'
        omega

/-- When the tail's `takeWhile` is nonempty the cursor never reaches the head
entry, so `get_range` on `x :: t` agrees with `get_range` on `t`. -/
theorem get_range_cons_of_tw_ne (x : Nat × Nat) (t : List (Nat × Nat)) (s e : Nat)
    (hx : x.1 ≤ s) (htw : t.takeWhile (fun kv => decide (kv.1 ≤ s)) ≠ []) :
    get_range (x :: t) s e = get_range t s e := by
  unfold get_range
  rw [List.takeWhile_cons_of_pos (by simpa using hx)]
  obtain ⟨m, hm⟩ : ∃ m, (t.takeWhile (fun kv => decide (kv.1 ≤ s))).length = m + 1 := by
    cases h' : t.takeWhile (fun kv => decide (kv.1 ≤ s)) with
    | nil => exact absurd h' htw
    | cons a l => exact ⟨l.length, by simp [h']⟩
  rw [List.length_cons, hm]
  simp [List.drop_succ_cons]

/-- When the cursor starts at the front (head key `> s`, or a singleton
`takeWhile`), `get_range` is a plain `takeWhile` of the key bound. -/
theorem get_range_eq_takeWhile (x : Nat × Nat) (t : List (Nat × Nat)) (s e : Nat)
    (h : x.1 ≤ s → t.takeWhile (fun kv => decide (kv.1 ≤ s)) = []) :
    get_range (x :: t) s e = (x :: t).takeWhile (fun kv => decide (kv.1 < e)) := by
  unfold get_range
  by_cases hx : x.1 ≤ s
  · rw [List.takeWhile_cons_of_pos (by simpa using hx), h hx]
    simp
  · rw [List.takeWhile_cons_of_neg (by simpa using hx)]
    simp

/-- Head of `get_range`: either the greatest key `≤ s`, or (when every key
exceeds `s`) the first entry of the map. -/
theorem get_range_head (entries : List (Nat × Nat)) (s e : Nat) (hs : sortedKeys entries)
    (kv0 : Nat × Nat) (hh : (get_range entries s e).head? = some kv0) :
    (kv0 ∈ entries ∧ kv0.1 ≤ s ∧ ∀ kv ∈ entries, kv.1 ≤ s → kv.1 ≤ kv0.1) ∨
    ((∀ kv ∈ entries, s < kv.1) ∧ entries.head? = some kv0) := by
  induction entries with
  | nil => simp [get_range] at hh
  | cons x t ih =>
    by_cases hx : x.1 ≤ s
    · cases htw : t.takeWhile (fun kv => decide (kv.1 ≤ s)) with
      | nil =>
        rw [get_range_eq_takeWhile x t s e (fun _ => htw)] at hh
        by_cases hxe : x.1 < e
        · rw [List.takeWhile_cons_of_pos (by simpa using hxe)] at hh
          simp only [List.head?_cons, Option.some.injEq] at hh
          subst hh
          left
          refine ⟨List.mem_cons_self x t, hx, ?_⟩
          intro kv hkv hkvs
          rcases List.mem_cons.mp hkv with rfl | hkv'
          · omega
          · have := all_gt_of_takeWhile_nil (sortedKeys_cons_tail hs) htw kv hkv'
            omega
        · rw [List.takeWhile_cons_of_neg (by simpa using hxe)] at hh
          simp at hh
      | cons y tw' =>
        rw [get_range_cons_of_tw_ne x t s e hx (by rw [htw]; simp)] at hh
        rcases ih (sortedKeys_cons_tail hs) hh with ⟨hmem, hle, hgr⟩ | ⟨hall, -⟩
        · left
          refine ⟨List.mem_cons_of_mem x hmem, hle, ?_⟩
          intro kv hkv hkvs
          rcases List.mem_cons.mp hkv with rfl | hkv'
          · have := sortedKeys_cons_head hs kv0 hmem
            omega
          · exact hgr kv hkv' hkvs
        · exfalso
          -- the head of `t.takeWhile` is an entry of `t` with key `≤ s`
          cases t with
          | nil => simp at htw
          | cons z t' =>
            rw [List.takeWhile_cons] at htw
            by_cases hz : z.1 ≤ s
            · have := hall z (List.mem_cons_self z t')
              omega
            · simp [hz] at htw
    · rw [get_range_eq_takeWhile x t s e (fun h => absurd h hx)] at hh
      by_cases hxe : x.1 < e
      · rw [List.takeWhile_cons_of_pos (by simpa using hxe)] at hh
        simp only [List.head?_cons, Option.some.injEq] at hh
        subst hh
        right
        refine ⟨?_, rfl⟩
        intro kv hkv
        rcases List.mem_cons.mp hkv with rfl | hkv'
        · omega
        · have := sortedKeys_cons_head hs kv hkv'
          omega
      · rw [List.takeWhile_cons_of_neg (by simpa using hxe)] at hh
        simp at hh

/-- Corrected emptiness law for `get_range`, valid when `s < e`:
the result is empty iff every key is `≥ e`. -/
theorem get_range_empty_iff (entries : List (Nat × Nat)) (s e : Nat)
    (hs : sortedKeys entries) (hse : s < e) :
    get_range entries s e = [] ↔ ∀ kv ∈ entries, e ≤ kv.1 := by
  induction entries with
  | nil => simp [get_range]
  | cons x t ih =>
    by_cases hx : x.1 ≤ s
    · cases htw : t.takeWhile (fun kv => decide (kv.1 ≤ s)) with
      | nil =>
        rw [get_range_eq_takeWhile x t s e (fun _ => htw)]
        rw [List.takeWhile_cons_of_pos (by simp; omega)]
        constructor
        · intro h
          simp at h
        · intro h
          have := h x (List.mem_cons_self x t)
          omega
      | cons y tw' =>
        rw [get_range_cons_of_tw_ne x t s e hx (by rw [htw]; simp)]
        rw [ih (sortedKeys_cons_tail hs)]
        -- `t` contains a key `≤ s < e`, so both sides are false
        have hyt : y.1 ≤ s ∧ y ∈ t := by
          cases t with
          | nil => simp at htw
          | cons z t' =>
            rw [List.takeWhile_cons] at htw
            by_cases hz : z.1 ≤ s
            · rw [if_pos (by simpa using hz)] at htw
              obtain ⟨rfl, -⟩ := List.cons.inj htw
              exact ⟨hz, List.mem_cons_self z t'⟩
            · rw [if_neg (by simpa using hz)] at htw
              simp at htw
        constructor
        · intro h
          exact absurd (h y hyt.2) (by omega)
        · intro h kv hkv
          exact h kv (List.mem_cons_of_mem x hkv)
    · rw [get_range_eq_takeWhile x t s e (fun h => absurd h hx)]
      by_cases hxe : x.1 < e
      · rw [List.takeWhile_cons_of_pos (by simpa using hxe)]
        constructor
        · intro h
          simp at h
        · intro h
          have := h x (List.mem_cons_self x t)
          omega
      · rw [List.takeWhile_cons_of_neg (by simpa using hxe)]
        constructor
        · intro _ kv hkv
          rcases List.mem_cons.mp hkv with rfl | hkv'
          · omega
          · have := sortedKeys_cons_head hs kv hkv'
            omega
        · intro _
          rfl

/-- C6 (amended). `TableIndex.get_range(start, end)` returns a sublist of the
map in ascending key order whose keys are all `< end`; when nonempty it
begins with the entry having the greatest key `≤ start` (or the first entry
when `start` precedes every key); and when `start < end` it is empty iff
every key is `≥ end`.  The original "empty iff no block intersects
`[start, end)`" fails for `start = end` (see the counterexample): the
predecessor entry is returned even though the queried interval is empty. -/
theorem get_range_spec (entries : List (Nat × Nat)) (s e : Nat) (hs : sortedKeys entries) :
    List.Sublist (get_range entries s e) entries ∧
    sortedKeys (get_range entries s e) ∧
    (∀ kv ∈ get_range entries s e, kv.1 < e) ∧
    (∀ kv0, (get_range entries s e).head? = some kv0 →
      (kv0 ∈ entries ∧ kv0.1 ≤ s ∧ ∀ kv ∈ entries, kv.1 ≤ s → kv.1 ≤ kv0.1) ∨
      ((∀ kv ∈ entries, s < kv.1) ∧ entries.head? = some kv0)) ∧
    (s < e → (get_range entries s e = [] ↔ ∀ kv ∈ entries, e ≤ kv.1)) := by
  have hsub : List.Sublist (get_range entries s e) entries :=
    (List.takeWhile_sublist _).trans (List.drop_sublist _ _)
  refine ⟨hsub, List.Pairwise.sublist hsub hs, ?_, get_range_head entries s e hs,
    get_range_empty_iff entries s e hs⟩
  intro kv hkv
  have := List.mem_takeWhile_imp hkv
  simpa using this

/-- Counterexample to C6 as stated: with a single block at first position 10,
`get_range 15 15` queries the empty interval `[15, 15)` — which no block can
intersect — yet the result is the nonempty predecessor entry. -/
theorem get_range_empty_interval_counterexample :
    get_range [(10, 0)] 15 15 = [(10, 0)] := by decide

/-- Witness for C6 (amended) at a concrete two-entry index. -/
theorem get_range_spec_witness :
    sortedKeys [(5, 100), (10, 200)] ∧
    (List.Sublist (get_range [(5, 100), (10, 200)] 7 12) [(5, 100), (10, 200)] ∧
     sortedKeys (get_range [(5, 100), (10, 200)] 7 12) ∧
     (∀ kv ∈ get_range [(5, 100), (10, 200)] 7 12, kv.1 < 12) ∧
     (∀ kv0, (get_range [(5, 100), (10, 200)] 7 12).head? = some kv0 →
       (kv0 ∈ [(5, 100), (10, 200)] ∧ kv0.1 ≤ 7 ∧
         ∀ kv ∈ [(5, 100), (10, 200)], kv.1 ≤ 7 → kv.1 ≤ kv0.1) ∨
       ((∀ kv ∈ [(5, 100), (10, 200)], 7 < kv.1) ∧
         [(5, 100), (10, 200)].head? = some kv0)) ∧
     (7 < 12 → (get_range [(5, 100), (10, 200)] 7 12 = [] ↔
       ∀ kv ∈ [(5, 100), (10, 200)], 12 ≤ kv.1))) :=
  ⟨by decide, get_range_spec [(5, 100), (10, 200)] 7 12 (by decide)⟩

/-! ## `src/config.rs` and `src/tsv_reader.rs`: the configuration data model -/

/-- `compression::CompressionAlgorithm`. -/
inductive CompressionAlgorithm where
  | none
  | gzip
deriving DecidableEq, Repr

/-- `tsv_reader::ColumnType`. -/
inductive ColumnType where
  | integer
  | float
  | volatileString
  | hashtableString
deriving DecidableEq, Repr

/-- The `type_id` byte written for a column (`column.type_ as u8`). -/
def ColumnType.toU8 : ColumnType → Nat
  | .integer => 0
  | .float => 1
  | .volatileString => 2
  | .hashtableString => 3

/-- `config::ColumnRole`. -/
inductive ColumnRole where
  | position
  | positionStart
  | positionEnd
  | data
deriving DecidableEq, Repr

/-- `tsv_reader::MissingValuePolicy`. -/
inductive MissingValuePolicy where
  | omitRow
  | throw
  | replaceWithEmptyString
deriving DecidableEq, Repr

/-- `config::Column`. -/
structure Column where
  name : String
  type_ : ColumnType
  role : ColumnRole
  missing_value_policy : MissingValuePolicy
deriving DecidableEq, Repr

/-- `config::Dataset`, with the `DatasetMetadata` name flattened in. -/
structure Dataset where
  name : String
  file_per_chromosome : Bool
  chromosomes : Option (List Nat)
  path : String
  columns : List Column
  rows_per_index : Nat
  compression_algorithm : CompressionAlgorithm
deriving DecidableEq, Repr

/-- The UTF-8 bytes of a string (`str::as_bytes`). -/
def strBytes (s : String) : List Nat := s.toUTF8.toList.map (fun b => b.toNat)

/-- `"{chromosome}"` substitution in the dataset's path template
(`self.path.replace("{chromosome}", &chromosome.to_string())`). -/
def substChromosome (template : String) (c : Nat) : String :=
  template.replace "\x7bchromosome\x7d" (toString c)

/-- `Dataset::get_paths`: for per-chromosome datasets, sorts the configured
chromosome list ascending (`Vec::sort`, a stable sort, modelled by
`insertionSort`) and pairs each chromosome with its substituted path.  The
`unwrap` panic on a missing chromosome list is modelled by the empty result
(config validation guarantees `some`). -/
def get_paths (d : Dataset) (config_dir : String) : List (Nat × String) :=
  if d.file_per_chromosome then
    match d.chromosomes with
    | some cs =>
      (List.insertionSort (· ≤ ·) cs).map
        (fun c => (c, config_dir ++ "/" ++ substChromosome d.path c))
    | none => []
  else [(0, config_dir ++ "/" ++ d.path)]

/-! ### `Database::serialize_dataset_header` (`src/database.rs`) -/

/-- The 8-byte zero placeholder pushed for each table-index offset. -/
def placeholder8 : List Nat := [0, 0, 0, 0, 0, 0, 0, 0]

/-- `Database::serialize_column_header`: type byte, name length, name bytes. -/
def serialize_column_header (c : Column) : List Nat :=
  c.type_.toU8 :: (strBytes c.name).length :: strBytes c.name

/-- The per-chromosome part of the dataset header: for each path entry, the
chromosome byte followed by an 8-byte placeholder; also returns the
`(chromosome, placeholder offset)` list.  `off` is the buffer length at which
this part starts. -/
def chromosomeEntries : List (Nat × String) → Nat → List Nat × List (Nat × Nat)
  | [], _ => ([], [])
  | (c, _) :: t, off =>
    let (bs, ptrs) := chromosomeEntries t (off + 9)
    (c :: placeholder8 ++ bs, (c, off + 1) :: ptrs)

/-- `Database::serialize_dataset_header`: name, columns, file count, then one
`(chromosome, u64 placeholder)` pair per file.  `base` is the length of the
output buffer before this header; returns the appended bytes and the
placeholder locations. -/
def serialize_dataset_header (d : Dataset) (base : Nat) : List Nat × List (Nat × Nat) :=
  let nameB := strBytes d.name
  let paths := get_paths d "."
  let head := nameB.length :: nameB ++
    d.columns.length :: (d.columns.map serialize_column_header).flatten ++
    [paths.length]
  let (chromB, ptrs) := chromosomeEntries paths (base + head.length)
  (head ++ chromB, ptrs)

theorem chromosomeEntries_map_fst (paths : List (Nat × String)) (off : Nat) :
    (chromosomeEntries paths off).2.map Prod.fst = paths.map Prod.fst := by
  induction paths generalizing off with
  | nil => rfl
  | cons p t ih => simp [chromosomeEntries, ih]

/-- C10. For a `file_per_chromosome` dataset, `get_paths` returns its pairs
sorted ascending by chromosome — a permutation of the configured list,
regardless of its order — and `serialize_dataset_header` therefore lays out
the header's table entries in exactly that ascending chromosome order. -/
theorem get_paths_sorted (d : Dataset) (dir : String) (cs : List Nat)
    (hf : d.file_per_chromosome = true) (hcs : d.chromosomes = some cs) :
    List.Sorted (· ≤ ·) ((get_paths d dir).map Prod.fst) ∧
    List.Perm ((get_paths d dir).map Prod.fst) cs ∧
    (∀ base, ((serialize_dataset_header d base).2.map Prod.fst) =
      (get_paths d ".").map Prod.fst) := by
  have hpaths : ∀ dir' : String, (get_paths d dir').map Prod.fst =
      List.insertionSort (· ≤ ·) cs := by
    intro dir'
    unfold get_paths
    rw [if_pos hf, hcs]
    simp [Function.comp_def]
  refine ⟨?_, ?_, ?_⟩
  · rw [hpaths dir]
    exact List.sorted_insertionSort _ cs
  · rw [hpaths dir]
    exact List.perm_insertionSort _ cs
  · intro base
    unfold serialize_dataset_header
    simp only [chromosomeEntries_map_fst]

/-- A concrete dataset configuration with an unsorted chromosome list. -/
def sampleDatasetC10 : Dataset :=
  { name := "ds", file_per_chromosome := true, chromosomes := some [3, 1, 2],
    path := "p", columns := [], rows_per_index := 1,
    compression_algorithm := CompressionAlgorithm.gzip }

/-- Witness for C10 at a concrete dataset with unsorted chromosome list. -/
theorem get_paths_sorted_witness :
    (sampleDatasetC10.file_per_chromosome = true) ∧
    (sampleDatasetC10.chromosomes = some [3, 1, 2]) ∧
    (List.Sorted (· ≤ ·) ((get_paths sampleDatasetC10 "d").map Prod.fst) ∧
     List.Perm ((get_paths sampleDatasetC10 "d").map Prod.fst) [3, 1, 2] ∧
     (∀ base, ((serialize_dataset_header sampleDatasetC10 base).2.map Prod.fst) =
       (get_paths sampleDatasetC10 ".").map Prod.fst)) :=
  ⟨rfl, rfl, get_paths_sorted sampleDatasetC10 "d" [3, 1, 2] rfl rfl⟩

/-! ## `src/database.rs`: block serialization -/

/-- `tsv_reader::CellValue`.  A float value is modelled by its 8 big-endian
bytes (the `f64::to_be_bytes` bit pattern, which `from_be_bytes` restores
exactly); a string by its UTF-8 bytes. -/
inductive CellValue where
  | integer (i : Int)
  | float (bytes : List Nat)
  | string (s : List Nat)
deriving DecidableEq, Repr

/-- `database::Row`. -/
abbrev Row := List CellValue

/-- Builder errors (`Err(String)` values of `src/database.rs`, keyed by their
format arguments). -/
inductive BuildError where
  | nonPositivePosition (column : String) (row : Nat)
  | stringTooLong (column : String) (row : Nat)
  | firstCellNotInteger
  | emptyTable
deriving DecidableEq, Repr

/-- The column name used in block-serialization error messages
(`dataset.columns[i_col].name`; an out-of-bounds index, which would panic in
Rust, is modelled by the empty name). -/
def columnName (d : Dataset) (i_col : Nat) : String :=
  ((d.columns.get? i_col).map Column.name).getD ""

/-- One cell of `Database::serialize_dataset_block`: a leading (column 0)
negative integer and an over-long string fail; integers are zig-zag varint
encoded, floats are 8 big-endian bytes, strings are length-prefixed. -/
def serializeCell (d : Dataset) (i_block i_row i_col : Nat) (c : CellValue) :
    Except BuildError (List Nat) :=
  match c with
  | .integer i =>
    if i_col = 0 ∧ i < 0 then
      .error (.nonPositivePosition (columnName d 0) (i_block * d.rows_per_index + i_row))
    else .ok (encodeZigzagI64 i)
  | .float bs => .ok bs
  | .string s =>
    if 255 < s.length then
      .error (.stringTooLong (columnName d i_col) (i_block * d.rows_per_index + i_row))
    else .ok (s.length :: s)

/-- The cells of one row, starting at column index `i_col`. -/
def serializeCells (d : Dataset) (i_block i_row : Nat) :
    Nat → List CellValue → Except BuildError (List Nat)
  | _, [] => .ok []
  | i_col, c :: t => do
    let b ← serializeCell d i_block i_row i_col c
    let bs ← serializeCells d i_block i_row (i_col + 1) t
    .ok (b ++ bs)

/-- The rows of one chunk, starting at row index `i_row` within the block. -/
def serializeRows (d : Dataset) (i_block : Nat) :
    Nat → List Row → Except BuildError (List Nat)
  | _, [] => .ok []
  | i_row, r :: t => do
    let b ← serializeCells d i_block i_row 0 r
    let bs ← serializeRows d i_block (i_row + 1) t
    .ok (b ++ bs)

/-- `Database::serialize_dataset_block`. -/
def serialize_dataset_block (d : Dataset) (rows : List Row) (i_block : Nat) :
    Except BuildError (List Nat) :=
  serializeRows d i_block 0 rows

/-- String cells of a cell are within the 255-byte bound. -/
def cellStringOk : CellValue → Bool
  | .string s => s.length ≤ 255
  | _ => true

/-- The leading cell, if it is an integer, is non-negative. -/
def rowLeadingOk : Row → Bool
  | .integer i :: _ => decide (0 ≤ i)
  | _ => true

theorem serializeCells_ok_of_pos (d : Dataset) (i_block i_row : Nat)
    (t : List CellValue) : ∀ i_col, 1 ≤ i_col → t.all cellStringOk = true →
    ∃ bs, serializeCells d i_block i_row i_col t = .ok bs := by
  induction t with
  | nil => intro i_col _ _; exact ⟨[], rfl⟩
  | cons c t ih =>
    intro i_col hcol hok
    rw [List.all_cons, Bool.and_eq_true] at hok
    obtain ⟨bs, hbs⟩ := ih (i_col + 1) (by omega) hok.2
    match c with
    | .integer i =>
      refine ⟨encodeZigzagI64 i ++ bs, ?_⟩
      simp only [serializeCells, serializeCell]
      rw [if_neg (by omega), hbs]
      rfl
    | .float fb =>
      refine ⟨fb ++ bs, ?_⟩
      simp only [serializeCells, serializeCell]
      rw [hbs]
      rfl
    | .string s =>
      refine ⟨(s.length :: s) ++ bs, ?_⟩
      simp only [serializeCells, serializeCell]
      have hlen : ¬ (255 < s.length) := by
        simp [cellStringOk] at hok
        omega
      rw [if_neg hlen, hbs]
      rfl

theorem serializeCells_ok (d : Dataset) (i_block i_row : Nat) (r : Row)
    (hok : r.all cellStringOk = true) (hlead : rowLeadingOk r = true) :
    ∃ bs, serializeCells d i_block i_row 0 r = .ok bs := by
  match r with
  | [] => exact ⟨[], rfl⟩
  | c :: t =>
    rw [List.all_cons, Bool.and_eq_true] at hok
    obtain ⟨bs, hbs⟩ := serializeCells_ok_of_pos d i_block i_row t 1 (by omega) hok.2
    match c with
    | .integer i =>
      refine ⟨encodeZigzagI64 i ++ bs, ?_⟩
      simp only [serializeCells, serializeCell]
      have hi : 0 ≤ i := by simpa [rowLeadingOk] using hlead
      rw [if_neg (by omega), hbs]
      rfl
    | .float fb =>
      refine ⟨fb ++ bs, ?_⟩
      simp only [serializeCells, serializeCell]
      rw [hbs]
      rfl
    | .string s =>
      refine ⟨(s.length :: s) ++ bs, ?_⟩
      simp only [serializeCells, serializeCell]
      have hlen : ¬ (255 < s.length) := by
        simp [cellStringOk] at hok
        omega
      rw [if_neg hlen, hbs]
      rfl

/-- C8 (amended), part of the statement: with in-bound strings and
non-negative leading integers, `serialize_dataset_block` succeeds — the
position check accepts zero. -/
theorem serializeRows_ok (d : Dataset) (i_block : Nat) (rows : List Row)
    (hok : ∀ r ∈ rows, r.all cellStringOk = true)
    (hlead : ∀ r ∈ rows, rowLeadingOk r = true) :
    ∀ i_row, ∃ bs, serializeRows d i_block i_row rows = .ok bs := by
  induction rows with
  | nil => intro i_row; exact ⟨[], rfl⟩
  | cons r t ih =>
    intro i_row
    obtain ⟨b, hb⟩ := serializeCells_ok d i_block i_row r
      (hok r (List.mem_cons_self r t)) (hlead r (List.mem_cons_self r t))
    obtain ⟨bs, hbs⟩ := ih (fun r' hr' => hok r' (List.mem_cons_of_mem r hr'))
      (fun r' hr' => hlead r' (List.mem_cons_of_mem r hr')) (i_row + 1)
    refine ⟨b ++ bs, ?_⟩
    simp only [serializeRows]
    rw [hb, hbs]
    rfl

/-- C8 (amended). A *negative* leading-position value fails block
serialization with an error naming the position column and the absolute row
index (`i_block * rows_per_index + i_row`); a zero or positive leading
position passes the check, and with in-bound strings the block serializes
successfully.  (The original claim's "zero fails" is refuted by the
counterexample.) -/
theorem serialize_dataset_block_position_check (d : Dataset) (rows : List Row)
    (i_block : Nat) :
    (∀ i r t, rows = (CellValue.integer i :: r) :: t → i < 0 →
      serialize_dataset_block d rows i_block =
        .error (.nonPositivePosition (columnName d 0) (i_block * d.rows_per_index))) ∧
    ((∀ r ∈ rows, r.all cellStringOk = true) → (∀ r ∈ rows, rowLeadingOk r = true) →
      ∃ bs, serialize_dataset_block d rows i_block = .ok bs) := by
  constructor
  · intro i r t hrows hneg
    subst hrows
    simp only [serialize_dataset_block, serializeRows, serializeCells, serializeCell]
    rw [if_pos ⟨trivial, hneg⟩]
    rfl
  · intro hok hlead
    exact serializeRows_ok d i_block rows hok hlead 0

/-- Counterexample to C8 as stated: a *zero* leading position (non-positive)
does not fail block serialization — the check is `*i < 0`. -/
theorem serialize_block_zero_position_counterexample :
    serialize_dataset_block sampleDatasetC10 [[CellValue.integer 0]] 0 =
      .ok [1] := by rfl

/-- Witness for C8 (amended) on a concrete negative-position block. -/
theorem serialize_block_position_check_witness :
    (serialize_dataset_block sampleDatasetC10 [[CellValue.integer (-4)]] 0 =
      .error (.nonPositivePosition (columnName sampleDatasetC10 0)
        (0 * sampleDatasetC10.rows_per_index))) ∧
    (∃ bs, serialize_dataset_block sampleDatasetC10
      [[CellValue.integer 0], [CellValue.integer 7]] 0 = .ok bs) :=
  ⟨(serialize_dataset_block_position_check sampleDatasetC10
      [[CellValue.integer (-4)]] 0).1 (-4) [] [] rfl (by norm_num),
   (serialize_dataset_block_position_check sampleDatasetC10
      [[CellValue.integer 0], [CellValue.integer 7]] 0).2
      (by decide) (by decide)⟩

/-! ## `src/compression.rs` and the builder's compression call

`RowCompressor::compress(algorithm, out)` writes the scratch buffer through
unchanged for `None` and `flate2`-gzip-compressed for `Gzip`.  Gzip itself is
an external crate; it is modelled by an abstract byte-to-byte function `gz`
supplied as a parameter. -/

/-- `compression::RowCompressor::compress`: the bytes appended to the output
for a given scratch `buffer`. -/
def RowCompressor.compress (gz : List Nat → List Nat) :
    CompressionAlgorithm → List Nat → List Nat
  | .none, buffer => buffer
  | .gzip, buffer => gz buffer

/-- The bytes `Database::serialize_dataset` emits for one chunk: the chunk's
serialized rows passed through `RowCompressor::compress` with the hard-coded
argument `CompressionAlgorithm::Gzip` (database.rs line 233) — the dataset's
`compression_algorithm` field is not consulted. -/
def emitted_block (gz : List Nat → List Nat) (d : Dataset) (chunk : List Row)
    (i_block : Nat) : Except BuildError (List Nat) :=
  (serialize_dataset_block d chunk i_block).map
    (RowCompressor.compress gz CompressionAlgorithm.gzip)

theorem serializeCell_compression_irrelevant (d : Dataset) (a : CompressionAlgorithm) (i_block i_row i_col : Nat)
    (c : CellValue) :
    serializeCell { d with compression_algorithm := a } i_block i_row i_col c =
      serializeCell d i_block i_row i_col c := by
  cases c <;> rfl

theorem serializeCells_compression_irrelevant (d : Dataset) (a : CompressionAlgorithm) (i_block i_row : Nat) :
    ∀ i_col cells,
      serializeCells { d with compression_algorithm := a } i_block i_row i_col cells =
        serializeCells d i_block i_row i_col cells := by
  intro i_col cells
  induction cells generalizing i_col with
  | nil => rfl
  | cons c t ih =>
    simp only [serializeCells, serializeCell_compression_irrelevant, ih]

theorem serializeRows_compression_irrelevant (d : Dataset) (a : CompressionAlgorithm) (i_block : Nat) :
    ∀ i_row rows,
      serializeRows { d with compression_algorithm := a } i_block i_row rows =
        serializeRows d i_block i_row rows := by
  intro i_row rows
  induction rows generalizing i_row with
  | nil => rfl
  | cons r t ih =>
    simp only [serializeRows, serializeCells_compression_irrelevant, ih]

/-- C4, what actually holds: the block bytes the builder emits are always the
gzip-compressed serialized rows, no matter which `compression_algorithm` the
dataset is configured with — the field is ignored at the call site. -/
theorem emitted_block_ignores_configured_algorithm (gz : List Nat → List Nat)
    (d : Dataset) (a : CompressionAlgorithm) (chunk : List Row) (i_block : Nat) :
    emitted_block gz { d with compression_algorithm := a } chunk i_block =
      emitted_block gz d chunk i_block ∧
    emitted_block gz d chunk i_block =
      (serialize_dataset_block d chunk i_block).map
        (RowCompressor.compress gz CompressionAlgorithm.gzip) := by
  constructor
  · unfold emitted_block serialize_dataset_block
    rw [serializeRows_compression_irrelevant]
  · rfl

/-- C4, the divergence evaluated: a dataset configured with compression
`none` still gets gzip-emitted blocks — with a stand-in `gz` that prepends a
marker byte, the emitted block differs from the raw serialized rows `[21]`
(`vint64` zig-zag of 5) that the claim requires for `none`. -/
theorem emitted_block_none_config_uses_gzip :
    ({ sampleDatasetC10 with compression_algorithm := CompressionAlgorithm.none
      : Dataset }.compression_algorithm = CompressionAlgorithm.none) ∧
    emitted_block (fun b => 99 :: b)
      { sampleDatasetC10 with compression_algorithm := CompressionAlgorithm.none }
      [[CellValue.integer 5]] 0 = .ok (99 :: [21]) ∧
    RowCompressor.compress (fun b => 99 :: b) CompressionAlgorithm.none [21] = [21] ∧
    (99 :: [21] : List Nat) ≠ [21] := by
  refine ⟨rfl, by rfl, rfl, by simp⟩

/-! ## `src/tsv_reader.rs`: `TabSeparatedFileReader::read_all`

`read_all` consumes the (already tokenized) data lines: for each line it
first walks the schema columns checking for *absent* fields and applying the
missing-value policy, and then parses every selected field.  A line is a list
of its fields; tokenization itself (`FastSplit`) is outside this claim. -/

/-- Ingestion errors (`Err(String)` returns and panics of `read_all`). -/
inductive TsvError where
  | missingValue (column : Nat) (row : Nat)
  | parseFailed (value : String)
  | panicIndexOutOfBounds
deriving DecidableEq, Repr

/-- `str::parse::<i64>` (within the i64 range). -/
def parseI64 (s : String) : Option Int :=
  match s.toInt? with
  | some i => if -(2 ^ 63) ≤ i ∧ i < 2 ^ 63 then some i else none
  | none => none

/-- `tsv_reader::ColumnType::get_cell_value`.  Parsing a float's text into
its bit pattern is external arithmetic, supplied as `floatParse`. -/
def ColumnType.get_cell_value (floatParse : String → Option (List Nat)) :
    ColumnType → String → Except TsvError CellValue
  | .integer, v =>
    match parseI64 v with
    | some i => .ok (.integer i)
    | none => .error (.parseFailed v)
  | .float, v =>
    match floatParse v with
    | some bs => .ok (.float bs)
    | none => .error (.parseFailed v)
  | .volatileString, v => .ok (.string (strBytes v))
  | .hashtableString, v => .ok (.string (strBytes v))

/-- Outcome of `read_all`'s first per-line pass over the schema columns. -/
inductive RowAction where
  | omit
  | fail (e : TsvError)
  | proceed
deriving DecidableEq, Repr

/-- The first pass of `read_all` over one line: for each selected column, if
the field at its index is *absent* (`row.get(wide_index)` is `None`), apply
the column's missing-value policy — `OmitRow` skips the line, `Throw` fails,
and `ReplaceWithEmptyString` does nothing (the source comment assumes the
value "is already an empty string").  Present fields — even empty ones — do
not trigger any policy. -/
def firstPass (columns : List (Nat × Column)) (line : List String) (counter : Nat) :
    RowAction :=
  match columns with
  | [] => .proceed
  | (wide, col) :: t =>
    match line.get? wide with
    | some _ => firstPass t line counter
    | none =>
      match col.missing_value_policy with
      | .omitRow => .omit
      | .throw => .fail (.missingValue wide counter)
      | .replaceWithEmptyString => firstPass t line counter

/-- The second pass: `row.get(wide).expect("Column index out of bounds")`
followed by `get_cell_value`; an absent field at this point is a panic. -/
def parseLine (floatParse : String → Option (List Nat))
    (columns : List (Nat × Column)) (line : List String) : Except TsvError Row :=
  match columns with
  | [] => .ok []
  | (wide, col) :: t =>
    match line.get? wide with
    | none => .error .panicIndexOutOfBounds
    | some v => do
      let c ← col.type_.get_cell_value floatParse v
      let rest ← parseLine floatParse t line
      .ok (c :: rest)

/-- The `'row_loop'` of `read_all`, with the 1-based line counter. -/
def read_all_go (floatParse : String → Option (List Nat))
    (columns : List (Nat × Column)) :
    Nat → List (List String) → Except TsvError (List Row)
  | _, [] => .ok []
  | counter, line :: rest =>
    match firstPass columns line counter with
    | .omit => read_all_go floatParse columns (counter + 1) rest
    | .fail e => .error e
    | .proceed => do
      let row ← parseLine floatParse columns line
      let rows ← read_all_go floatParse columns (counter + 1) rest
      .ok (row :: rows)

/-- `TabSeparatedFileReader::read_all` over tokenized data lines. -/
def read_all (floatParse : String → Option (List Nat))
    (columns : List (Nat × Column)) (lines : List (List String)) :
    Except TsvError (List Row) :=
  read_all_go floatParse columns 1 lines

/-- A volatile-string column with the given policy. -/
def volColumn (name : String) (p : MissingValuePolicy) : Column :=
  { name := name, type_ := ColumnType.volatileString, role := ColumnRole.data,
    missing_value_policy := p }

/-- An integer column with the given policy. -/
def intColumn (name : String) (p : MissingValuePolicy) : Column :=
  { name := name, type_ := ColumnType.integer, role := ColumnRole.position,
    missing_value_policy := p }

/-- C7 refuted on the code: (1) with `ReplaceWithEmptyString` on an absent
field, `read_all` does not substitute `""` and produce the row — the second
pass panics at `expect("Column index out of bounds")`; (2) an *empty but
present* field triggers no policy at all: with `OmitRow` on an integer column
the row is not omitted, the empty string just fails integer parsing. -/
theorem read_all_policy_divergence :
    read_all (fun _ => Option.none)
      [(0, volColumn "a" MissingValuePolicy.replaceWithEmptyString),
       (1, volColumn "b" MissingValuePolicy.replaceWithEmptyString)]
      [["x"]] = .error TsvError.panicIndexOutOfBounds ∧
    read_all (fun _ => Option.none)
      [(0, intColumn "pos" MissingValuePolicy.omitRow)]
      [[""]] = .error (TsvError.parseFailed "") := by
  constructor
  · rfl
  · rfl

/-! ## `Database::serialize_table_index` and
`DatabaseQueryClient::read_table_index` (`src/database.rs`, `src/query.rs`) -/

/-- The 5-byte `INDEX` magic. -/
def indexMagic : List Nat := [73, 78, 68, 69, 88]

/-- `Database::serialize_table_index`: `INDEX` magic, `max_position`,
`end_offset` (a placeholder back-patched to the buffer length after the
index), `num_entries`, then the varint `(position, offset)` pairs.  `base`
is the buffer length at which the index starts. -/
def serialize_table_index (base : Nat) (indices : List (Nat × Nat))
    (max_position : Nat) : List Nat :=
  let pairs := (indices.map (fun po => vint64Encode po.1 ++ vint64Encode po.2)).flatten
  let total := 5 + 8 + 8 + 8 + pairs.length
  indexMagic ++ beBytes8 max_position ++ beBytes8 (base + total) ++
    beBytes8 indices.length ++ pairs

/-- `DatabaseQueryClient::read_u64`: 8 big-endian bytes off the reader. -/
def readU64BE (bytes : List Nat) : Option (Nat × List Nat) :=
  if bytes.length < 8 then none else some (fromBE (bytes.take 8), bytes.drop 8)

/-- `DatabaseQueryClient::read_vint64` (the `.unwrap()` on a decode error is
a panic, modelled as failure). -/
def read_vint64 (bytes : List Nat) : Option (Nat × List Nat) :=
  match bytes with
  | [] => none
  | b0 :: _ =>
    let len := decodedLen b0
    if bytes.length < len then none
    else
      match vint64Decode (bytes.take len) with
      | some (u, _) => some (u, bytes.drop len)
      | none => none

/-- `query::TableIndex` as defined in `src/query.rs`: only the ordered map
and an `end_offset` field — no `max_position`, no index start offset. -/
structure TableIndexCore where
  inner : List (Nat × Nat)
  end_offset : Nat
deriving DecidableEq, Repr

/-- `BTreeMap::insert` on the sorted association list (overwrites an equal
key). -/
def btreeInsert (k v : Nat) : List (Nat × Nat) → List (Nat × Nat)
  | [] => [(k, v)]
  | (k', v') :: t =>
    if k < k' then (k, v) :: (k', v') :: t
    else if k = k' then (k, v) :: t
    else (k', v') :: btreeInsert k v t

/-- The `for _ in 0..num_indices` loop of `read_table_index`. -/
def readIndexPairs : Nat → List Nat → List (Nat × Nat) →
    Option (List (Nat × Nat) × List Nat)
  | 0, bytes, acc => some (acc, bytes)
  | n + 1, bytes, acc => do
    let (p, bytes1) ← read_vint64 bytes
    let (o, bytes2) ← read_vint64 bytes1
    readIndexPairs n bytes2 (btreeInsert p o acc)

/-- `DatabaseQueryClient::read_table_index` exactly as in `src/query.rs`:
seek to `offset`, validate the `INDEX` magic, then read *two* `u64`s — bound
to `end_offset` and `num_indices` — and then `num_indices` varint pairs.
Note what this means against the builder's layout: the file's `max_position`
field is read into `end_offset`, the file's `end_offset` field is read into
`num_indices`, and the reader then parses pair bytes starting at the
`num_entries` field. -/
def read_table_index (file : List Nat) (offset : Nat) : Option TableIndexCore :=
  let s := file.drop offset
  if s.length < 5 then none
  else if s.take 5 ≠ indexMagic then none
  else do
    let (end_offset, s1) ← readU64BE (s.drop 5)
    let (num_indices, s2) ← readU64BE s1
    let (inner, _) ← readIndexPairs num_indices s2 []
    some { inner := inner, end_offset := end_offset }

/-- C3 refuted on the code: the builder writes
`INDEX | max_position | end_offset | num_entries | pairs`, but
`read_table_index` reads only two `u64` header fields, so on the builder's
own output (entries `[(10, 100)]`, `max_position = 30`, index at offset 0)
it takes `30` as the end offset, `31` (the true end offset) as the entry
count, and fails attempting to read 31 varint pairs from 10 bytes.  It also
returns no `max_position` and no index start offset (the `TableIndexCore`
structure has no such fields). -/
theorem read_table_index_header_mismatch :
    serialize_table_index 0 [(10, 100)] 30 =
      indexMagic ++ beBytes8 30 ++ beBytes8 31 ++ beBytes8 1 ++ [21, 201] ∧
    read_table_index (serialize_table_index 0 [(10, 100)] 30) 0 = none := by
  constructor
  · rfl
  · rfl

/-! ## `python_bindings/src/lib.rs`: `RowReader::deserialize_range`

The per-column read/skip lambdas over the decompressed block bytes.  The
`u64` query bounds are compared against the leading `i64` cell after an
`as i64` cast, which wraps — modelled by `u64AsI64`. -/

/-- The wrapping `u64 as i64` cast. -/
def u64AsI64 (n : Nat) : Int :=
  if n % 2 ^ 64 < 2 ^ 63 then ((n % 2 ^ 64 : Nat) : Int)
  else ((n % 2 ^ 64 : Nat) : Int) - 2 ^ 64

/-- The wrapping `i64 as u64` / `i64 as usize` cast. -/
def i64AsU64 (i : Int) : Nat := (i % (2 ^ 64 : Int)).toNat

/-- One read lambda of `deserialize_range`: value and bytes consumed.
A `HashtableString` column is `todo!()` (a panic), checked before the loop. -/
def readCell : ColumnType → List Nat → Option (CellValue × Nat)
  | .integer, bytes => (read_zigzag_i64 bytes).map (fun vl => (.integer vl.1, vl.2))
  | .float, bytes => (read_f64 bytes).map (fun bs => (.float bs, 8))
  | .volatileString, bytes => (read_string_u8 bytes).map (fun sl => (.string sl.1, sl.2))
  | .hashtableString, _ => none

/-- One skip lambda of `deserialize_range` (its `.unwrap()` panics on
failure, modelled as overall failure). -/
def skipCell : ColumnType → List Nat → Option Nat
  | .integer, bytes => skip_zigzag_i64 bytes
  | .float, bytes => skip_f64 bytes
  | .volatileString, bytes => skip_string_u8 bytes
  | .hashtableString, _ => none

/-- Reading the cells of the remaining columns in order. -/
def readCells : List ColumnType → List Nat → Option (List CellValue × Nat)
  | [], _ => some ([], 0)
  | t :: ts, bytes => do
    let (c, n) ← readCell t bytes
    let (cs, m) ← readCells ts (bytes.drop n)
    some (c :: cs, n + m)

/-- Skipping the cells of the remaining columns in order. -/
def skipCells : List ColumnType → List Nat → Option Nat
  | [], _ => some 0
  | t :: ts, bytes => do
    let n ← skipCell t bytes
    let m ← skipCells ts (bytes.drop n)
    some (n + m)

/-- The `'row_loop` of `deserialize_range`: reads the leading `i64`; a value
`> position_value_end as i64` stops the scan, one `< position_value_start as
i64` skips the row's remaining columns via the skip lambdas; otherwise the
row is read and emitted.  `fuel` bounds the iteration count (each iteration
consumes at least one byte; an empty column list would loop forever in the
source and exhausts the fuel here). -/
def deserializeRangeGo (cols : List ColumnType) (pstart pend : Nat) :
    Nat → List Nat → Option (List Row)
  | 0, bytes => if bytes.isEmpty then some [] else none
  | fuel + 1, bytes =>
    if bytes.isEmpty then some []
    else
      match cols with
      | [] => none
      | t0 :: ts =>
        match readCell t0 bytes with
        | none => none
        | some (c0, n0) =>
          let rest := bytes.drop n0
          match c0 with
          | .integer p =>
            if u64AsI64 pend < p then some []
            else if p < u64AsI64 pstart then
              match skipCells ts rest with
              | none => none
              | some m => deserializeRangeGo cols pstart pend fuel (rest.drop m)
            else
              match readCells ts rest with
              | none => none
              | some (cs, m) =>
                (deserializeRangeGo cols pstart pend fuel (rest.drop m)).map
                  (fun rows => (CellValue.integer p :: cs) :: rows)
          | _ => none

/-- `RowReader::deserialize_range` over one decompressed block. -/
def deserialize_range (cols : List ColumnType) (bytes : List Nat)
    (pstart pend : Nat) : Option (List Row) :=
  if cols.any (fun t => t = ColumnType.hashtableString) then none
  else deserializeRangeGo cols pstart pend (bytes.length + 1) bytes

/-! ### `RowReader::query_range` -/

/-- The python bindings' `TableIndex` (the parts `query_range` uses): the
ordered map entries, the index start offset, and the dataset's column types. -/
structure TableIndexM where
  entries : List (Nat × Nat)
  index_start_offset : Nat
  columns : List ColumnType
deriving DecidableEq, Repr

/-- `range.windows(2)` as a list of adjacent pairs. -/
def windowPairs (l : List α) : List (α × α) := l.zip l.tail

/-- `RowReader::query_range`: select the block entries via `get_range`,
append the sentinel `(position_value_end, index_start_offset)`, then for each
adjacent window read the byte range between the two offsets, decompress it
(`decompFirst`, the dataset's `RowDecompressor`) and deserialize with bounds
`(max(block_position, position_value_start), next_position)`. -/
def query_range (decompFirst : List Nat → Option (List Nat)) (file : List Nat)
    (idx : TableIndexM) (pstart pend : Nat) : Option (List Row) :=
  let range := get_range idx.entries pstart pend
  match range with
  | [] => some []
  | _ :: _ =>
    let range' := range ++ [(pend, idx.index_start_offset)]
    (windowPairs range').foldlM (fun rows wnd =>
      let compressed := (file.drop wnd.1.2).take (wnd.2.2 - wnd.1.2)
      match decompFirst compressed with
      | none => none
      | some slice =>
        (deserialize_range idx.columns slice (max wnd.1.1 pstart) wnd.2.1).map
          (fun newRows => rows ++ newRows)) []

/-! ### The builder's per-table loop (`Database::serialize_dataset`) -/

/-- `slice::chunks(n)`: consecutive chunks of `n` elements, the last possibly
shorter.  (`n = 0` panics in Rust; configurations guarantee `n ≥ 1`.) -/
def chunksOf (n : Nat) : List α → List (List α)
  | [] => []
  | x :: xs => (x :: xs.take (n - 1)) :: chunksOf n (xs.drop (n - 1))
termination_by l => l.length
decreasing_by simp_wf; have := List.length_drop (n - 1) xs; omega

/-- The chunk loop of `serialize_dataset`: records
`(first_position as usize, buffer length)` per chunk, serializes the chunk,
and appends the compressed bytes — the compressor is invoked with the
hard-coded `CompressionAlgorithm::Gzip`, abstracted here as `comp`. -/
def serialize_dataset_chunks (comp : List Nat → List Nat) (d : Dataset) :
    List (List Row) → Nat → Nat → Except BuildError (List (Nat × Nat) × List Nat)
  | [], _, _ => .ok ([], [])
  | chunk :: cs, offset, i_block =>
    match chunk.head? with
    | Option.none => .error .emptyTable
    | some r =>
      match r.head? with
      | some (.integer i) => do
        let blockB ← serialize_dataset_block d chunk i_block
        let compB := comp blockB
        let (es, ps) ← serialize_dataset_chunks comp d cs (offset + compB.length) (i_block + 1)
        .ok ((i64AsU64 i, offset) :: es, compB ++ ps)
      | _ => .error .firstCellNotInteger

/-- The per-table part of `Database::serialize_dataset`: `max_position` from
the last row, then the chunk loop over `rows.chunks(rows_per_index)`.
Returns the recorded `(first_position, offset)` list, the emitted payload
bytes, and `max_position`; `base` is the output length where the table
starts. -/
def build_table (comp : List Nat → List Nat) (d : Dataset) (base : Nat)
    (rows : List Row) : Except BuildError (List (Nat × Nat) × List Nat × Nat) := do
  let maxPos ←
    match rows.getLast? with
    | Option.none => Except.error BuildError.emptyTable
    | some r =>
      match r.head? with
      | some (.integer i) => Except.ok (i64AsU64 i)
      | _ => Except.error BuildError.firstCellNotInteger
  let (entries, payload) ←
    serialize_dataset_chunks comp d (chunksOf d.rows_per_index rows) base 0
  .ok (entries, payload, maxPos)

/-! ### The pure view of a built table

When every cell is well typed the builder's error paths are dead, and the
emitted bytes have this direct shape, used by the characterization proofs. -/

/-- The serialized bytes of one cell (the error-free case of
`serialize_dataset_block`). -/
def cellBytes : CellValue → List Nat
  | .integer i => encodeZigzagI64 i
  | .float bs => bs
  | .string s => s.length :: s

/-- The serialized bytes of one row. -/
def rowBytes (r : Row) : List Nat := (r.map cellBytes).flatten

/-- The serialized bytes of one block of rows. -/
def blockBytes (rows : List Row) : List Nat := (rows.map rowBytes).flatten

/-- The leading position of a row (its first cell, when an integer). -/
def leadPos : Row → Int
  | CellValue.integer i :: _ => i
  | _ => 0

/-- The recorded first position of a block, after the `as usize` cast. -/
def firstPos : List Row → Nat
  | (CellValue.integer i :: _) :: _ => i64AsU64 i
  | _ => 0

/-- The recorded `max_position` of a table (its last row's leading cell). -/
def maxPosOf (rows : List Row) : Nat :=
  match rows.getLast? with
  | some (CellValue.integer i :: _) => i64AsU64 i
  | _ => 0

/-- The index entries the builder records, with offsets accumulated from `o`. -/
def entriesOf (comp : List Nat → List Nat) (o : Nat) : List (List Row) → List (Nat × Nat)
  | [] => []
  | c :: cs => (firstPos c, o) :: entriesOf comp (o + (comp (blockBytes c)).length) cs

/-- The payload bytes the builder emits: the concatenated compressed blocks. -/
def payloadOf (comp : List Nat → List Nat) : List (List Row) → List Nat
  | [] => []
  | c :: cs => comp (blockBytes c) ++ payloadOf comp cs

/-- A cell value matching its column type and the machine-level invariants
(`i64` range, 8 float bytes, 255-byte valid-UTF-8 strings). -/
def wellTypedCell : ColumnType → CellValue → Bool
  | .integer, .integer i => decide (-(2 ^ 63) ≤ i) && decide (i < 2 ^ 63)
  | .float, .float bs => decide (bs.length = 8)
  | .volatileString, .string s => decide (s.length ≤ 255) && isValidUtf8 s
  | _, _ => false

/-- A row matching the column list positionally. -/
def wellTypedRow : List ColumnType → Row → Bool
  | [], [] => true
  | t :: ts, c :: cs => wellTypedCell t c && wellTypedRow ts cs
  | _, _ => false

theorem readCell_cellBytes (t : ColumnType) (c : CellValue) (rest : List Nat)
    (h : wellTypedCell t c = true) :
    readCell t (cellBytes c ++ rest) = some (c, (cellBytes c).length) := by
  match t, c with
  | .integer, .integer i =>
    simp only [wellTypedCell, Bool.and_eq_true, decide_eq_true_eq] at h
    simp only [readCell, cellBytes]
    rw [read_zigzag_i64_encode i h.1 h.2 rest]
    rfl
  | .float, .float bs =>
    simp only [wellTypedCell, decide_eq_true_eq] at h
    simp only [readCell, cellBytes, read_f64]
    rw [if_neg (by simp [h]), List.take_append_of_le_length (by omega)]
    rw [List.take_of_length_le (by omega)]
    simp [h]
  | .volatileString, .string s =>
    simp only [wellTypedCell, Bool.and_eq_true, decide_eq_true_eq] at h
    simp only [readCell, cellBytes, read_string_u8, List.cons_append]
    rw [if_neg (by simp), List.take_append_of_le_length (by omega)]
    rw [List.take_of_length_le (by omega), if_pos h.2]
    rfl

theorem skipCell_cellBytes (t : ColumnType) (c : CellValue) (rest : List Nat)
    (h : wellTypedCell t c = true) :
    skipCell t (cellBytes c ++ rest) = some ((cellBytes c).length) := by
  match t, c with
  | .integer, .integer i =>
    simp only [wellTypedCell, Bool.and_eq_true, decide_eq_true_eq] at h
    simp only [skipCell, cellBytes]
    exact skip_zigzag_i64_encode i h.1 h.2 rest
  | .float, .float bs =>
    simp only [wellTypedCell, decide_eq_true_eq] at h
    simp only [skipCell, cellBytes, skip_f64]
    rw [if_neg (by simp [h])]
    simp [h]
  | .volatileString, .string s =>
    simp only [wellTypedCell, Bool.and_eq_true, decide_eq_true_eq] at h
    simp only [skipCell, cellBytes, skip_string_u8, List.cons_append]
    rw [if_neg (by simp)]
    simp [Nat.add_comm]

theorem rowBytes_cons (c : CellValue) (cs : List CellValue) :
    rowBytes (c :: cs) = cellBytes c ++ rowBytes cs := by
  simp [rowBytes]

theorem blockBytes_cons (r : Row) (rs : List Row) :
    blockBytes (r :: rs) = rowBytes r ++ blockBytes rs := by
  simp [blockBytes]

theorem readCells_rowBytes (ts : List ColumnType) (cs : List CellValue)
    (rest : List Nat) (h : wellTypedRow ts cs = true) :
    readCells ts (rowBytes cs ++ rest) = some (cs, (rowBytes cs).length) := by
  induction ts generalizing cs rest with
  | nil =>
    match cs with
    | [] => simp [readCells, rowBytes]
    | _ :: _ => simp [wellTypedRow] at h
  | cons t ts ih =>
    match cs with
    | [] => simp [wellTypedRow] at h
    | c :: cs' =>
      rw [wellTypedRow, Bool.and_eq_true] at h
      rw [rowBytes_cons, List.append_assoc]
      simp only [readCells]
      rw [readCell_cellBytes t c _ h.1]
      simp only [Option.bind_eq_bind, Option.some_bind]
      rw [List.drop_left, ih cs' rest h.2]
      simp [List.length_append]

theorem skipCells_rowBytes (ts : List ColumnType) (cs : List CellValue)
    (rest : List Nat) (h : wellTypedRow ts cs = true) :
    skipCells ts (rowBytes cs ++ rest) = some ((rowBytes cs).length) := by
  induction ts generalizing cs rest with
  | nil =>
    match cs with
    | [] => simp [skipCells, rowBytes]
    | _ :: _ => simp [wellTypedRow] at h
  | cons t ts ih =>
    match cs with
    | [] => simp [wellTypedRow] at h
    | c :: cs' =>
      rw [wellTypedRow, Bool.and_eq_true] at h
      rw [rowBytes_cons, List.append_assoc]
      simp only [skipCells]
      rw [skipCell_cellBytes t c _ h.1]
      simp only [Option.bind_eq_bind, Option.some_bind]
      rw [List.drop_left, ih cs' rest h.2]
      simp [List.length_append]

/-! ### The builder's output in its pure form -/

theorem serializeCells_eq_pure_pos (d : Dataset) (i_block i_row : Nat)
    (cs : List CellValue) : ∀ i_col, 1 ≤ i_col →
    (∀ c ∈ cs, cellStringOk c = true) →
    serializeCells d i_block i_row i_col cs = .ok ((cs.map cellBytes).flatten) := by
  induction cs with
  | nil => intro i_col _ _; rfl
  | cons c t ih =>
    intro i_col hcol hok
    have hih := ih (i_col + 1) (by omega)
      (fun c' hc' => hok c' (List.mem_cons_of_mem c hc'))
    match c with
    | .integer i =>
      simp only [serializeCells, serializeCell]
      rw [if_neg (by omega), hih]
      rfl
    | .float fb =>
      simp only [serializeCells, serializeCell]
      rw [hih]
      rfl
    | .string s =>
      have hlen : ¬ (255 < s.length) := by
        have := hok (.string s) (List.mem_cons_self _ _)
        simp [cellStringOk] at this
        omega
      simp only [serializeCells, serializeCell]
      rw [if_neg hlen, hih]
      rfl

theorem serializeCells_eq_pure (d : Dataset) (i_block i_row : Nat) (r : Row)
    (hok : r.all cellStringOk = true) (hlead : rowLeadingOk r = true) :
    serializeCells d i_block i_row 0 r = .ok (rowBytes r) := by
  match r with
  | [] => rfl
  | c :: t =>
    rw [List.all_cons, Bool.and_eq_true] at hok
    have hih := serializeCells_eq_pure_pos d i_block i_row t 1 (by omega) (by
      intro c' hc'
      exact List.all_eq_true.mp hok.2 c' hc')
    match c with
    | .integer i =>
      have hi : 0 ≤ i := by simpa [rowLeadingOk] using hlead
      simp only [serializeCells, serializeCell]
      rw [if_neg (by omega), hih]
      rfl
    | .float fb =>
      simp only [serializeCells, serializeCell]
      rw [hih]
      rfl
    | .string s =>
      have hlen : ¬ (255 < s.length) := by
        have := hok.1
        simp [cellStringOk] at this
        omega
      simp only [serializeCells, serializeCell]
      rw [if_neg hlen, hih]
      rfl

theorem serialize_dataset_block_eq_pure (d : Dataset) (rows : List Row)
    (i_block : Nat) (hok : ∀ r ∈ rows, r.all cellStringOk = true)
    (hlead : ∀ r ∈ rows, rowLeadingOk r = true) :
    serialize_dataset_block d rows i_block = .ok (blockBytes rows) := by
  suffices h : ∀ i_row, serializeRows d i_block i_row rows = .ok (blockBytes rows) by
    exact h 0
  induction rows with
  | nil => intro i_row; rfl
  | cons r t ih =>
    intro i_row
    have hr := serializeCells_eq_pure d i_block i_row r
      (hok r (List.mem_cons_self r t)) (hlead r (List.mem_cons_self r t))
    have ht := ih (fun r' hr' => hok r' (List.mem_cons_of_mem r hr'))
      (fun r' hr' => hlead r' (List.mem_cons_of_mem r hr')) (i_row + 1)
    simp only [serializeRows]
    rw [hr, ht, blockBytes_cons]
    rfl

theorem chunksOf_flatten (n : Nat) (l : List α) : (chunksOf n l).flatten = l := by
  induction l using chunksOf.induct n with
  | case1 => simp [chunksOf]
  | case2 x xs ih =>
    rw [chunksOf]
    simp only [List.flatten_cons, ih]
    simp

theorem chunksOf_ne_nil (n : Nat) (l : List α) : ∀ c ∈ chunksOf n l, c ≠ [] := by
  induction l using chunksOf.induct n with
  | case1 => intro c hc; simp [chunksOf] at hc
  | case2 x xs ih =>
    intro c hc
    rw [chunksOf] at hc
    rcases List.mem_cons.mp hc with rfl | hc'
    · simp
    · exact ih c hc'

theorem chunksOf_sublist (n : Nat) (l : List α) :
    ∀ c ∈ chunksOf n l, List.Sublist c l := by
  induction l using chunksOf.induct n with
  | case1 => intro c hc; simp [chunksOf] at hc
  | case2 x xs ih =>
    intro c hc
    rw [chunksOf] at hc
    rcases List.mem_cons.mp hc with rfl | hc'
    · exact List.Sublist.cons₂ x (List.take_sublist _ _)
    · exact ((ih c hc').trans (List.drop_sublist _ _)).trans (List.sublist_cons_self _ _)

theorem exceptBind_ok {ε α β : Type} (a : α) (f : α → Except ε β) :
    (Except.ok a >>= f : Except ε β) = f a := rfl

theorem serialize_dataset_chunks_eq (comp : List Nat → List Nat) (d : Dataset)
    (blocks : List (List Row))
    (hhead : ∀ c ∈ blocks, ∃ i cs rs, c = (CellValue.integer i :: cs) :: rs)
    (hstr : ∀ c ∈ blocks, ∀ r ∈ c, r.all cellStringOk = true)
    (hlead : ∀ c ∈ blocks, ∀ r ∈ c, rowLeadingOk r = true) :
    ∀ offset i_block, serialize_dataset_chunks comp d blocks offset i_block =
      .ok (entriesOf comp offset blocks, payloadOf comp blocks) := by
  induction blocks with
  | nil => intro offset i_block; rfl
  | cons c cs ih =>
    intro offset i_block
    obtain ⟨i, cells, rs, rfl⟩ := hhead c (List.mem_cons_self c cs)
    have hblock := serialize_dataset_block_eq_pure d
      ((CellValue.integer i :: cells) :: rs) i_block
      (hstr _ (List.mem_cons_self _ _)) (hlead _ (List.mem_cons_self _ _))
    have hih := ih (fun c' hc' => hhead c' (List.mem_cons_of_mem _ hc'))
      (fun c' hc' => hstr c' (List.mem_cons_of_mem _ hc'))
      (fun c' hc' => hlead c' (List.mem_cons_of_mem _ hc'))
      (offset + (comp (blockBytes ((CellValue.integer i :: cells) :: rs))).length)
      (i_block + 1)
    simp only [serialize_dataset_chunks, List.head?_cons]
    rw [hblock]
    simp only [exceptBind_ok]
    rw [hih]
    simp only [exceptBind_ok]
    rfl

theorem build_table_eq (comp : List Nat → List Nat) (d : Dataset) (base : Nat)
    (rows : List Row) (hne : rows ≠ [])
    (hshape : ∀ r ∈ rows, ∃ i cs, r = CellValue.integer i :: cs)
    (hstr : ∀ r ∈ rows, r.all cellStringOk = true)
    (hlead : ∀ r ∈ rows, rowLeadingOk r = true) :
    build_table comp d base rows =
      .ok (entriesOf comp base (chunksOf d.rows_per_index rows),
        payloadOf comp (chunksOf d.rows_per_index rows), maxPosOf rows) := by
  have hmem : ∀ c ∈ chunksOf d.rows_per_index rows, ∀ r ∈ c, r ∈ rows := by
    intro c hc r hr
    exact (chunksOf_sublist d.rows_per_index rows c hc).subset hr
  obtain ⟨rlast, hrlast⟩ : ∃ rlast, rows.getLast? = some rlast := by
    match rows, hne with
    | r :: t, _ => exact ⟨(r :: t).getLast (by simp), List.getLast?_eq_getLast _ _⟩
  have hrlast_mem : rlast ∈ rows := List.mem_of_getLast?_eq_some hrlast
  obtain ⟨ilast, cslast, rfl⟩ := hshape rlast hrlast_mem
  have hchunks := serialize_dataset_chunks_eq comp d (chunksOf d.rows_per_index rows)
    (by
      intro c hc
      have hcne := chunksOf_ne_nil d.rows_per_index rows c hc
      match c, hcne with
      | r0 :: rs, _ =>
        obtain ⟨i, cs, rfl⟩ := hshape r0 (hmem _ hc _ (List.mem_cons_self _ _))
        exact ⟨i, cs, rs, rfl⟩)
    (fun c hc r hr => hstr r (hmem c hc r hr))
    (fun c hc r hr => hlead r (hmem c hc r hr))
    base 0
  simp only [build_table, hrlast]
  rw [hchunks]
  simp only [maxPosOf, hrlast]
  rfl

/-! ### `deserialize_range` on a serialized block -/

theorem wellTypedRow_int_shape (ts : List ColumnType) (r : Row)
    (h : wellTypedRow (ColumnType.integer :: ts) r = true) :
    ∃ i cs, r = CellValue.integer i :: cs ∧ -(2 ^ 63) ≤ i ∧ i < 2 ^ 63 ∧
      wellTypedRow ts cs = true := by
  match r with
  | [] => simp [wellTypedRow] at h
  | c :: cs =>
    rw [wellTypedRow, Bool.and_eq_true] at h
    match c with
    | .integer i =>
      have hb := h.1
      rw [wellTypedCell, Bool.and_eq_true, decide_eq_true_eq, decide_eq_true_eq] at hb
      exact ⟨i, cs, rfl, hb.1, hb.2, h.2⟩
    | .float _ => simp [wellTypedCell] at h
    | .string _ => simp [wellTypedCell] at h

theorem encodeZigzagI64_length_pos (i : Int) : 1 ≤ (encodeZigzagI64 i).length := by
  rw [encodeZigzagI64, vint64Encode_length]
  exact encodedLenU_pos _

/-- The row loop of `deserialize_range` over the exact bytes of a serialized
block of (weakly) position-sorted, well-typed rows returns precisely the rows
whose leading position lies in `[pstart as i64, pend as i64]` — the upper
bound is *inclusive* (`>` is used for the stop test). -/
theorem deserializeRangeGo_blockBytes (ts : List ColumnType) (rows : List Row)
    (a b : Nat) :
    ∀ fuel, (blockBytes rows).length < fuel →
    (∀ r ∈ rows, wellTypedRow (ColumnType.integer :: ts) r = true) →
    List.Pairwise (fun r r' => leadPos r ≤ leadPos r') rows →
    deserializeRangeGo (ColumnType.integer :: ts) a b fuel (blockBytes rows) =
      some (rows.filter (fun r =>
        decide (u64AsI64 a ≤ leadPos r ∧ leadPos r ≤ u64AsI64 b))) := by
  induction rows with
  | nil =>
    intro fuel _ _ _
    cases fuel <;> rfl
  | cons r rs ih =>
    intro fuel hf hwt hsor
    obtain ⟨i, cs, rfl, hlo, hhi, hcs⟩ :=
      wellTypedRow_int_shape ts r (hwt r (List.mem_cons_self r rs))
    have hcell : wellTypedCell ColumnType.integer (CellValue.integer i) = true := by
      rw [wellTypedCell, Bool.and_eq_true, decide_eq_true_eq, decide_eq_true_eq]
      exact ⟨hlo, hhi⟩
    have hlc : 1 ≤ (cellBytes (CellValue.integer i)).length :=
      encodeZigzagI64_length_pos i
    have hbytes : blockBytes ((CellValue.integer i :: cs) :: rs) =
        cellBytes (CellValue.integer i) ++ (rowBytes cs ++ blockBytes rs) := by
      rw [blockBytes_cons, rowBytes_cons, List.append_assoc]
    have hlen : 1 ≤ (blockBytes ((CellValue.integer i :: cs) :: rs)).length := by
      rw [hbytes, List.length_append]
      omega
    cases fuel with
    | zero => omega
    | succ fuel =>
      have hne : ¬ (blockBytes ((CellValue.integer i :: cs) :: rs)).isEmpty = true := by
        rw [List.isEmpty_iff_length_eq_zero]
        omega
      simp only [deserializeRangeGo]
      rw [if_neg hne]
      rw [hbytes, readCell_cellBytes ColumnType.integer (CellValue.integer i) _ hcell]
      simp only [List.drop_left]
      have hlead : leadPos (CellValue.integer i :: cs) = i := rfl
      by_cases hbreak : u64AsI64 b < i
      · rw [if_pos hbreak]
        have hfilter : ((CellValue.integer i :: cs) :: rs).filter (fun r =>
            decide (u64AsI64 a ≤ leadPos r ∧ leadPos r ≤ u64AsI64 b)) = [] := by
          rw [List.filter_eq_nil_iff]
          intro r' hr'
          simp only [decide_eq_true_eq, not_and, not_le]
          intro _
          rcases List.mem_cons.mp hr' with rfl | hr''
          · rw [hlead]; exact hbreak
          · have := (List.pairwise_cons.mp hsor).1 r' hr''
            rw [hlead] at this
            omega
        rw [hfilter]
      · rw [if_neg hbreak]
        have hftail : (blockBytes rs).length < fuel := by
          rw [hbytes] at hf
          simp only [List.length_append] at hf ⊢
          omega
        have hihtail := ih fuel hftail
          (fun r' hr' => hwt r' (List.mem_cons_of_mem _ hr'))
          (List.pairwise_cons.mp hsor).2
        by_cases hskip : i < u64AsI64 a
        · rw [if_pos hskip]
          simp only [skipCells_rowBytes ts cs (blockBytes rs) hcs, List.drop_left,
            hihtail]
          have hcond : ¬ (u64AsI64 a ≤ leadPos (CellValue.integer i :: cs) ∧
              leadPos (CellValue.integer i :: cs) ≤ u64AsI64 b) := by
            rw [hlead]
            omega
          rw [List.filter_cons, if_neg (by simpa using hcond)]
        · rw [if_neg hskip]
          simp only [readCells_rowBytes ts cs (blockBytes rs) hcs, List.drop_left,
            hihtail, Option.map_some']
          have hcond : u64AsI64 a ≤ leadPos (CellValue.integer i :: cs) ∧
              leadPos (CellValue.integer i :: cs) ≤ u64AsI64 b := by
            rw [hlead]
            omega
          rw [List.filter_cons, if_pos (by simpa using hcond)]

/-- `RowReader::deserialize_range` on a serialized block (the top-level
wrapper adds the `HashtableString` `todo!()` guard and the fuel). -/
theorem deserialize_range_blockBytes (ts : List ColumnType) (rows : List Row)
    (a b : Nat) (hts : ∀ t ∈ ts, t ≠ ColumnType.hashtableString)
    (hwt : ∀ r ∈ rows, wellTypedRow (ColumnType.integer :: ts) r = true)
    (hsor : List.Pairwise (fun r r' => leadPos r ≤ leadPos r') rows) :
    deserialize_range (ColumnType.integer :: ts) (blockBytes rows) a b =
      some (rows.filter (fun r =>
        decide (u64AsI64 a ≤ leadPos r ∧ leadPos r ≤ u64AsI64 b))) := by
  rw [deserialize_range, if_neg]
  · exact deserializeRangeGo_blockBytes ts rows a b _ (by omega) hwt hsor
  · simp only [List.any_eq_true, not_exists, not_and]
    intro t ht
    rcases List.mem_cons.mp ht with rfl | ht'
    · simp
    · simp [hts t ht']

/-! ### `get_range` over the builder's recorded entries -/

theorem entriesOf_takeWhile_le_length (comp : List Nat → List Nat) (a : Nat) :
    ∀ (bs : List (List Row)) (o : Nat),
    ((entriesOf comp o bs).takeWhile (fun kv => decide (kv.1 ≤ a))).length =
      (bs.takeWhile (fun c => decide (firstPos c ≤ a))).length := by
  intro bs
  induction bs with
  | nil => intro o; rfl
  | cons c cs ih =>
    intro o
    simp only [entriesOf, List.takeWhile_cons]
    by_cases hc : firstPos c ≤ a
    · rw [if_pos (by simpa using hc), if_pos (by simpa using hc)]
      simp [ih]
    · rw [if_neg (by simpa using hc), if_neg (by simpa using hc)]
      rfl

theorem entriesOf_drop (comp : List Nat → List Nat) :
    ∀ (k : Nat) (bs : List (List Row)) (o : Nat),
    (entriesOf comp o bs).drop k =
      entriesOf comp (o + (payloadOf comp (bs.take k)).length) (bs.drop k) := by
  intro k
  induction k with
  | zero => intro bs o; simp [payloadOf]
  | succ k ih =>
    intro bs o
    match bs with
    | [] => simp [entriesOf, payloadOf]
    | c :: cs =>
      simp only [entriesOf, List.drop_succ_cons, List.take_succ_cons, List.drop]
      rw [ih cs (o + (comp (blockBytes c)).length)]
      congr 1
      simp only [payloadOf, List.length_append]
      omega

theorem entriesOf_takeWhile_lt (comp : List Nat → List Nat) (b : Nat) :
    ∀ (bs : List (List Row)) (o : Nat),
    (entriesOf comp o bs).takeWhile (fun kv => decide (kv.1 < b)) =
      entriesOf comp o (bs.takeWhile (fun c => decide (firstPos c < b))) := by
  intro bs
  induction bs with
  | nil => intro o; rfl
  | cons c cs ih =>
    intro o
    simp only [entriesOf, List.takeWhile_cons]
    by_cases hc : firstPos c < b
    · rw [if_pos (by simpa using hc), if_pos (by simpa using hc)]
      simp only [entriesOf, ih]
    · rw [if_neg (by simpa using hc), if_neg (by simpa using hc)]
      rfl

/-- `get_range` over the recorded entries selects the sub-range of blocks
from the predecessor of `a` up to the first block whose first position is
`≥ b`, with the offsets the builder recorded. -/
theorem get_range_entriesOf (comp : List Nat → List Nat) (base : Nat)
    (blocks : List (List Row)) (a b : Nat) :
    get_range (entriesOf comp base blocks) a b =
      entriesOf comp
        (base + (payloadOf comp (blocks.take
          ((blocks.takeWhile (fun c => decide (firstPos c ≤ a))).length - 1))).length)
        (((blocks.drop
          ((blocks.takeWhile (fun c => decide (firstPos c ≤ a))).length - 1)).takeWhile
            (fun c => decide (firstPos c < b)))) := by
  unfold get_range
  rw [entriesOf_takeWhile_le_length comp a blocks base,
    entriesOf_drop comp _ blocks base, entriesOf_takeWhile_lt]

/-! ### The window loop of `query_range` -/

/-- The expected output of the window loop on the selected blocks: each block
is deserialized with start bound `max(first_position, a)` and end bound the
next selected block's first position (the sentinel `b` for the last one). -/
def windowFiltered (a b : Nat) : List (List Row) → List Row
  | [] => []
  | [c] => c.filter (fun r =>
      decide (u64AsI64 (max (firstPos c) a) ≤ leadPos r ∧ leadPos r ≤ u64AsI64 b))
  | c :: c' :: cs =>
    c.filter (fun r =>
      decide (u64AsI64 (max (firstPos c) a) ≤ leadPos r ∧
        leadPos r ≤ u64AsI64 (firstPos c'))) ++ windowFiltered a b (c' :: cs)

theorem take_length_add (l m : List α) (n : Nat) :
    (l ++ m).take (l.length + n) = l ++ m.take n := by
  induction l with
  | nil => simp
  | cons x t ih =>
    simp only [List.cons_append, List.length_cons]
    have h : t.length + 1 + n = (t.length + n) + 1 := by omega
    rw [h, List.take_succ_cons, ih]

theorem foldWindows (decompFirst : List Nat → Option (List Nat))
    (comp : List Nat → List Nat)
    (hcd : ∀ bs rest, decompFirst (comp bs ++ rest) = some bs)
    (ts : List ColumnType) (hts : ∀ t ∈ ts, t ≠ ColumnType.hashtableString)
    (a b : Nat) :
    ∀ (sel : List (List Row)) (o extra : Nat) (post2 file : List Nat),
    file.drop o = payloadOf comp sel ++ post2 →
    extra ≤ post2.length →
    (∀ c ∈ sel, ∀ r ∈ c, wellTypedRow (ColumnType.integer :: ts) r = true) →
    (∀ c ∈ sel, List.Pairwise (fun r r' => leadPos r ≤ leadPos r') c) →
    ∀ acc : List Row,
    (windowPairs (entriesOf comp o sel ++
        [(b, o + (payloadOf comp sel).length + extra)])).foldlM
      (fun rows wnd =>
        match decompFirst ((file.drop wnd.1.2).take (wnd.2.2 - wnd.1.2)) with
        | Option.none => Option.none
        | some slice =>
          (deserialize_range (ColumnType.integer :: ts) slice
            (max wnd.1.1 a) wnd.2.1).map
            (fun newRows => rows ++ newRows)) acc =
      some (acc ++ windowFiltered a b sel) := by
  intro sel
  induction sel with
  | nil =>
    intro o extra post2 file _ _ _ _ acc
    simp [windowPairs, windowFiltered, entriesOf]
  | cons c cs ih =>
    intro o extra post2 file hfile hextra hwt hsor acc
    match cs with
    | [] =>
      -- a single selected block: its window ends at the sentinel
      have hread : (file.drop o).take
          (o + (payloadOf comp [c]).length + extra - o) =
          comp (blockBytes c) ++ post2.take extra := by
        rw [hfile]
        have hp : payloadOf comp [c] = comp (blockBytes c) ++ [] := rfl
        rw [hp, List.append_nil]
        have harith : o + (comp (blockBytes c)).length + extra - o =
            (comp (blockBytes c)).length + extra := by omega
        rw [harith, take_length_add]
      simp only [entriesOf, List.cons_append, List.nil_append, windowPairs,
        List.zip_cons_cons, List.tail_cons, List.zip_nil_right,
        List.foldlM_cons, List.foldlM_nil]
      simp only [hread, hcd (blockBytes c) (post2.take extra)]
      rw [deserialize_range_blockBytes ts c (max (firstPos c) a) b hts
        (hwt c (List.mem_cons_self c []))
        (hsor c (List.mem_cons_self c []))]
      simp [windowFiltered]
    | c' :: cs' =>
      have hfile1 : file.drop o =
          comp (blockBytes c) ++ (payloadOf comp (c' :: cs') ++ post2) := by
        rw [hfile]
        simp [payloadOf]
      have hread : (file.drop o).take (o + (comp (blockBytes c)).length - o) =
          comp (blockBytes c) ++ [] := by
        rw [hfile1]
        have harith : o + (comp (blockBytes c)).length - o =
            (comp (blockBytes c)).length + 0 := by omega
        rw [harith, take_length_add, List.take_zero]
      simp only [entriesOf, List.cons_append, windowPairs, List.zip_cons_cons,
        List.tail_cons, List.foldlM_cons]
      simp only [hread, hcd (blockBytes c) []]
      rw [deserialize_range_blockBytes ts c (max (firstPos c) a) (firstPos c') hts
        (hwt c (List.mem_cons_self c _))
        (hsor c (List.mem_cons_self c _))]
      simp only [Option.map_some', Option.some_bind]
      have hfile2 : file.drop (o + (comp (blockBytes c)).length) =
          payloadOf comp (c' :: cs') ++ post2 := by
        rw [← List.drop_drop, hfile1, List.drop_left]
      have hih := ih (o + (comp (blockBytes c)).length) extra post2 file hfile2 hextra
        (fun c2 hc2 => hwt c2 (List.mem_cons_of_mem c hc2))
        (fun c2 hc2 => hsor c2 (List.mem_cons_of_mem c hc2))
        (acc ++ c.filter (fun r =>
          decide (u64AsI64 (max (firstPos c) a) ≤ leadPos r ∧
            leadPos r ≤ u64AsI64 (firstPos c'))))
      rw [show o + (payloadOf comp (c :: c' :: cs')).length + extra =
          o + (comp (blockBytes c)).length +
            (payloadOf comp (c' :: cs')).length + extra from by
        simp only [payloadOf, List.length_append]; omega]
      refine hih.trans ?_
      simp [windowFiltered, List.append_assoc]

theorem u64AsI64_of_lt (x : Nat) (h : x < 2 ^ 63) : u64AsI64 x = x := by
  unfold u64AsI64
  have hmod : x % 2 ^ 64 = x := Nat.mod_eq_of_lt (by omega)
  rw [hmod, if_pos h]

theorem i64AsU64_of_nonneg (i : Int) (h0 : 0 ≤ i) (h1 : i < 2 ^ 63) :
    (i64AsU64 i : Int) = i := by
  unfold i64AsU64
  have hmod : i % (2 ^ 64 : Int) = i := Int.emod_eq_of_lt h0 (by norm_num; omega)
  rw [hmod]
  omega

theorem i64AsU64_lt (i : Int) (h0 : 0 ≤ i) (h1 : i < 2 ^ 63) :
    i64AsU64 i < 2 ^ 63 := by
  have := i64AsU64_of_nonneg i h0 h1
  omega

/-- On selected blocks whose rows dominate their first position, whose
adjacent blocks are separated, and with in-range bounds, the
per-window filters collapse to the uniform filter `a ≤ p ≤ b`. -/
theorem windowFiltered_eq_uniform (a b : Nat) (hab : a ≤ b) (hb : b < 2 ^ 63) :
    ∀ sel : List (List Row),
    (∀ c ∈ sel, ∀ r ∈ c,
      ((firstPos c : Int) ≤ leadPos r ∧ firstPos c < 2 ^ 63) ∧
        0 ≤ leadPos r ∧ leadPos r < 2 ^ 63) →
    List.Chain' (fun c c' => ∀ r ∈ c, leadPos r < (firstPos c' : Int)) sel →
    (∀ c' ∈ sel, firstPos c' < b) →
    windowFiltered a b sel =
      (sel.map (fun c => c.filter (fun r =>
        decide ((a : Int) ≤ leadPos r ∧ leadPos r ≤ (b : Int))))).flatten := by
  intro sel
  induction sel with
  | nil => intro _ _ _; rfl
  | cons c cs ih =>
    intro hdom hchain hlt
    match cs with
    | [] =>
      simp only [windowFiltered, List.map_cons, List.map_nil, List.flatten_cons,
        List.flatten_nil, List.append_nil]
      apply List.filter_congr
      intro r hr
      obtain ⟨⟨hfp, hfplt⟩, h0, h1⟩ := hdom c (List.mem_cons_self c []) r hr
      have hmax : max (firstPos c) a < 2 ^ 63 := by
        have hfb := hlt c (List.mem_cons_self c [])
        omega
      rw [u64AsI64_of_lt _ hmax, u64AsI64_of_lt _ hb]
      simp only [decide_eq_decide]
      constructor
      · rintro ⟨hm, hble⟩
        refine ⟨?_, hble⟩
        have : ((max (firstPos c) a : Nat) : Int) = max ((firstPos c : Nat) : Int) (a : Int) := by
          simp [Nat.cast_max]
        rw [this] at hm
        omega
      · rintro ⟨ha2, hble⟩
        refine ⟨?_, hble⟩
        have : ((max (firstPos c) a : Nat) : Int) = max ((firstPos c : Nat) : Int) (a : Int) := by
          simp [Nat.cast_max]
        rw [this]
        omega
    | c' :: cs' =>
      simp only [windowFiltered, List.map_cons, List.flatten_cons]
      have hrest := ih (fun c2 hc2 => hdom c2 (List.mem_cons_of_mem c hc2))
        (List.chain'_cons.mp hchain).2 (fun c2 hc2 => hlt c2 (List.mem_cons_of_mem c hc2))
      rw [hrest]
      congr 1
      apply List.filter_congr
      intro r hr
      obtain ⟨⟨hfp, hfplt⟩, h0, h1⟩ := hdom c (List.mem_cons_self c _) r hr
      have hsep := (List.chain'_cons.mp hchain).1 r hr
      have hfpc' : firstPos c' < b := hlt c' (List.mem_cons_of_mem c (List.mem_cons_self c' cs'))
      have hmax : max (firstPos c) a < 2 ^ 63 := by
        have hfb := hlt c (List.mem_cons_self c _)
        omega
      rw [u64AsI64_of_lt _ hmax, u64AsI64_of_lt _ (by omega : firstPos c' < 2 ^ 63)]
      simp only [decide_eq_decide]
      have hcast : ((max (firstPos c) a : Nat) : Int) = max ((firstPos c : Nat) : Int) (a : Int) := by
        simp [Nat.cast_max]
      constructor
      · rintro ⟨hm, -⟩
        rw [hcast] at hm
        constructor
        · omega
        · have : (firstPos c' : Int) ≤ (b : Int) := by
            exact_mod_cast Int.ofNat_le.mpr (by omega)
          omega
      · rintro ⟨ha2, -⟩
        rw [hcast]
        refine ⟨?_, ?_⟩ <;> omega

/-! ### Splitting the pure builder output -/

theorem payloadOf_append (comp : List Nat → List Nat) :
    ∀ (l m : List (List Row)),
    payloadOf comp (l ++ m) = payloadOf comp l ++ payloadOf comp m := by
  intro l m
  induction l with
  | nil => simp [payloadOf]
  | cons c cs ih => simp [payloadOf, ih]

theorem entriesOf_take (comp : List Nat → List Nat) :
    ∀ (k : Nat) (bs : List (List Row)) (o : Nat),
    (entriesOf comp o bs).take k = entriesOf comp o (bs.take k) := by
  intro k
  induction k with
  | zero => intro bs o; simp [entriesOf]
  | succ k ih =>
    intro bs o
    match bs with
    | [] => simp [entriesOf]
    | c :: cs =>
      simp only [entriesOf, List.take_succ_cons]
      rw [ih]

/-! ### Facts about one nonempty well-typed block -/

/-- In a nonempty block of rows whose cells are well typed against an
`integer`-led column list and whose leading positions are nonnegative and
strictly sorted, the recorded first position is the head row's leading
position (the `as usize` cast is the identity), bounds every row, and lies
below `2 ^ 63`. -/
theorem block_facts (ts : List ColumnType) (c : List Row) (hc : c ≠ [])
    (hwt : ∀ r ∈ c, wellTypedRow (ColumnType.integer :: ts) r = true)
    (hpos : ∀ r ∈ c, 0 ≤ leadPos r)
    (hsort : List.Pairwise (fun r r' => leadPos r < leadPos r') c) :
    (∀ r ∈ c, (firstPos c : Int) ≤ leadPos r) ∧ firstPos c < 2 ^ 63 ∧
      (∃ r0 rest, c = r0 :: rest ∧ (firstPos c : Int) = leadPos r0) := by
  match c, hc with
  | r0 :: rest, _ =>
    obtain ⟨i, cs, rfl, hlo, hhi, -⟩ :=
      wellTypedRow_int_shape ts r0 (hwt r0 (List.mem_cons_self _ _))
    have h0 : (0 : Int) ≤ i := hpos _ (List.mem_cons_self _ _)
    have hfp : firstPos ((CellValue.integer i :: cs) :: rest) = i64AsU64 i := rfl
    have hcast : (i64AsU64 i : Int) = i := i64AsU64_of_nonneg i h0 hhi
    have hhead : (firstPos ((CellValue.integer i :: cs) :: rest) : Int) =
        leadPos (CellValue.integer i :: cs) := by
      rw [hfp, hcast]; rfl
    refine ⟨?_, ?_, ⟨_, rest, rfl, hhead⟩⟩
    · intro r hr
      rcases List.mem_cons.mp hr with rfl | hr'
      · exact le_of_eq hhead
      · rw [hfp, hcast]
        have hlt := List.rel_of_pairwise_cons hsort hr'
        have hl0 : leadPos (CellValue.integer i :: cs) = i := rfl
        rw [hl0] at hlt
        omega
    · rw [hfp]
      exact i64AsU64_lt i h0 hhi

/-- Every leading position is bounded by the recorded `max_position`. -/
theorem le_maxPosOf (ts : List ColumnType) (rows : List Row) (hne : rows ≠ [])
    (hwt : ∀ r ∈ rows, wellTypedRow (ColumnType.integer :: ts) r = true)
    (hpos : ∀ r ∈ rows, 0 ≤ leadPos r)
    (hsort : List.Pairwise (fun r r' => leadPos r < leadPos r') rows) :
    ∀ r ∈ rows, leadPos r ≤ (maxPosOf rows : Int) := by
  induction rows with
  | nil => intro r hr; cases hr
  | cons r0 rest ih =>
    intro r hr
    match rest with
    | [] =>
      rcases List.mem_cons.mp hr with rfl | hr'
      · obtain ⟨i, cs, rfl, hlo, hhi, -⟩ :=
          wellTypedRow_int_shape ts r (hwt r (List.mem_cons_self _ _))
        have h0 : (0 : Int) ≤ i := hpos _ (List.mem_cons_self _ _)
        have : maxPosOf [CellValue.integer i :: cs] = i64AsU64 i := rfl
        rw [this, i64AsU64_of_nonneg i h0 hhi]
        simp [leadPos]
      · cases hr'
    | r1 :: rest' =>
      have hmax : maxPosOf (r0 :: r1 :: rest') = maxPosOf (r1 :: rest') := by
        simp only [maxPosOf, List.getLast?_cons_cons]
      rw [hmax]
      rcases List.mem_cons.mp hr with rfl | hr'
      · have hlt : leadPos r ≤ leadPos r1 :=
          le_of_lt (List.rel_of_pairwise_cons hsort (List.mem_cons_self _ _))
        have := ih (by simp)
          (fun r hr => hwt r (List.mem_cons_of_mem _ hr))
          (fun r hr => hpos r (List.mem_cons_of_mem _ hr))
          hsort.tail r1 (List.mem_cons_self _ _)
        omega
      · exact ih (by simp)
          (fun r hr => hwt r (List.mem_cons_of_mem _ hr))
          (fun r hr => hpos r (List.mem_cons_of_mem _ hr))
          hsort.tail r hr'

/-! ### The selected block window of a query -/

/-- The number of index entries (blocks) `get_range` skips before the
predecessor of `s`. -/
def kOf (blocks : List (List Row)) (s : Nat) : Nat :=
  (blocks.takeWhile (fun c => decide (firstPos c ≤ s))).length - 1

/-- The blocks whose index entries `get_range` selects for the query
`[s, e)`. -/
def selOf (blocks : List (List Row)) (s e : Nat) : List (List Row) :=
  (blocks.drop (kOf blocks s)).takeWhile (fun c => decide (firstPos c < e))

/-- Across separated nonempty well-typed blocks the recorded first positions
are strictly increasing. -/
theorem firstPos_pairwise (ts : List ColumnType) (blocks : List (List Row))
    (hbne : ∀ c ∈ blocks, c ≠ [])
    (hwt : ∀ c ∈ blocks, ∀ r ∈ c, wellTypedRow (ColumnType.integer :: ts) r = true)
    (hpos : ∀ c ∈ blocks, ∀ r ∈ c, 0 ≤ leadPos r)
    (hsortc : ∀ c ∈ blocks, List.Pairwise (fun r r' => leadPos r < leadPos r') c)
    (hsep : List.Pairwise (fun c c' => ∀ x ∈ c, ∀ y ∈ c', leadPos x < leadPos y) blocks) :
    List.Pairwise (fun c c' => firstPos c < firstPos c') blocks := by
  refine hsep.imp_of_mem ?_
  intro c c' hc hc' h
  obtain ⟨-, -, r0, rest, hcEq, hhead⟩ :=
    block_facts ts c (hbne c hc) (hwt c hc) (hpos c hc) (hsortc c hc)
  obtain ⟨-, -, r0', rest', hcEq', hhead'⟩ :=
    block_facts ts c' (hbne c' hc') (hwt c' hc') (hpos c' hc') (hsortc c' hc')
  have hr0 : r0 ∈ c := by rw [hcEq]; exact List.mem_cons_self _ _
  have hr0' : r0' ∈ c' := by rw [hcEq']; exact List.mem_cons_self _ _
  have h1 : leadPos r0 < leadPos r0' := h r0 hr0 r0' hr0'
  omega

/-! ### `takeWhile` over a known split -/

theorem takeWhile_eq_left (p : α → Bool) :
    ∀ (l1 l2 : List α), (∀ x ∈ l1, p x = true) →
    (match l2 with | [] => True | y :: _ => p y = false) →
    (l1 ++ l2).takeWhile p = l1 := by
  intro l1
  induction l1 with
  | nil =>
    intro l2 _ h2
    match l2 with
    | [] => rfl
    | y :: t => simpa [List.takeWhile_cons, h2] using rfl
  | cons x t ih =>
    intro l2 h1 h2
    simp only [List.cons_append, List.takeWhile_cons,
      h1 x (List.mem_cons_self _ _), if_true]
    rw [ih l2 (fun z hz => h1 z (List.mem_cons_of_mem _ hz)) h2]

/-! ### The full characterization of `RowReader::query_range` -/

/-- On a well-formed built table laid out at `base` in `file`,
`query_range a b` selects the blocks of `selOf` and returns their rows
filtered by `a ≤ p ≤ b` (the deserializer's inclusive bounds, with the
lower bound `max(first_position, a)` collapsing to `a`). -/
theorem seqChar (decompFirst : List Nat → Option (List Nat))
    (comp : List Nat → List Nat)
    (hcd : ∀ bs rest, decompFirst (comp bs ++ rest) = some bs)
    (ts : List ColumnType) (hts : ∀ t ∈ ts, t ≠ ColumnType.hashtableString)
    (blocks : List (List Row))
    (hbne : ∀ c ∈ blocks, c ≠ [])
    (hwt : ∀ c ∈ blocks, ∀ r ∈ c, wellTypedRow (ColumnType.integer :: ts) r = true)
    (hpos : ∀ c ∈ blocks, ∀ r ∈ c, 0 ≤ leadPos r ∧ leadPos r < 2 ^ 63)
    (hsortc : ∀ c ∈ blocks, List.Pairwise (fun r r' => leadPos r < leadPos r') c)
    (hsep : List.Pairwise (fun c c' => ∀ x ∈ c, ∀ y ∈ c', leadPos x < leadPos y) blocks)
    (base extra : Nat) (file post : List Nat)
    (hfile : file.drop base = payloadOf comp blocks ++ post)
    (hextra : extra ≤ post.length)
    (a b : Nat) (hab : a ≤ b) (hb : b < 2 ^ 63) :
    query_range decompFirst file
      ⟨entriesOf comp base blocks, base + (payloadOf comp blocks).length + extra,
        ColumnType.integer :: ts⟩ a b =
      some (((selOf blocks a b).map (fun c => c.filter (fun r =>
        decide ((a : Int) ≤ leadPos r ∧ leadPos r ≤ (b : Int))))).flatten) := by
  have hgr : get_range (entriesOf comp base blocks) a b =
      entriesOf comp (base + (payloadOf comp (blocks.take (kOf blocks a))).length)
        (selOf blocks a b) :=
    get_range_entriesOf comp base blocks a b
  have hselmem : ∀ c ∈ selOf blocks a b, c ∈ blocks := by
    intro c hc
    exact ((List.takeWhile_sublist _).trans (List.drop_sublist _ _)).subset hc
  have hk : blocks = blocks.take (kOf blocks a) ++
      (selOf blocks a b ++
        (blocks.drop (kOf blocks a)).dropWhile (fun c => decide (firstPos c < b))) := by
    rw [selOf, List.takeWhile_append_dropWhile, List.take_append_drop]
  have hpayload : payloadOf comp blocks =
      payloadOf comp (blocks.take (kOf blocks a)) ++
        (payloadOf comp (selOf blocks a b) ++
          payloadOf comp
            ((blocks.drop (kOf blocks a)).dropWhile (fun c => decide (firstPos c < b)))) := by
    conv_lhs => rw [hk]
    rw [payloadOf_append, payloadOf_append]
  by_cases hempty : selOf blocks a b = []
  · have hnil : get_range (entriesOf comp base blocks) a b = [] := by
      rw [hgr, hempty]; rfl
    simp only [query_range, hnil, hempty, List.map_nil, List.flatten_nil]
  · obtain ⟨s, ss, hselE⟩ := List.exists_cons_of_ne_nil hempty
    have hfile2 : file.drop
        (base + (payloadOf comp (blocks.take (kOf blocks a))).length) =
        payloadOf comp (selOf blocks a b) ++
          (payloadOf comp
            ((blocks.drop (kOf blocks a)).dropWhile (fun c => decide (firstPos c < b))) ++
            post) := by
      rw [← List.drop_drop, hfile, hpayload]
      rw [List.append_assoc]
      rw [List.drop_left]
      rw [List.append_assoc]
    have hsent : base + (payloadOf comp blocks).length + extra =
        base + (payloadOf comp (blocks.take (kOf blocks a))).length +
          (payloadOf comp (selOf blocks a b)).length +
          ((payloadOf comp
            ((blocks.drop (kOf blocks a)).dropWhile (fun c => decide (firstPos c < b)))).length +
            extra) := by
      conv_lhs => rw [hpayload]
      simp only [List.length_append]
      omega
    have hfold := foldWindows decompFirst comp hcd ts hts a b (selOf blocks a b)
      (base + (payloadOf comp (blocks.take (kOf blocks a))).length)
      ((payloadOf comp
        ((blocks.drop (kOf blocks a)).dropWhile (fun c => decide (firstPos c < b)))).length +
        extra)
      (payloadOf comp
        ((blocks.drop (kOf blocks a)).dropWhile (fun c => decide (firstPos c < b))) ++ post)
      file hfile2
      (by simp only [List.length_append]; omega)
      (fun c hc => hwt c (hselmem c hc))
      (fun c hc => (hsortc c (hselmem c hc)).imp le_of_lt)
      []
    have huni := windowFiltered_eq_uniform a b hab hb (selOf blocks a b)
      (by
        intro c hc r hr
        obtain ⟨hge, hlt2, -⟩ := block_facts ts c (hbne c (hselmem c hc))
          (hwt c (hselmem c hc)) (fun r hr => (hpos c (hselmem c hc) r hr).1)
          (hsortc c (hselmem c hc))
        exact ⟨⟨hge r hr, hlt2⟩, hpos c (hselmem c hc) r hr⟩)
      (by
        refine List.Pairwise.chain' ?_
        refine (hsep.sublist ((List.takeWhile_sublist _).trans
          (List.drop_sublist _ _))).imp_of_mem ?_
        intro c c' hc hc' h r hr
        obtain ⟨-, -, r0', rest', hcEq', hhead'⟩ := block_facts ts c'
          (hbne c' (hselmem c' hc')) (hwt c' (hselmem c' hc'))
          (fun r hr => (hpos c' (hselmem c' hc') r hr).1)
          (hsortc c' (hselmem c' hc'))
        have hr0' : r0' ∈ c' := by rw [hcEq']; exact List.mem_cons_self _ _
        have := h r hr r0' hr0'
        omega)
      (by
        intro c hc
        have := List.mem_takeWhile_imp hc
        simpa using this)
    have hEcons : entriesOf comp
        (base + (payloadOf comp (blocks.take (kOf blocks a))).length)
        (selOf blocks a b) =
        (firstPos s, base + (payloadOf comp (blocks.take (kOf blocks a))).length) ::
          entriesOf comp
            (base + (payloadOf comp (blocks.take (kOf blocks a))).length +
              (comp (blockBytes s)).length) ss := by
      rw [hselE]; rfl
    simp only [query_range, hgr, hEcons]
    rw [← hEcons]
    rw [hsent]
    exact hfold.trans (by rw [huni]; simp)

theorem take_append_le (n : Nat) :
    ∀ (l m : List α), n ≤ l.length → (l ++ m).take n = l.take n := by
  induction n with
  | zero => intro l m _; simp
  | succ n ih =>
    intro l m h
    match l with
    | [] => simp at h
    | x :: t =>
      simp only [List.cons_append, List.take_succ_cons]
      rw [ih t m (by simpa using h)]

/-- When `b` is not the first position of any block, the selected window's
uniformly filtered rows are exactly the table's rows with `a ≤ p ≤ b`:
the skipped leading blocks hold only rows with `p < a` and the skipped
trailing blocks only rows with `p > b`. -/
theorem selFilter_eq_rowsFilter (ts : List ColumnType) (blocks : List (List Row))
    (hbne : ∀ c ∈ blocks, c ≠ [])
    (hwt : ∀ c ∈ blocks, ∀ r ∈ c, wellTypedRow (ColumnType.integer :: ts) r = true)
    (hpos : ∀ c ∈ blocks, ∀ r ∈ c, 0 ≤ leadPos r ∧ leadPos r < 2 ^ 63)
    (hsortc : ∀ c ∈ blocks, List.Pairwise (fun r r' => leadPos r < leadPos r') c)
    (hsep : List.Pairwise (fun c c' => ∀ x ∈ c, ∀ y ∈ c', leadPos x < leadPos y) blocks)
    (a b : Nat) (hnotb : ∀ c ∈ blocks, firstPos c ≠ b) :
    ((selOf blocks a b).map (fun c => c.filter (fun r =>
        decide ((a : Int) ≤ leadPos r ∧ leadPos r ≤ (b : Int))))).flatten =
      blocks.flatten.filter (fun r =>
        decide ((a : Int) ≤ leadPos r ∧ leadPos r ≤ (b : Int))) := by
  have hk : blocks = blocks.take (kOf blocks a) ++
      (selOf blocks a b ++
        (blocks.drop (kOf blocks a)).dropWhile (fun c => decide (firstPos c < b))) := by
    rw [selOf, List.takeWhile_append_dropWhile, List.take_append_drop]
  have hF : ∀ c ∈ blocks.take (kOf blocks a), c.filter (fun r =>
      decide ((a : Int) ≤ leadPos r ∧ leadPos r ≤ (b : Int))) = [] := by
    intro c hc
    have hTne : blocks.takeWhile (fun c => decide (firstPos c ≤ a)) ≠ [] := by
      intro hT
      rw [kOf, hT] at hc
      simp at hc
    have hTsplit := List.dropLast_concat_getLast hTne
    have htake : blocks.take (kOf blocks a) =
        (blocks.takeWhile (fun c => decide (firstPos c ≤ a))).dropLast := by
      have h0 : kOf blocks a ≤
          (blocks.takeWhile (fun c => decide (firstPos c ≤ a))).length := by
        rw [kOf]; omega
      have h1 := take_append_le (kOf blocks a)
        (blocks.takeWhile (fun c => decide (firstPos c ≤ a)))
        (blocks.dropWhile (fun c => decide (firstPos c ≤ a))) h0
      rw [List.takeWhile_append_dropWhile] at h1
      rw [h1, kOf, ← List.dropLast_eq_take]
    rw [htake] at hc
    set tl := (blocks.takeWhile (fun c => decide (firstPos c ≤ a))).getLast hTne with htl
    have hTpair : List.Pairwise
        (fun c c' => ∀ x ∈ c, ∀ y ∈ c', leadPos x < leadPos y)
        (blocks.takeWhile (fun c => decide (firstPos c ≤ a))) :=
      hsep.sublist (List.takeWhile_sublist _)
    rw [← hTsplit] at hTpair
    have hsepc := ((List.pairwise_append.mp hTpair).2.2) c hc tl
      (List.mem_singleton_self tl)
    have htlT : tl ∈ blocks.takeWhile (fun c => decide (firstPos c ≤ a)) := by
      rw [← hTsplit]
      exact List.mem_append_right _ (List.mem_singleton_self tl)
    have htla : firstPos tl ≤ a := by
      have := List.mem_takeWhile_imp htlT
      simpa using this
    have htlb : tl ∈ blocks := (List.takeWhile_sublist _).subset htlT
    obtain ⟨-, -, r0, rest0, htlEq, hhead⟩ := block_facts ts tl (hbne tl htlb)
      (hwt tl htlb) (fun r hr => (hpos tl htlb r hr).1) (hsortc tl htlb)
    have hr0 : r0 ∈ tl := by rw [htlEq]; exact List.mem_cons_self _ _
    rw [List.filter_eq_nil_iff]
    intro r hr
    have hlt : leadPos r < leadPos r0 := hsepc r hr r0 hr0
    simp only [decide_eq_true_eq, not_and]
    intro har
    omega
  have hR : ∀ c ∈ (blocks.drop (kOf blocks a)).dropWhile
      (fun c => decide (firstPos c < b)), c.filter (fun r =>
      decide ((a : Int) ≤ leadPos r ∧ leadPos r ≤ (b : Int))) = [] := by
    intro c hc
    obtain ⟨d0, R', hReq⟩ := List.exists_cons_of_ne_nil
      (l := (blocks.drop (kOf blocks a)).dropWhile (fun c => decide (firstPos c < b)))
      (by intro h; rw [h] at hc; cases hc)
    have hRsub : ∀ x ∈ (blocks.drop (kOf blocks a)).dropWhile
        (fun c => decide (firstPos c < b)), x ∈ blocks := by
      intro x hx
      exact ((List.dropWhile_sublist _).trans (List.drop_sublist _ _)).subset hx
    have hd0head : decide (firstPos d0 < b) = false := by
      have := List.head?_dropWhile_not (fun c => decide (firstPos c < b))
        (blocks.drop (kOf blocks a))
      rw [hReq] at this
      simpa using this
    have hd0b : b < firstPos d0 := by
      have h1 : ¬ firstPos d0 < b := by simpa using hd0head
      have h2 : firstPos d0 ≠ b := hnotb d0 (hRsub d0 (by rw [hReq]; exact List.mem_cons_self _ _))
      omega
    have hd0le : firstPos d0 ≤ firstPos c := by
      have hcR := hc
      rw [hReq] at hcR
      rcases List.mem_cons.mp hcR with rfl | hcR'
      · exact le_refl _
      · have hfpp := firstPos_pairwise ts blocks hbne hwt
          (fun c hc r hr => (hpos c hc r hr).1) hsortc hsep
        have hRp : List.Pairwise (fun c c' => firstPos c < firstPos c')
            ((blocks.drop (kOf blocks a)).dropWhile (fun c => decide (firstPos c < b))) :=
          hfpp.sublist ((List.dropWhile_sublist _).trans (List.drop_sublist _ _))
        rw [hReq] at hRp
        exact le_of_lt (List.rel_of_pairwise_cons hRp hcR')
    have hcb : c ∈ blocks := hRsub c hc
    obtain ⟨hge, -, -⟩ := block_facts ts c (hbne c hcb) (hwt c hcb)
      (fun r hr => (hpos c hcb r hr).1) (hsortc c hcb)
    rw [List.filter_eq_nil_iff]
    intro r hr
    have h1 := hge r hr
    simp only [decide_eq_true_eq, not_and]
    intro _
    omega
  conv_rhs => rw [hk]
  rw [List.flatten_append, List.flatten_append, List.filter_append,
    List.filter_append]
  have h1 : (blocks.take (kOf blocks a)).flatten.filter (fun r =>
      decide ((a : Int) ≤ leadPos r ∧ leadPos r ≤ (b : Int))) = [] := by
    rw [List.filter_flatten, List.flatten_eq_nil_iff]
    intro l hl
    obtain ⟨c, hc, rfl⟩ := List.mem_map.mp hl
    exact hF c hc
  have h2 : ((blocks.drop (kOf blocks a)).dropWhile
      (fun c => decide (firstPos c < b))).flatten.filter (fun r =>
      decide ((a : Int) ≤ leadPos r ∧ leadPos r ≤ (b : Int))) = [] := by
    rw [List.filter_flatten, List.flatten_eq_nil_iff]
    intro l hl
    obtain ⟨c, hc, rfl⟩ := List.mem_map.mp hl
    exact hR c hc
  rw [h1, h2, List.filter_flatten]
  simp

/-- `query_range` over a well-formed block layout, with `b` not on a block
boundary: the result is the table's rows filtered by the inclusive interval
`[a, b]`. -/
theorem queryFilterChar (decompFirst : List Nat → Option (List Nat))
    (comp : List Nat → List Nat)
    (hcd : ∀ bs rest, decompFirst (comp bs ++ rest) = some bs)
    (ts : List ColumnType) (hts : ∀ t ∈ ts, t ≠ ColumnType.hashtableString)
    (blocks : List (List Row))
    (hbne : ∀ c ∈ blocks, c ≠ [])
    (hwt : ∀ c ∈ blocks, ∀ r ∈ c, wellTypedRow (ColumnType.integer :: ts) r = true)
    (hpos : ∀ c ∈ blocks, ∀ r ∈ c, 0 ≤ leadPos r ∧ leadPos r < 2 ^ 63)
    (hsortc : ∀ c ∈ blocks, List.Pairwise (fun r r' => leadPos r < leadPos r') c)
    (hsep : List.Pairwise (fun c c' => ∀ x ∈ c, ∀ y ∈ c', leadPos x < leadPos y) blocks)
    (base extra : Nat) (file post : List Nat)
    (hfile : file.drop base = payloadOf comp blocks ++ post)
    (hextra : extra ≤ post.length)
    (a b : Nat) (hab : a ≤ b) (hb : b < 2 ^ 63)
    (hnotb : ∀ c ∈ blocks, firstPos c ≠ b) :
    query_range decompFirst file
      ⟨entriesOf comp base blocks, base + (payloadOf comp blocks).length + extra,
        ColumnType.integer :: ts⟩ a b =
      some (blocks.flatten.filter (fun r =>
        decide ((a : Int) ≤ leadPos r ∧ leadPos r ≤ (b : Int)))) := by
  rw [seqChar decompFirst comp hcd ts hts blocks hbne hwt hpos hsortc hsep
    base extra file post hfile hextra a b hab hb]
  rw [selFilter_eq_rowsFilter ts blocks hbne hwt hpos hsortc hsep a b hnotb]

/-- The block-level facts of a chunked, strictly sorted, well-typed row
list. -/
theorem chunk_block_hyps (ts : List ColumnType) (n : Nat) (rows : List Row)
    (hwt : ∀ r ∈ rows, wellTypedRow (ColumnType.integer :: ts) r = true)
    (hpos : ∀ r ∈ rows, 0 ≤ leadPos r)
    (hstrict : List.Pairwise (fun r r' => leadPos r < leadPos r') rows) :
    (∀ c ∈ chunksOf n rows, ∀ r ∈ c, wellTypedRow (ColumnType.integer :: ts) r = true) ∧
    (∀ c ∈ chunksOf n rows, ∀ r ∈ c, 0 ≤ leadPos r ∧ leadPos r < 2 ^ 63) ∧
    (∀ c ∈ chunksOf n rows, List.Pairwise (fun r r' => leadPos r < leadPos r') c) ∧
    List.Pairwise (fun c c' => ∀ x ∈ c, ∀ y ∈ c', leadPos x < leadPos y)
      (chunksOf n rows) := by
  have hmem : ∀ c ∈ chunksOf n rows, ∀ r ∈ c, r ∈ rows :=
    fun c hc r hr => (chunksOf_sublist n rows c hc).subset hr
  have hflat : List.Pairwise (fun r r' => leadPos r < leadPos r')
      (chunksOf n rows).flatten := by
    rw [chunksOf_flatten]; exact hstrict
  have hpf := List.pairwise_flatten.mp hflat
  refine ⟨fun c hc r hr => hwt r (hmem c hc r hr), ?_, hpf.1, hpf.2⟩
  intro c hc r hr
  refine ⟨hpos r (hmem c hc r hr), ?_⟩
  obtain ⟨i, cs, hEq, -, hhi, -⟩ :=
    wellTypedRow_int_shape ts r (hwt r (hmem c hc r hr))
  rw [hEq]
  simpa [leadPos] using hhi

/-- Well-typed cells satisfy the builder's string-length check. -/
theorem cellStringOk_of_wellTyped :
    ∀ (ts : List ColumnType) (r : Row), wellTypedRow ts r = true →
    r.all cellStringOk = true := by
  intro ts
  induction ts with
  | nil =>
    intro r h
    match r with
    | [] => rfl
    | c :: cs => simp [wellTypedRow] at h
  | cons t ts ih =>
    intro r h
    match r with
    | [] => simp [wellTypedRow] at h
    | c :: cs =>
      rw [wellTypedRow, Bool.and_eq_true] at h
      rw [List.all_cons, Bool.and_eq_true]
      refine ⟨?_, ih cs h.2⟩
      have hc := h.1
      match t, c with
      | ColumnType.integer, CellValue.integer i => rfl
      | ColumnType.float, CellValue.float bs => rfl
      | ColumnType.volatileString, CellValue.string s =>
        rw [wellTypedCell, Bool.and_eq_true, decide_eq_true_eq] at hc
        simpa [cellStringOk] using hc.1

/-! ## Sample compressor and tables for concrete query evaluations

An injective length-prefixing codec standing in for the gzip round trip:
decompressing a compressed block followed by arbitrary trailing bytes
recovers exactly that block, the property the window reads rely on. -/

def compToy (bs : List Nat) : List Nat := bs.length :: bs

def decompToy : List Nat → Option (List Nat)
  | [] => Option.none
  | l :: rest => some (rest.take l)

theorem decompToy_compToy (bs rest : List Nat) :
    decompToy (compToy bs ++ rest) = some bs := by
  simp only [compToy, List.cons_append, decompToy, List.take_left]

/-- A two-row table dataset, one block of two rows. -/
def dsTwo : Dataset :=
  { name := "t", file_per_chromosome := false, chromosomes := Option.none,
    path := "p", columns := [], rows_per_index := 2,
    compression_algorithm := CompressionAlgorithm.gzip }

/-- A dataset putting every row in its own block. -/
def dsOne : Dataset :=
  { name := "t", file_per_chromosome := false, chromosomes := Option.none,
    path := "p", columns := [], rows_per_index := 1,
    compression_algorithm := CompressionAlgorithm.gzip }

def rowsTwo : List Row := [[CellValue.integer 10], [CellValue.integer 20]]

/-! ## C2: range containment of `RowReader::query_range` -/

/-- C2 (amended). Range containment, with the upper bound *inclusive*: for
`a ≤ b < 2 ^ 63` with `b` not equal to any block's recorded first position,
`query_range(a, b)` over a built table returns exactly the rows whose
leading position `p` satisfies `a ≤ p ≤ b`.  The deserializer's stop test
is `p > pend` and its filter `p < pstart`, so a row at exactly `p = b` is
kept whenever its block is read; in particular `query_range(p, p)` can be
nonempty (see the counterexample). -/
theorem query_range_inclusive_containment
    (decompFirst : List Nat → Option (List Nat)) (comp : List Nat → List Nat)
    (hcd : ∀ bs rest, decompFirst (comp bs ++ rest) = some bs)
    (d : Dataset) (ts : List ColumnType)
    (hts : ∀ t ∈ ts, t ≠ ColumnType.hashtableString)
    (rows : List Row)
    (hwt : ∀ r ∈ rows, wellTypedRow (ColumnType.integer :: ts) r = true)
    (hpos : ∀ r ∈ rows, 0 ≤ leadPos r)
    (hstrict : List.Pairwise (fun r r' => leadPos r < leadPos r') rows)
    (base extra : Nat) (file post : List Nat)
    (hfile : file.drop base =
      payloadOf comp (chunksOf d.rows_per_index rows) ++ post)
    (hextra : extra ≤ post.length)
    (a b : Nat) (hab : a ≤ b) (hb : b < 2 ^ 63)
    (hnotb : ∀ c ∈ chunksOf d.rows_per_index rows, firstPos c ≠ b) :
    query_range decompFirst file
      ⟨entriesOf comp base (chunksOf d.rows_per_index rows),
        base + (payloadOf comp (chunksOf d.rows_per_index rows)).length + extra,
        ColumnType.integer :: ts⟩ a b =
      some (rows.filter (fun r =>
        decide ((a : Int) ≤ leadPos r ∧ leadPos r ≤ (b : Int)))) := by
  obtain ⟨hwtb, hposb, hsortb, hsepb⟩ :=
    chunk_block_hyps ts d.rows_per_index rows hwt hpos hstrict
  rw [queryFilterChar decompFirst comp hcd ts hts (chunksOf d.rows_per_index rows)
    (chunksOf_ne_nil _ _) hwtb hposb hsortb hsepb base extra file post hfile hextra
    a b hab hb hnotb]
  rw [chunksOf_flatten]

/-- Counterexample to C2 as stated: on a one-block table with rows at
positions 10 and 20, `query_range(20, 20)` returns the row at position 20
even though the claimed interval `[20, 20)` is empty — the deserializer's
upper bound is inclusive. -/
theorem query_range_point_query_counterexample :
    query_range decompToy [2, 41, 81]
      ⟨[(10, 0)], 3, [ColumnType.integer]⟩ 20 20 =
      some [[CellValue.integer 20]] := by rfl

/-- Witness for C2 (amended): the containment theorem instantiated on the
concrete two-row table, query interval `[12, 15]`. -/
theorem query_range_inclusive_containment_witness :
    query_range decompToy [2, 41, 81]
      ⟨entriesOf compToy 0 (chunksOf dsTwo.rows_per_index rowsTwo),
        0 + (payloadOf compToy (chunksOf dsTwo.rows_per_index rowsTwo)).length + 0,
        ColumnType.integer :: []⟩ 12 15 =
      some (rowsTwo.filter (fun r =>
        decide ((12 : Int) ≤ leadPos r ∧ leadPos r ≤ (15 : Int)))) :=
  query_range_inclusive_containment decompToy compToy decompToy_compToy
    dsTwo [] (by simp) rowsTwo (by decide) (by decide) (by decide)
    0 0 [2, 41, 81] [] (by simp [dsTwo, chunksOf, rowsTwo, payloadOf]; rfl)
    (by decide) 12 15 (by decide) (by decide)
    (by simp [dsTwo, chunksOf, rowsTwo]; decide)

/-! ## C1: build-then-query round trip -/

/-- C1 (amended). Round trip: building a valid dataset (well-typed rows,
positive strictly ascending leading positions) and querying
`query_range(0, E)` for any `E` strictly above the table's `max_position`
and within `i64` range returns exactly the dataset's rows in their
ascending stored order.  With the spec's `E = u64::MAX` the query instead
returns the empty list: `position_value_end as i64` is `-1`, so the row
loop stops before the first row (see the counterexample). -/
theorem build_query_roundtrip
    (decompFirst : List Nat → Option (List Nat)) (comp : List Nat → List Nat)
    (hcd : ∀ bs rest, decompFirst (comp bs ++ rest) = some bs)
    (d : Dataset) (ts : List ColumnType)
    (hts : ∀ t ∈ ts, t ≠ ColumnType.hashtableString)
    (rows : List Row) (hne : rows ≠ [])
    (hwt : ∀ r ∈ rows, wellTypedRow (ColumnType.integer :: ts) r = true)
    (hpos : ∀ r ∈ rows, 0 < leadPos r)
    (hstrict : List.Pairwise (fun r r' => leadPos r < leadPos r') rows)
    (base extra : Nat) (file post : List Nat)
    (hfile : file.drop base =
      payloadOf comp (chunksOf d.rows_per_index rows) ++ post)
    (hextra : extra ≤ post.length)
    (E : Nat) (hE1 : maxPosOf rows < E) (hE2 : E < 2 ^ 63) :
    build_table comp d base rows =
      .ok (entriesOf comp base (chunksOf d.rows_per_index rows),
        payloadOf comp (chunksOf d.rows_per_index rows), maxPosOf rows) ∧
    query_range decompFirst file
      ⟨entriesOf comp base (chunksOf d.rows_per_index rows),
        base + (payloadOf comp (chunksOf d.rows_per_index rows)).length + extra,
        ColumnType.integer :: ts⟩ 0 E = some rows := by
  have hpos' : ∀ r ∈ rows, 0 ≤ leadPos r := fun r hr => le_of_lt (hpos r hr)
  have hshape : ∀ r ∈ rows, ∃ i cs, r = CellValue.integer i :: cs := by
    intro r hr
    obtain ⟨i, cs, hEq, -⟩ := wellTypedRow_int_shape ts r (hwt r hr)
    exact ⟨i, cs, hEq⟩
  have hmax : ∀ r ∈ rows, leadPos r ≤ (maxPosOf rows : Int) :=
    le_maxPosOf ts rows hne hwt hpos' hstrict
  constructor
  · exact build_table_eq comp d base rows hne hshape
      (fun r hr => cellStringOk_of_wellTyped _ r (hwt r hr))
      (by
        intro r hr
        obtain ⟨i, cs, hEq⟩ := hshape r hr
        have h0 := hpos r hr
        rw [hEq] at h0 ⊢
        simp only [leadPos] at h0
        simp only [rowLeadingOk, decide_eq_true_eq]
        omega)
  · obtain ⟨hwtb, hposb, hsortb, hsepb⟩ :=
      chunk_block_hyps ts d.rows_per_index rows hwt hpos' hstrict
    have hmemb : ∀ c ∈ chunksOf d.rows_per_index rows, ∀ r ∈ c, r ∈ rows :=
      fun c hc r hr => (chunksOf_sublist _ rows c hc).subset hr
    have hnotb : ∀ c ∈ chunksOf d.rows_per_index rows, firstPos c ≠ E := by
      intro c hc
      obtain ⟨-, -, r0, rest0, hcEq, hhead⟩ := block_facts ts c
        (chunksOf_ne_nil _ _ c hc) (hwtb c hc)
        (fun r hr => (hposb c hc r hr).1) (hsortb c hc)
      have hr0 : r0 ∈ rows := hmemb c hc r0 (by rw [hcEq]; exact List.mem_cons_self _ _)
      have h1 := hmax r0 hr0
      intro hEq2
      rw [hEq2] at hhead
      omega
    rw [queryFilterChar decompFirst comp hcd ts hts
      (chunksOf d.rows_per_index rows) (chunksOf_ne_nil _ _) hwtb hposb hsortb
      hsepb base extra file post hfile hextra 0 E (Nat.zero_le E) hE2 hnotb]
    rw [chunksOf_flatten]
    congr 1
    rw [List.filter_eq_self]
    intro r hr
    have h1 := hpos r hr
    have h2 := hmax r hr
    simp only [decide_eq_true_eq]
    constructor
    · omega
    · have : (maxPosOf rows : Int) < (E : Int) := by exact_mod_cast hE1
      omega

/-- Counterexample to C1 as stated: a valid one-row table at position 5;
`query_range(0, u64::MAX)` returns the empty list, not the table's rows,
because `u64::MAX as i64 = -1` makes the deserializer's `p > pend` stop
test fire on the first row. -/
theorem build_query_u64max_counterexample :
    build_table compToy dsOne 0 [[CellValue.integer 5]] =
      .ok ([(5, 0)], [1, 21], 5) ∧
    query_range decompToy [1, 21]
      ⟨[(5, 0)], 2, [ColumnType.integer]⟩ 0 (2 ^ 64 - 1) = some [] := by
  constructor
  · rw [build_table_eq compToy dsOne 0 [[CellValue.integer 5]] (by simp)
      (by
        intro r hr
        rw [List.mem_singleton] at hr
        exact ⟨5, [], by rw [hr]⟩)
      (by decide) (by decide)]
    have hch : chunksOf dsOne.rows_per_index [[CellValue.integer 5]] =
        [[[CellValue.integer 5]]] := by
      simp [chunksOf, dsOne]
    rw [hch]
    rfl
  · rfl

/-! ## C5: `ParallelRowReader::query_range` vs the sequential reader

The embedding of `divide_into_parts` (src/python_bindings/src/lib.rs:459).
The first loop takes `base_size + (i < remainder)` items per part
(`dipGo` over the per-part sizes); the second loop distributes any items
the iterator still yields to the earlier parts (`dipSecondGo`); the final
`assert_eq!` that the iterator yielded exactly `len` items is modelled by
returning `none` when the consumed count differs. -/

def dipGo : List α → List Nat → List (List α)
  | _, [] => []
  | l, sz :: szs => l.take sz :: dipGo (l.drop sz) szs

def dipSecondGo : List (List α) → List α → Nat → List (List α)
  | parts, _, 0 => parts
  | [], _, _ + 1 => []
  | p :: ps, [], _ + 1 => p :: ps
  | p :: ps, x :: xs, n + 1 => (p ++ [x]) :: dipSecondGo ps xs n

def divide_into_parts (l : List α) (num_parts len : Nat) :
    Option (List (List α)) :=
  if num_parts = 0 then Option.none else
  let bsize := len / num_parts
  let rem := len % num_parts
  let sizes := (List.range num_parts).map
    (fun i => bsize + if i < rem then 1 else 0)
  let parts := dipGo l sizes
  let leftover := l.drop sizes.sum
  let consumed := min l.length sizes.sum + min rem leftover.length
  if len = consumed then some (dipSecondGo parts leftover rem) else Option.none

/-- One worker of `ParallelRowReader::query_range`: an empty job yields
nothing; otherwise the sequential `query_range` runs from the job's first
window's start position to its last window's end position, and the rows
are appended to the accumulated output. -/
def workerStep (decompFirst : List Nat → Option (List Nat)) (file : List Nat)
    (idx : TableIndexM) (acc : List Row)
    (j : List ((Nat × Nat) × (Nat × Nat))) : Option (List Row) :=
  match j with
  | [] => some acc
  | w :: ws =>
    match query_range decompFirst file idx w.1.1 ((ws.getLastD w).2.1) with
    | Option.none => Option.none
    | some rs => some (acc ++ rs)

/-- `ParallelRowReader::query_range` (src/python_bindings/src/lib.rs:512):
select the range, split its adjacent windows into per-reader jobs, and for
each leading nonempty job run the sequential `query_range` from the job's
first start position to its last end position, concatenating the results
in job order. -/
def parallel_query_range (decompFirst : List Nat → Option (List Nat))
    (file : List Nat) (idx : TableIndexM) (numReaders : Nat)
    (pstart pend : Nat) : Option (List Row) :=
  let range := get_range idx.entries pstart pend
  match range with
  | [] => some []
  | _ :: _ =>
    let range' := range ++ [(pend, idx.index_start_offset)]
    let wnds := windowPairs range'
    match divide_into_parts wnds numReaders range.length with
    | Option.none => Option.none
    | some block_jobs =>
      let numNonEmpty := (block_jobs.filter (fun j => !j.isEmpty)).length
      (block_jobs.take numNonEmpty).foldlM
        (workerStep decompFirst file idx) []

theorem optionBindSome {α β : Type} (a : α) (f : α → Option β) :
    (some a >>= f) = f a := rfl

theorem dipSecondGo_nil (parts : List (List α)) (n : Nat) :
    dipSecondGo parts [] n = parts := by
  match parts, n with
  | [], 0 => rfl
  | p :: ps, 0 => rfl
  | [], _ + 1 => rfl
  | p :: ps, _ + 1 => rfl

theorem rangeMapSum (b r : Nat) : ∀ N : Nat,
    ((List.range N).map (fun i => b + if i < r then 1 else 0)).sum =
      N * b + min r N := by
  intro N
  induction N with
  | zero => simp
  | succ N ih =>
    rw [List.range_succ, List.map_append, List.sum_append, ih]
    simp only [List.map_cons, List.map_nil, List.sum_cons, List.sum_nil]
    have hmul : (N + 1) * b = N * b + b := by ring
    by_cases h : N < r
    · rw [if_pos h]; omega
    · rw [if_neg h]; omega

/-- On an iterator of exactly `len` items the second loop is dead and the
assertion passes: `divide_into_parts` is the first loop's chunking. -/
theorem divide_into_parts_eq (l : List α) (N : Nat) (hN : 0 < N) :
    divide_into_parts l N l.length =
      some (dipGo l ((List.range N).map
        (fun i => l.length / N + if i < l.length % N then 1 else 0))) := by
  have hsum : ((List.range N).map
      (fun i => l.length / N + if i < l.length % N then 1 else 0)).sum =
      l.length := by
    rw [rangeMapSum]
    have h1 := Nat.div_add_mod l.length N
    have h2 : l.length % N < N := Nat.mod_lt _ hN
    have h3 : min (l.length % N) N = l.length % N := Nat.min_eq_left (le_of_lt h2)
    omega
  unfold divide_into_parts
  rw [if_neg (by omega)]
  simp only [hsum, List.drop_length, Nat.min_self, List.length_nil,
    Nat.min_zero, Nat.add_zero, if_pos rfl, if_true, dipSecondGo_nil]

theorem windowPairs_length (l : List α) :
    (windowPairs l).length = l.length - 1 := by
  rw [windowPairs, List.length_zip, List.length_tail]
  omega

theorem windowPairs_drop (l : List α) (m : Nat) :
    (windowPairs l).drop m = windowPairs (l.drop m) := by
  simp only [windowPairs, List.zip]
  rw [List.drop_zipWith, List.drop_tail, List.tail_drop]

theorem windowPairs_take :
    ∀ (l : List α) (m : Nat), (windowPairs l).take m = windowPairs (l.take (m + 1)) := by
  intro l
  induction l with
  | nil => intro m; simp [windowPairs]
  | cons x t ih =>
    intro m
    match t, m with
    | [], m => simp [windowPairs]
    | y :: t2, 0 => rfl
    | y :: t2, n + 1 =>
      have h1 : windowPairs (x :: y :: t2) = (x, y) :: windowPairs (y :: t2) := rfl
      have h2 : (x :: y :: t2).take (n + 1 + 1) = x :: (y :: t2).take (n + 1) := rfl
      rw [h1, h2, List.take_succ_cons, ih (m := n)]
      have h3 : (y :: t2).take (n + 1) = y :: t2.take n := rfl
      rw [h3]
      rfl

theorem windowPairs_concat :
    ∀ (zs : List α) (z u : α),
    windowPairs ((z :: zs) ++ [u]) =
      windowPairs (z :: zs) ++ [((z :: zs).getLastD z, u)] := by
  intro zs
  induction zs with
  | nil => intro z u; rfl
  | cons z2 t ih =>
    intro z u
    have h2 : windowPairs ((z :: z2 :: t) ++ [u]) =
        (z, z2) :: windowPairs ((z2 :: t) ++ [u]) := rfl
    rw [h2, ih z2 u]
    have h3 : windowPairs (z :: z2 :: t) = (z, z2) :: windowPairs (z2 :: t) := rfl
    rw [h3]
    simp only [List.cons_append, List.getLastD_cons]

theorem windowPairs_cons_spec :
    ∀ (L : List α) (x : α), L ≠ [] →
    ∃ w ws, windowPairs (x :: L) = w :: ws ∧ w.1 = x ∧
      (ws.getLastD w).2 = L.getLastD x := by
  intro L
  induction L with
  | nil => intro x h; exact absurd rfl h
  | cons y t ih =>
    intro x _
    match t with
    | [] => exact ⟨(x, y), [], rfl, rfl, rfl⟩
    | z :: t2 =>
      obtain ⟨w', ws', hEq, hw1, hlast⟩ := ih y (by simp)
      refine ⟨(x, y), w' :: ws', ?_, rfl, ?_⟩
      · have h1 : windowPairs (x :: y :: z :: t2) =
            (x, y) :: windowPairs (y :: z :: t2) := rfl
        rw [h1, hEq]
      · simp only [List.getLastD_cons]
        rw [hlast]
        simp only [List.getLastD_cons]

theorem entriesOf_append (comp : List Nat → List Nat) :
    ∀ (l m : List (List Row)) (o : Nat),
    entriesOf comp o (l ++ m) =
      entriesOf comp o l ++ entriesOf comp (o + (payloadOf comp l).length) m := by
  intro l
  induction l with
  | nil => intro m o; simp [entriesOf, payloadOf]
  | cons c cs ih =>
    intro m o
    simp only [List.cons_append, entriesOf, List.append_eq, ih]
    have harith : o + (comp (blockBytes c)).length + (payloadOf comp cs).length =
        o + (payloadOf comp (c :: cs)).length := by
      simp only [payloadOf, List.length_append]
      omega
    rw [harith]

theorem dipGo_take :
    ∀ (szs : List Nat) (l : List α) (q : Nat),
    (dipGo l szs).take q = dipGo l (szs.take q) := by
  intro szs
  induction szs with
  | nil => intro l q; simp [dipGo]
  | cons sz rest ih =>
    intro l q
    match q with
    | 0 => rfl
    | q + 1 =>
      simp only [dipGo, List.take_succ_cons]
      rw [ih]

theorem drop_append_le (n : Nat) :
    ∀ (l m : List α), n ≤ l.length → (l ++ m).drop n = l.drop n ++ m := by
  induction n with
  | zero => intro l m _; simp
  | succ n ih =>
    intro l m h
    match l with
    | [] => simp at h
    | x :: t =>
      simp only [List.cons_append, List.drop_succ_cons]
      rw [ih t m (by simpa using h)]

theorem entriesOf_length (comp : List Nat → List Nat) :
    ∀ (bs : List (List Row)) (o : Nat), (entriesOf comp o bs).length = bs.length := by
  intro bs
  induction bs with
  | nil => intro o; rfl
  | cons c cs ih => intro o; simp only [entriesOf, List.length_cons, ih]

theorem dipGo_lengths :
    ∀ (szs : List Nat) (l : List α), szs.sum ≤ l.length →
    (dipGo l szs).map List.length = szs := by
  intro szs
  induction szs with
  | nil => intro l _; rfl
  | cons sz rest ih =>
    intro l h
    simp only [List.sum_cons] at h
    simp only [dipGo, List.map_cons]
    rw [ih (l.drop sz) (by simp; omega)]
    simp only [List.length_take]
    congr 1
    omega

theorem filter_nonempty_length :
    ∀ (jobs : List (List α)),
    (jobs.filter (fun j => !j.isEmpty)).length =
      ((jobs.map List.length).filter (fun s => decide (0 < s))).length := by
  intro jobs
  induction jobs with
  | nil => rfl
  | cons j rest ih =>
    match j with
    | [] => simp only [List.map_cons, List.filter_cons]; simp [ih]
    | x :: t => simp only [List.map_cons, List.filter_cons]; simp [ih]

theorem filter_pos_length_sum :
    ∀ l : List Nat, (∀ x ∈ l, x ≤ 1) →
    (l.filter (fun s => decide (0 < s))).length = l.sum := by
  intro l
  induction l with
  | nil => intro _; rfl
  | cons x t ih =>
    intro h
    have hx := h x (List.mem_cons_self _ _)
    have ht := ih (fun z hz => h z (List.mem_cons_of_mem _ hz))
    simp only [List.filter_cons, List.sum_cons]
    match x, hx with
    | 0, _ => simpa using ht
    | 1, _ =>
      rw [if_pos (by decide)]
      simp only [List.length_cons, ht]
      omega

/-- Starting a query exactly at a block's recorded first position selects
the blocks from that one to the end bound. -/
theorem selOf_at_head (ts : List ColumnType) (blocks : List (List Row))
    (hbne : ∀ c ∈ blocks, c ≠ [])
    (hwt : ∀ c ∈ blocks, ∀ r ∈ c, wellTypedRow (ColumnType.integer :: ts) r = true)
    (hpos1 : ∀ c ∈ blocks, ∀ r ∈ c, 0 ≤ leadPos r)
    (hsortc : ∀ c ∈ blocks, List.Pairwise (fun r r' => leadPos r < leadPos r') c)
    (hsep : List.Pairwise (fun c c' => ∀ x ∈ c, ∀ y ∈ c', leadPos x < leadPos y) blocks)
    (Fall J Rest : List (List Row)) (j0 : List Row) (J2 : List (List Row))
    (hblocks : blocks = Fall ++ (J ++ Rest))
    (hJeq : J = j0 :: J2)
    (np : Nat)
    (hJnp : ∀ c ∈ J, firstPos c < np)
    (hRestnp : ∀ d0 R2, Rest = d0 :: R2 → ¬ firstPos d0 < np) :
    selOf blocks (firstPos j0) np = J := by
  have hj0J : j0 ∈ J := by rw [hJeq]; exact List.mem_cons_self _ _
  have hfpp := firstPos_pairwise ts blocks hbne hwt hpos1 hsortc hsep
  have h1 : blocks = (Fall ++ [j0]) ++ (J2 ++ Rest) := by
    rw [hblocks, hJeq]
    simp
  have htw : blocks.takeWhile (fun c => decide (firstPos c ≤ firstPos j0)) =
      Fall ++ [j0] := by
    conv_lhs => rw [h1]
    apply takeWhile_eq_left
    · intro x hx
      rcases List.mem_append.mp hx with hx' | hx'
      · have hlt : firstPos x < firstPos j0 := by
          have hp := List.pairwise_append.mp (h1 ▸ hfpp)
          have hpL := List.pairwise_append.mp hp.1
          exact hpL.2.2 x hx' j0 (List.mem_singleton_self _)
        simp [le_of_lt hlt]
      · rw [List.mem_singleton.mp hx']
        simp
    · match hJR : J2 ++ Rest with
      | [] => trivial
      | y :: t =>
        have hyp : firstPos j0 < firstPos y := by
          have hp := List.pairwise_append.mp (hblocks ▸ hfpp)
          have hp2 := List.pairwise_append.mp hp.2.1
          have hy : y ∈ J2 ++ Rest := by rw [hJR]; exact List.mem_cons_self _ _
          have hPJ : List.Pairwise (fun c c' => firstPos c < firstPos c')
              (j0 :: J2) := by rw [← hJeq]; exact hp2.1
          rcases List.mem_append.mp hy with hy' | hy'
          · exact List.rel_of_pairwise_cons hPJ hy'
          · exact hp2.2.2 j0 hj0J y hy'
        simp [Nat.not_le.mpr hyp]
  have hkOf : kOf blocks (firstPos j0) = Fall.length := by
    rw [kOf, htw]
    simp
  have hdrop : blocks.drop Fall.length = J ++ Rest := by
    rw [hblocks]
    exact List.drop_left Fall (J ++ Rest)
  rw [selOf, hkOf, hdrop]
  apply takeWhile_eq_left
  · intro c hc
    simp [hJnp c hc]
  · cases Rest with
    | nil => trivial
    | cons d0 R2 => simpa using hRestnp d0 R2 rfl

/-- The sequential query a worker executes: from the first position of the
head block of its job to the next recorded position (or the global end
bound), the result is exactly its job's blocks filtered by those bounds. -/
theorem worker_eval (decompFirst : List Nat → Option (List Nat))
    (comp : List Nat → List Nat)
    (hcd : ∀ bs rest, decompFirst (comp bs ++ rest) = some bs)
    (ts : List ColumnType) (hts : ∀ t ∈ ts, t ≠ ColumnType.hashtableString)
    (blocks : List (List Row))
    (hbne : ∀ c ∈ blocks, c ≠ [])
    (hwt : ∀ c ∈ blocks, ∀ r ∈ c, wellTypedRow (ColumnType.integer :: ts) r = true)
    (hpos : ∀ c ∈ blocks, ∀ r ∈ c, 0 ≤ leadPos r ∧ leadPos r < 2 ^ 63)
    (hsortc : ∀ c ∈ blocks, List.Pairwise (fun r r' => leadPos r < leadPos r') c)
    (hsep : List.Pairwise (fun c c' => ∀ x ∈ c, ∀ y ∈ c', leadPos x < leadPos y) blocks)
    (base extra : Nat) (file post : List Nat)
    (hfile : file.drop base = payloadOf comp blocks ++ post)
    (hextra : extra ≤ post.length)
    (Fall J Rest : List (List Row)) (j0 : List Row) (J2 : List (List Row))
    (hblocks : blocks = Fall ++ (J ++ Rest))
    (hJeq : J = j0 :: J2)
    (np : Nat) (hnp63 : np < 2 ^ 63)
    (hJnp : ∀ c ∈ J, firstPos c < np)
    (hRestnp : ∀ d0 R2, Rest = d0 :: R2 → ¬ firstPos d0 < np) :
    query_range decompFirst file
      ⟨entriesOf comp base blocks, base + (payloadOf comp blocks).length + extra,
        ColumnType.integer :: ts⟩ (firstPos j0) np =
      some ((J.map (fun c => c.filter (fun r =>
        decide ((firstPos j0 : Int) ≤ leadPos r ∧ leadPos r ≤ (np : Int))))).flatten) := by
  have hj0J : j0 ∈ J := by rw [hJeq]; exact List.mem_cons_self _ _
  rw [seqChar decompFirst comp hcd ts hts blocks hbne hwt hpos hsortc hsep
    base extra file post hfile hextra (firstPos j0) np
    (le_of_lt (hJnp j0 hj0J)) hnp63]
  have hfpp := firstPos_pairwise ts blocks hbne hwt
    (fun c hc r hr => (hpos c hc r hr).1) hsortc hsep
  have h1 : blocks = (Fall ++ [j0]) ++ (J2 ++ Rest) := by
    rw [hblocks, hJeq]
    simp
  have htw : blocks.takeWhile (fun c => decide (firstPos c ≤ firstPos j0)) =
      Fall ++ [j0] := by
    conv_lhs => rw [h1]
    apply takeWhile_eq_left
    · intro x hx
      rcases List.mem_append.mp hx with hx' | hx'
      · have hlt : firstPos x < firstPos j0 := by
          have hp := List.pairwise_append.mp (h1 ▸ hfpp)
          have hpL := List.pairwise_append.mp hp.1
          exact hpL.2.2 x hx' j0 (List.mem_singleton_self _)
        simp [le_of_lt hlt]
      · rw [List.mem_singleton.mp hx']
        simp
    · match hJR : J2 ++ Rest with
      | [] => trivial
      | y :: t =>
        have hyp : firstPos j0 < firstPos y := by
          have hp := List.pairwise_append.mp (hblocks ▸ hfpp)
          have hp2 := List.pairwise_append.mp hp.2.1
          have hy : y ∈ J2 ++ Rest := by rw [hJR]; exact List.mem_cons_self _ _
          have hPJ : List.Pairwise (fun c c' => firstPos c < firstPos c')
              (j0 :: J2) := by rw [← hJeq]; exact hp2.1
          rcases List.mem_append.mp hy with hy' | hy'
          · exact List.rel_of_pairwise_cons hPJ hy'
          · exact hp2.2.2 j0 hj0J y hy'
        simp [Nat.not_le.mpr hyp]
  have hkOf : kOf blocks (firstPos j0) = Fall.length := by
    rw [kOf, htw]
    simp
  have hdrop : blocks.drop Fall.length = J ++ Rest := by
    rw [hblocks]
    exact List.drop_left Fall (J ++ Rest)
  have hsel2 : selOf blocks (firstPos j0) np = J := by
    rw [selOf, hkOf, hdrop]
    apply takeWhile_eq_left
    · intro c hc
      simp [hJnp c hc]
    · cases Rest with
      | nil => trivial
      | cons d0 R2 => simpa using hRestnp d0 R2 rfl
  rw [hsel2]

/-- The parallel job loop: folding the per-reader jobs of the selected
window accumulates every selected block's rows filtered by the inclusive
end bound alone — each worker's lower bound is its first block's recorded
position, which no row of the job undercuts. -/
theorem parWorkers (decompFirst : List Nat → Option (List Nat))
    (comp : List Nat → List Nat)
    (hcd : ∀ bs rest, decompFirst (comp bs ++ rest) = some bs)
    (ts : List ColumnType) (hts : ∀ t ∈ ts, t ≠ ColumnType.hashtableString)
    (blocks : List (List Row))
    (hbne : ∀ c ∈ blocks, c ≠ [])
    (hwt : ∀ c ∈ blocks, ∀ r ∈ c, wellTypedRow (ColumnType.integer :: ts) r = true)
    (hpos : ∀ c ∈ blocks, ∀ r ∈ c, 0 ≤ leadPos r ∧ leadPos r < 2 ^ 63)
    (hsortc : ∀ c ∈ blocks, List.Pairwise (fun r r' => leadPos r < leadPos r') c)
    (hsep : List.Pairwise (fun c c' => ∀ x ∈ c, ∀ y ∈ c', leadPos x < leadPos y) blocks)
    (base extra : Nat) (file post : List Nat)
    (hfile : file.drop base = payloadOf comp blocks ++ post)
    (hextra : extra ≤ post.length)
    (b : Nat) (hb : b < 2 ^ 63) :
    ∀ (A : List Nat) (Fall sel R : List (List Row)) (acc : List Row),
    blocks = Fall ++ (sel ++ R) →
    (∀ c ∈ sel, firstPos c < b) →
    (∀ d0 R2, R = d0 :: R2 → ¬ firstPos d0 < b) →
    (∀ s ∈ A, 0 < s) → A.sum = sel.length →
    (dipGo (windowPairs (entriesOf comp (base + (payloadOf comp Fall).length) sel ++
        [(b, base + (payloadOf comp blocks).length + extra)])) A).foldlM
      (workerStep decompFirst file
        ⟨entriesOf comp base blocks,
          base + (payloadOf comp blocks).length + extra,
          ColumnType.integer :: ts⟩) acc =
      some (acc ++ (sel.map (fun c => c.filter (fun r =>
        decide (leadPos r ≤ (b : Int))))).flatten) := by
  intro A
  induction A with
  | nil =>
    intro Fall sel R acc hblocks hselb hRb _ hsum
    have hsel : sel = [] := List.eq_nil_of_length_eq_zero (by simpa using hsum.symm)
    subst hsel
    simp [dipGo]
  | cons sz A2 ih =>
    intro Fall sel R acc hblocks hselb hRb hApos hsum
    have hszpos : 0 < sz := hApos sz (List.mem_cons_self _ _)
    have hsum' : sz + A2.sum = sel.length := by simpa using hsum
    have hszle : sz ≤ sel.length := by omega
    have hJlen : (sel.take sz).length = sz := by
      simp [List.length_take, Nat.min_eq_left hszle]
    have hJne : sel.take sz ≠ [] := by
      intro h
      rw [h] at hJlen
      simp at hJlen
      omega
    obtain ⟨j0, J2, hJeq⟩ := List.exists_cons_of_ne_nil hJne
    have hselsplit : sel.take sz ++ sel.drop sz = sel := List.take_append_drop sz sel
    -- global pairwise facts restricted to this decomposition
    have hfpp := firstPos_pairwise ts blocks hbne hwt
      (fun c hc r hr => (hpos c hc r hr).1) hsortc hsep
    have hfpp' := hfpp
    rw [hblocks] at hfpp'
    have hpairsFS := List.pairwise_append.mp hfpp'
    have hpairsSR := List.pairwise_append.mp hpairsFS.2.1
    have hpwsel : List.Pairwise (fun c c' => firstPos c < firstPos c') sel :=
      hpairsSR.1
    have hsep' := hsep
    rw [hblocks] at hsep'
    have hsepFS := List.pairwise_append.mp hsep'
    have hsepSR := List.pairwise_append.mp hsepFS.2.1
    have hsepsel : List.Pairwise
        (fun c c' => ∀ x ∈ c, ∀ y ∈ c', leadPos x < leadPos y) sel := hsepSR.1
    have hmemsel : ∀ c ∈ sel, c ∈ blocks := by
      intro c hc
      rw [hblocks]
      exact List.mem_append_right _ (List.mem_append_left _ hc)
    have hmemJ : ∀ c ∈ sel.take sz, c ∈ sel :=
      fun c hc => (List.take_sublist sz sel).subset hc
    have hj0sel : j0 ∈ sel := hmemJ j0 (by rw [hJeq]; exact List.mem_cons_self _ _)
    -- the lower bound of the job never cuts a row of the job
    have hfpj0le : ∀ c ∈ sel.take sz, ∀ r ∈ c, (firstPos j0 : Int) ≤ leadPos r := by
      intro c hc r hr
      have hfpc : firstPos j0 ≤ firstPos c := by
        have hpwJ : List.Pairwise (fun c c' => firstPos c < firstPos c')
            (j0 :: J2) := by
          rw [← hJeq]
          exact hpwsel.sublist (List.take_sublist sz sel)
        have hcJ := hc
        rw [hJeq] at hcJ
        rcases List.mem_cons.mp hcJ with rfl | hcJ'
        · exact le_refl _
        · exact le_of_lt (List.rel_of_pairwise_cons hpwJ hcJ')
      obtain ⟨hge, -, -⟩ := block_facts ts c (hbne c (hmemsel c (hmemJ c hc)))
        (hwt c (hmemsel c (hmemJ c hc)))
        (fun r hr => (hpos c (hmemsel c (hmemJ c hc)) r hr).1)
        (hsortc c (hmemsel c (hmemJ c hc)))
      have h1 := hge r hr
      omega
    have hEJcons : entriesOf comp (base + (payloadOf comp Fall).length) (sel.take sz) =
        (firstPos j0, base + (payloadOf comp Fall).length) ::
          entriesOf comp (base + (payloadOf comp Fall).length +
            (comp (blockBytes j0)).length) J2 := by
      rw [hJeq]
      rfl
    have hEsplit : entriesOf comp (base + (payloadOf comp Fall).length) sel =
        entriesOf comp (base + (payloadOf comp Fall).length) (sel.take sz) ++
          entriesOf comp (base + (payloadOf comp Fall).length +
            (payloadOf comp (sel.take sz)).length) (sel.drop sz) := by
      conv_lhs => rw [← hselsplit]
      rw [entriesOf_append]
    have hEJlen : (entriesOf comp (base + (payloadOf comp Fall).length)
        (sel.take sz)).length = sz := by
      rw [entriesOf_length]
      exact hJlen
    simp only [dipGo, List.foldlM_cons]
    rcases hdropE : sel.drop sz with - | ⟨d, rest2⟩
    · -- final job: it covers the whole remaining selection, ending at `b`
      have hsz_eq : sel.length ≤ sz := by
        have := List.length_drop sz sel
        rw [hdropE] at this
        simp at this
        omega
      have htakeall : sel.take sz = sel := List.take_of_length_le hsz_eq
      have hA2 : A2 = [] := by
        cases A2 with
        | nil => rfl
        | cons s t =>
          exfalso
          have hsp := hApos s (List.mem_cons_of_mem _ (List.mem_cons_self _ _))
          have hsums : (s :: t).sum = s + t.sum := by simp
          omega
      subst hA2
      have hw1 : (windowPairs (entriesOf comp (base + (payloadOf comp Fall).length) sel ++
          [(b, base + (payloadOf comp blocks).length + extra)])).take sz =
          windowPairs (entriesOf comp (base + (payloadOf comp Fall).length)
            (sel.take sz) ++ [(b, base + (payloadOf comp blocks).length + extra)]) := by
        rw [windowPairs_take, htakeall]
        congr 1
        apply List.take_of_length_le
        simp only [List.length_append, entriesOf_length, List.length_cons,
          List.length_nil]
        omega
      obtain ⟨w, ws, hwEq, hwfst, hwlast⟩ := windowPairs_cons_spec
        (L := entriesOf comp (base + (payloadOf comp Fall).length +
          (comp (blockBytes j0)).length) J2 ++
          [(b, base + (payloadOf comp blocks).length + extra)])
        ((firstPos j0, base + (payloadOf comp Fall).length)) (by simp)
      rw [hw1, hEJcons, List.cons_append, hwEq]
      have hws : w.1.1 = firstPos j0 := by rw [hwfst]
      have hwe : (ws.getLastD w).2.1 = b := by
        rw [hwlast, List.getLastD_concat]
      have hfilt : ((sel.take sz).map (fun c => c.filter (fun r =>
          decide ((firstPos j0 : Int) ≤ leadPos r ∧ leadPos r ≤ (b : Int))))) =
          ((sel.take sz).map (fun c => c.filter (fun r =>
            decide (leadPos r ≤ (b : Int))))) := by
        apply List.map_congr_left
        intro c hc
        apply List.filter_congr
        intro r hr
        have h1 := hfpj0le c hc r hr
        simp only [decide_eq_decide]
        constructor
        · exact fun h => h.2
        · exact fun h => ⟨h1, h⟩
      have hstep : workerStep decompFirst file
          ⟨entriesOf comp base blocks,
            base + (payloadOf comp blocks).length + extra,
            ColumnType.integer :: ts⟩ acc (w :: ws) =
          some (acc ++ ((sel.take sz).map (fun c => c.filter (fun r =>
            decide (leadPos r ≤ (b : Int))))).flatten) := by
        rw [workerStep, hws, hwe]
        rw [worker_eval decompFirst comp hcd ts hts blocks hbne hwt hpos hsortc
          hsep base extra file post hfile hextra Fall (sel.take sz) R j0 J2
          (by rw [hblocks, htakeall]) hJeq b hb
          (fun c hc => hselb c (hmemJ c hc)) hRb]
        rw [hfilt]
      rw [hstep]
      simp only [Option.some_bind, dipGo, List.foldlM_nil, htakeall, bind_pure]
    · -- an intermediate job: it ends at the next job's first recorded position
      have hdsel : d ∈ sel := by
        rw [← hselsplit, hdropE]
        exact List.mem_append_right _ (List.mem_cons_self _ _)
      have hw1 : (windowPairs (entriesOf comp (base + (payloadOf comp Fall).length) sel ++
          [(b, base + (payloadOf comp blocks).length + extra)])).take sz =
          windowPairs (entriesOf comp (base + (payloadOf comp Fall).length)
            (sel.take sz) ++
            [(firstPos d, base + (payloadOf comp Fall).length +
              (payloadOf comp (sel.take sz)).length)]) := by
        rw [windowPairs_take]
        congr 1
        rw [hEsplit, List.append_assoc]
        have h2 := take_length_add
          (entriesOf comp (base + (payloadOf comp Fall).length) (sel.take sz))
          (entriesOf comp (base + (payloadOf comp Fall).length +
            (payloadOf comp (sel.take sz)).length) (sel.drop sz) ++
            [(b, base + (payloadOf comp blocks).length + extra)]) 1
        rw [hEJlen] at h2
        rw [h2, hdropE]
        rfl
      have hw2 : (windowPairs (entriesOf comp (base + (payloadOf comp Fall).length) sel ++
          [(b, base + (payloadOf comp blocks).length + extra)])).drop sz =
          windowPairs (entriesOf comp (base + (payloadOf comp Fall).length +
            (payloadOf comp (sel.take sz)).length) (sel.drop sz) ++
            [(b, base + (payloadOf comp blocks).length + extra)]) := by
        rw [windowPairs_drop]
        congr 1
        rw [hEsplit, List.append_assoc, List.drop_left' hEJlen]
      obtain ⟨w, ws, hwEq, hwfst, hwlast⟩ := windowPairs_cons_spec
        (L := entriesOf comp (base + (payloadOf comp Fall).length +
          (comp (blockBytes j0)).length) J2 ++
          [(firstPos d, base + (payloadOf comp Fall).length +
            (payloadOf comp (sel.take sz)).length)])
        ((firstPos j0, base + (payloadOf comp Fall).length)) (by simp)
      rw [hw1, hEJcons, List.cons_append, hwEq]
      have hws : w.1.1 = firstPos j0 := by rw [hwfst]
      have hwe : (ws.getLastD w).2.1 = firstPos d := by
        rw [hwlast, List.getLastD_concat]
      have hJd : ∀ c ∈ sel.take sz, firstPos c < firstPos d := by
        intro c hc
        have hps := List.pairwise_append.mp (by rw [hselsplit]; exact hpwsel :
          List.Pairwise (fun c c' => firstPos c < firstPos c')
            (sel.take sz ++ sel.drop sz))
        have := hps.2.2 c hc d (by rw [hdropE]; exact List.mem_cons_self _ _)
        exact this
      have hfpd63 : firstPos d < 2 ^ 63 := by
        obtain ⟨-, hlt, -⟩ := block_facts ts d (hbne d (hmemsel d hdsel))
          (hwt d (hmemsel d hdsel))
          (fun r hr => (hpos d (hmemsel d hdsel) r hr).1)
          (hsortc d (hmemsel d hdsel))
        exact hlt
      have hsepJd : ∀ c ∈ sel.take sz, ∀ r ∈ c, leadPos r < (firstPos d : Int) := by
        intro c hc r hr
        have hps := List.pairwise_append.mp (by rw [hselsplit]; exact hsepsel :
          List.Pairwise (fun c c' => ∀ x ∈ c, ∀ y ∈ c', leadPos x < leadPos y)
            (sel.take sz ++ sel.drop sz))
        have hcd := hps.2.2 c hc d (by rw [hdropE]; exact List.mem_cons_self _ _)
        obtain ⟨-, -, r0d, restd, hdEq, hdhead⟩ := block_facts ts d
          (hbne d (hmemsel d hdsel)) (hwt d (hmemsel d hdsel))
          (fun r hr => (hpos d (hmemsel d hdsel) r hr).1)
          (hsortc d (hmemsel d hdsel))
        have hr0d : r0d ∈ d := by rw [hdEq]; exact List.mem_cons_self _ _
        have := hcd r hr r0d hr0d
        omega
      have hfilt : ((sel.take sz).map (fun c => c.filter (fun r =>
          decide ((firstPos j0 : Int) ≤ leadPos r ∧
            leadPos r ≤ (firstPos d : Int))))) =
          ((sel.take sz).map (fun c => c.filter (fun r =>
            decide (leadPos r ≤ (b : Int))))) := by
        apply List.map_congr_left
        intro c hc
        apply List.filter_congr
        intro r hr
        have h1 := hfpj0le c hc r hr
        have h2 := hsepJd c hc r hr
        have h3 : firstPos d < b := hselb d hdsel
        have h4 : ((firstPos d : Nat) : Int) < (b : Int) := by exact_mod_cast h3
        rw [decide_eq_true (show (firstPos j0 : Int) ≤ leadPos r ∧
            leadPos r ≤ (firstPos d : Int) from ⟨h1, le_of_lt h2⟩),
          decide_eq_true (show leadPos r ≤ (b : Int) from by omega)]
      have hstep : workerStep decompFirst file
          ⟨entriesOf comp base blocks,
            base + (payloadOf comp blocks).length + extra,
            ColumnType.integer :: ts⟩ acc (w :: ws) =
          some (acc ++ ((sel.take sz).map (fun c => c.filter (fun r =>
            decide (leadPos r ≤ (b : Int))))).flatten) := by
        rw [workerStep, hws, hwe]
        rw [worker_eval decompFirst comp hcd ts hts blocks hbne hwt hpos hsortc
          hsep base extra file post hfile hextra Fall (sel.take sz)
          (sel.drop sz ++ R) j0 J2
          (by rw [hblocks]; conv_lhs => rw [← hselsplit]
              rw [List.append_assoc]) hJeq (firstPos d) hfpd63
          hJd
          (by
            intro d0 R2 hEq2
            rw [hdropE, List.cons_append] at hEq2
            injection hEq2 with h1 h2
            rw [← h1]
            omega)]
        rw [hfilt]
      rw [hstep]
      rw [optionBindSome]
      rw [hw2]
      have hoff : base + (payloadOf comp (Fall ++ sel.take sz)).length =
          base + (payloadOf comp Fall).length +
            (payloadOf comp (sel.take sz)).length := by
        rw [payloadOf_append, List.length_append]
        omega
      have hih := ih (Fall ++ sel.take sz) (sel.drop sz) R
        (acc ++ ((sel.take sz).map (fun c => c.filter (fun r =>
          decide (leadPos r ≤ (b : Int))))).flatten)
        (by
          rw [hblocks]
          conv_lhs => rw [← hselsplit]
          rw [List.append_assoc (sel.take sz) (sel.drop sz) R,
            ← List.append_assoc Fall (sel.take sz) (sel.drop sz ++ R)])
        (fun c hc => hselb c ((List.drop_sublist sz sel).subset hc))
        hRb
        (fun s hs => hApos s (List.mem_cons_of_mem _ hs))
        (by
          have := List.length_drop sz sel
          omega)
      rw [hoff] at hih
      rw [hih]
      congr 1
      conv_rhs => rw [← hselsplit]
      rw [List.map_append, List.flatten_append, List.append_assoc]

/-- The job sizes `divide_into_parts` computes: the leading nonempty jobs
cover the whole window list (positive sizes summing to `len`). -/
theorem sizesTake (N len : Nat) (hN : 0 < N) :
    ∃ A : List Nat,
      ((List.range N).map (fun i => len / N + if i < len % N then 1 else 0)).take
        ((((List.range N).map (fun i => len / N + if i < len % N then 1 else 0)).filter
          (fun s => decide (0 < s))).length) = A ∧
      (∀ s ∈ A, 0 < s) ∧ A.sum = len := by
  by_cases hbz : len / N = 0
  · have hlt : len < N := (Nat.div_eq_zero_iff hN).mp hbz
    have hmod : len % N = len := Nat.mod_eq_of_lt hlt
    have hle1 : ∀ s ∈ (List.range N).map
        (fun i => len / N + if i < len % N then 1 else 0), s ≤ 1 := by
      intro s hs
      obtain ⟨i, -, rfl⟩ := List.mem_map.mp hs
      rw [hbz]
      by_cases h : i < len % N
      · rw [if_pos h]
      · rw [if_neg h]; omega
    have hq : ((((List.range N).map
        (fun i => len / N + if i < len % N then 1 else 0)).filter
          (fun s => decide (0 < s))).length) = len := by
      rw [filter_pos_length_sum _ hle1, rangeMapSum, hbz, hmod]
      have : min len N = len := Nat.min_eq_left (le_of_lt hlt)
      omega
    refine ⟨(List.range len).map
      (fun i => len / N + if i < len % N then 1 else 0), ?_, ?_, ?_⟩
    · rw [hq, ← List.map_take, List.take_range,
        Nat.min_eq_left (le_of_lt hlt)]
    · intro s hs
      obtain ⟨i, hi, rfl⟩ := List.mem_map.mp hs
      rw [List.mem_range] at hi
      rw [if_pos (by omega : i < len % N)]
      omega
    · rw [rangeMapSum, hbz, hmod]
      have : min len len = len := Nat.min_self len
      omega
  · have hb1 : 0 < len / N := Nat.pos_of_ne_zero hbz
    have hall : ∀ s ∈ (List.range N).map
        (fun i => len / N + if i < len % N then 1 else 0), 0 < s := by
      intro s hs
      obtain ⟨i, -, rfl⟩ := List.mem_map.mp hs
      by_cases h : i < len % N
      · rw [if_pos h]; omega
      · rw [if_neg h]; omega
    have hfilt : ((List.range N).map
        (fun i => len / N + if i < len % N then 1 else 0)).filter
          (fun s => decide (0 < s)) =
        (List.range N).map (fun i => len / N + if i < len % N then 1 else 0) := by
      rw [List.filter_eq_self]
      intro s hs
      simpa using hall s hs
    refine ⟨(List.range N).map
      (fun i => len / N + if i < len % N then 1 else 0), ?_, hall, ?_⟩
    · rw [hfilt, List.take_length]
    · rw [rangeMapSum]
      have h1 := Nat.div_add_mod len N
      have h2 : len % N < N := Nat.mod_lt _ hN
      have h3 : min (len % N) N = len % N := Nat.min_eq_left (le_of_lt h2)
      omega

/-- The full characterization of the parallel reader: its output is the
selected window's rows filtered by the inclusive end bound alone — the
requested start bound `a` is *not* applied (each worker restarts from its
first block's recorded position). -/
theorem parallel_char (decompFirst : List Nat → Option (List Nat))
    (comp : List Nat → List Nat)
    (hcd : ∀ bs rest, decompFirst (comp bs ++ rest) = some bs)
    (ts : List ColumnType) (hts : ∀ t ∈ ts, t ≠ ColumnType.hashtableString)
    (blocks : List (List Row))
    (hbne : ∀ c ∈ blocks, c ≠ [])
    (hwt : ∀ c ∈ blocks, ∀ r ∈ c, wellTypedRow (ColumnType.integer :: ts) r = true)
    (hpos : ∀ c ∈ blocks, ∀ r ∈ c, 0 ≤ leadPos r ∧ leadPos r < 2 ^ 63)
    (hsortc : ∀ c ∈ blocks, List.Pairwise (fun r r' => leadPos r < leadPos r') c)
    (hsep : List.Pairwise (fun c c' => ∀ x ∈ c, ∀ y ∈ c', leadPos x < leadPos y) blocks)
    (base extra : Nat) (file post : List Nat)
    (hfile : file.drop base = payloadOf comp blocks ++ post)
    (hextra : extra ≤ post.length)
    (a b : Nat) (hb : b < 2 ^ 63) (N : Nat) (hN : 0 < N) :
    parallel_query_range decompFirst file
      ⟨entriesOf comp base blocks, base + (payloadOf comp blocks).length + extra,
        ColumnType.integer :: ts⟩ N a b =
      some (((selOf blocks a b).map (fun c => c.filter (fun r =>
        decide (leadPos r ≤ (b : Int))))).flatten) := by
  have hgr : get_range (entriesOf comp base blocks) a b =
      entriesOf comp (base + (payloadOf comp (blocks.take (kOf blocks a))).length)
        (selOf blocks a b) :=
    get_range_entriesOf comp base blocks a b
  by_cases hempty : selOf blocks a b = []
  · have hnil : get_range (entriesOf comp base blocks) a b = [] := by
      rw [hgr, hempty]; rfl
    simp only [parallel_query_range, hnil, hempty, List.map_nil, List.flatten_nil]
  · obtain ⟨s, ss, hselE⟩ := List.exists_cons_of_ne_nil hempty
    have hEcons : entriesOf comp
        (base + (payloadOf comp (blocks.take (kOf blocks a))).length)
        (selOf blocks a b) =
        (firstPos s, base + (payloadOf comp (blocks.take (kOf blocks a))).length) ::
          entriesOf comp
            (base + (payloadOf comp (blocks.take (kOf blocks a))).length +
              (comp (blockBytes s)).length) ss := by
      rw [hselE]; rfl
    have hwlen : (windowPairs (entriesOf comp
        (base + (payloadOf comp (blocks.take (kOf blocks a))).length)
        (selOf blocks a b) ++
        [(b, base + (payloadOf comp blocks).length + extra)])).length =
        (selOf blocks a b).length := by
      rw [windowPairs_length]
      simp only [List.length_append, entriesOf_length, List.length_cons,
        List.length_nil]
      omega
    obtain ⟨A, hAtake, hApos, hAsum⟩ := sizesTake N (selOf blocks a b).length hN
    have hjobs_len : (dipGo (windowPairs (entriesOf comp
        (base + (payloadOf comp (blocks.take (kOf blocks a))).length)
        (selOf blocks a b) ++
        [(b, base + (payloadOf comp blocks).length + extra)]))
        ((List.range N).map (fun i => (selOf blocks a b).length / N +
          if i < (selOf blocks a b).length % N then 1 else 0))).map List.length =
        (List.range N).map (fun i => (selOf blocks a b).length / N +
          if i < (selOf blocks a b).length % N then 1 else 0) := by
      apply dipGo_lengths
      rw [hwlen]
      rw [rangeMapSum]
      have h1 := Nat.div_add_mod (selOf blocks a b).length N
      have h2 : (selOf blocks a b).length % N < N := Nat.mod_lt _ hN
      have h3 : min ((selOf blocks a b).length % N) N =
          (selOf blocks a b).length % N := Nat.min_eq_left (le_of_lt h2)
      omega
    have hq : ((dipGo (windowPairs (entriesOf comp
        (base + (payloadOf comp (blocks.take (kOf blocks a))).length)
        (selOf blocks a b) ++
        [(b, base + (payloadOf comp blocks).length + extra)]))
        ((List.range N).map (fun i => (selOf blocks a b).length / N +
          if i < (selOf blocks a b).length % N then 1 else 0))).filter
          (fun j => !j.isEmpty)).length =
        (((List.range N).map (fun i => (selOf blocks a b).length / N +
          if i < (selOf blocks a b).length % N then 1 else 0)).filter
          (fun s => decide (0 < s))).length := by
      rw [filter_nonempty_length, hjobs_len]
    have hblocks : blocks = blocks.take (kOf blocks a) ++
        (selOf blocks a b ++
          (blocks.drop (kOf blocks a)).dropWhile (fun c => decide (firstPos c < b))) := by
      rw [selOf, List.takeWhile_append_dropWhile, List.take_append_drop]
    have hRb : ∀ d0 R2, (blocks.drop (kOf blocks a)).dropWhile
        (fun c => decide (firstPos c < b)) = d0 :: R2 → ¬ firstPos d0 < b := by
      intro d0 R2 hReq
      have := List.head?_dropWhile_not (fun c => decide (firstPos c < b))
        (blocks.drop (kOf blocks a))
      rw [hReq] at this
      simpa using this
    have hselb : ∀ c ∈ selOf blocks a b, firstPos c < b := by
      intro c hc
      have := List.mem_takeWhile_imp hc
      simpa using this
    have hpw := parWorkers decompFirst comp hcd ts hts blocks hbne hwt hpos
      hsortc hsep base extra file post hfile hextra b hb A
      (blocks.take (kOf blocks a)) (selOf blocks a b)
      ((blocks.drop (kOf blocks a)).dropWhile (fun c => decide (firstPos c < b)))
      [] hblocks hselb hRb hApos hAsum
    simp only [parallel_query_range, hgr, hEcons]
    rw [← hEcons]
    rw [entriesOf_length, ← hwlen, divide_into_parts_eq _ N hN, hwlen]
    simp only [Option.some_bind]
    rw [hq, dipGo_take, hAtake]
    simpa using hpw

/-- C5 (amended). Parallel equivalence holds only with the start bound
moved to the predecessor block's recorded position: for every worker count
`N ≥ 1` and `a ≤ b < 2 ^ 63`, `ParallelRowReader::query_range(a, b)` over
a built table equals the sequential `RowReader::query_range(p0, b)`, where
`p0` is the first position of the first selected block (`a` itself when
the selection is empty).  Worker 0 re-derives its lower bound from its
job's first index entry instead of the caller's `a`, so rows of the
predecessor block with `p0 ≤ p < a` are returned by the parallel reader
but not by the sequential one — the two differ already at `N = 1` (see
the counterexample). -/
theorem parallel_query_range_eq_predecessor
    (decompFirst : List Nat → Option (List Nat)) (comp : List Nat → List Nat)
    (hcd : ∀ bs rest, decompFirst (comp bs ++ rest) = some bs)
    (d : Dataset) (ts : List ColumnType)
    (hts : ∀ t ∈ ts, t ≠ ColumnType.hashtableString)
    (rows : List Row)
    (hwt : ∀ r ∈ rows, wellTypedRow (ColumnType.integer :: ts) r = true)
    (hpos : ∀ r ∈ rows, 0 ≤ leadPos r)
    (hstrict : List.Pairwise (fun r r' => leadPos r < leadPos r') rows)
    (base extra : Nat) (file post : List Nat)
    (hfile : file.drop base =
      payloadOf comp (chunksOf d.rows_per_index rows) ++ post)
    (hextra : extra ≤ post.length)
    (a b : Nat) (hab : a ≤ b) (hb : b < 2 ^ 63) (N : Nat) (hN : 0 < N) :
    parallel_query_range decompFirst file
      ⟨entriesOf comp base (chunksOf d.rows_per_index rows),
        base + (payloadOf comp (chunksOf d.rows_per_index rows)).length + extra,
        ColumnType.integer :: ts⟩ N a b =
      query_range decompFirst file
        ⟨entriesOf comp base (chunksOf d.rows_per_index rows),
          base + (payloadOf comp (chunksOf d.rows_per_index rows)).length + extra,
          ColumnType.integer :: ts⟩
        (((get_range (entriesOf comp base (chunksOf d.rows_per_index rows))
          a b).head?.map Prod.fst).getD a) b := by
  obtain ⟨hwtb, hposb, hsortb, hsepb⟩ :=
    chunk_block_hyps ts d.rows_per_index rows hwt hpos hstrict
  have hbne := chunksOf_ne_nil d.rows_per_index rows
  rw [parallel_char decompFirst comp hcd ts hts _ hbne hwtb hposb hsortb hsepb
    base extra file post hfile hextra a b hb N hN]
  have hgr : get_range (entriesOf comp base (chunksOf d.rows_per_index rows)) a b =
      entriesOf comp (base + (payloadOf comp ((chunksOf d.rows_per_index rows).take
        (kOf (chunksOf d.rows_per_index rows) a))).length)
        (selOf (chunksOf d.rows_per_index rows) a b) :=
    get_range_entriesOf comp base (chunksOf d.rows_per_index rows) a b
  by_cases hempty : selOf (chunksOf d.rows_per_index rows) a b = []
  · have hnil : get_range (entriesOf comp base (chunksOf d.rows_per_index rows))
        a b = [] := by
      rw [hgr, hempty]; rfl
    rw [hnil]
    simp only [List.head?_nil, Option.map_none', Option.getD_none]
    rw [seqChar decompFirst comp hcd ts hts _ hbne hwtb hposb hsortb hsepb
      base extra file post hfile hextra a b hab hb]
    rw [hempty]
    rfl
  · obtain ⟨s, ss, hselE⟩ := List.exists_cons_of_ne_nil hempty
    have hssel : s ∈ selOf (chunksOf d.rows_per_index rows) a b := by
      rw [hselE]; exact List.mem_cons_self _ _
    have hselb : ∀ c ∈ selOf (chunksOf d.rows_per_index rows) a b,
        firstPos c < b := by
      intro c hc
      have := List.mem_takeWhile_imp hc
      simpa using this
    have hp0 : ((get_range (entriesOf comp base (chunksOf d.rows_per_index rows))
        a b).head?.map Prod.fst).getD a = firstPos s := by
      rw [hgr, hselE]
      rfl
    rw [hp0]
    rw [seqChar decompFirst comp hcd ts hts _ hbne hwtb hposb hsortb hsepb
      base extra file post hfile hextra (firstPos s) b
      (le_of_lt (hselb s hssel)) hb]
    have hblocks2 : chunksOf d.rows_per_index rows =
        (chunksOf d.rows_per_index rows).take (kOf (chunksOf d.rows_per_index rows) a) ++
          (selOf (chunksOf d.rows_per_index rows) a b ++
            ((chunksOf d.rows_per_index rows).drop
              (kOf (chunksOf d.rows_per_index rows) a)).dropWhile
              (fun c => decide (firstPos c < b))) := by
      rw [selOf, List.takeWhile_append_dropWhile, List.take_append_drop]
    have hRb : ∀ d0 R2, ((chunksOf d.rows_per_index rows).drop
        (kOf (chunksOf d.rows_per_index rows) a)).dropWhile
        (fun c => decide (firstPos c < b)) = d0 :: R2 → ¬ firstPos d0 < b := by
      intro d0 R2 hReq
      have := List.head?_dropWhile_not (fun c => decide (firstPos c < b))
        ((chunksOf d.rows_per_index rows).drop (kOf (chunksOf d.rows_per_index rows) a))
      rw [hReq] at this
      simpa using this
    rw [selOf_at_head ts (chunksOf d.rows_per_index rows) hbne hwtb
      (fun c hc r hr => (hposb c hc r hr).1) hsortb hsepb
      ((chunksOf d.rows_per_index rows).take (kOf (chunksOf d.rows_per_index rows) a))
      (selOf (chunksOf d.rows_per_index rows) a b)
      (((chunksOf d.rows_per_index rows).drop
        (kOf (chunksOf d.rows_per_index rows) a)).dropWhile
        (fun c => decide (firstPos c < b)))
      s ss hblocks2 hselE b hselb hRb]
    have hmemsel : ∀ c ∈ selOf (chunksOf d.rows_per_index rows) a b,
        c ∈ chunksOf d.rows_per_index rows := by
      intro c hc
      exact ((List.takeWhile_sublist _).trans (List.drop_sublist _ _)).subset hc
    congr 1
    apply congrArg List.flatten
    apply List.map_congr_left
    intro c hc
    apply List.filter_congr
    intro r hr
    have hfps_le : firstPos s ≤ firstPos c := by
      have hpwsel : List.Pairwise (fun c c' => firstPos c < firstPos c')
          (selOf (chunksOf d.rows_per_index rows) a b) :=
        (firstPos_pairwise ts (chunksOf d.rows_per_index rows) hbne hwtb
          (fun c hc r hr => (hposb c hc r hr).1) hsortb hsepb).sublist
          ((List.takeWhile_sublist _).trans (List.drop_sublist _ _))
      have hcs := hc
      rw [hselE] at hpwsel hcs
      rcases List.mem_cons.mp hcs with rfl | hcs'
      · exact le_refl _
      · exact le_of_lt (List.rel_of_pairwise_cons hpwsel hcs')
    obtain ⟨hge, -, -⟩ := block_facts ts c (hbne c (hmemsel c hc))
      (hwtb c (hmemsel c hc))
      (fun r hr => (hposb c (hmemsel c hc) r hr).1)
      (hsortb c (hmemsel c hc))
    have h1 := hge r hr
    simp only [decide_eq_decide]
    constructor
    · intro h
      refine ⟨?_, h⟩
      omega
    · exact fun h => h.2

/-- Counterexample to C5 as stated: two one-row blocks at positions 10 and
20; querying `[15, 25)` sequentially returns only the row at 20, but the
parallel reader with a single worker returns both rows — its worker
restarts at the predecessor block's position 10 and so fails to filter the
row at 10. -/
theorem parallel_query_range_counterexample :
    parallel_query_range decompToy [1, 41, 1, 81]
      ⟨[(10, 0), (20, 2)], 4, [ColumnType.integer]⟩ 1 15 25 =
      some [[CellValue.integer 10], [CellValue.integer 20]] ∧
    query_range decompToy [1, 41, 1, 81]
      ⟨[(10, 0), (20, 2)], 4, [ColumnType.integer]⟩ 15 25 =
      some [[CellValue.integer 20]] :=
  ⟨rfl, rfl⟩

/-- Witness for C5 (amended): the parallel/sequential correspondence
instantiated on the concrete two-block table with two workers. -/
theorem parallel_query_range_eq_predecessor_witness :
    parallel_query_range decompToy [1, 41, 1, 81]
      ⟨entriesOf compToy 0 (chunksOf dsOne.rows_per_index rowsTwo),
        0 + (payloadOf compToy (chunksOf dsOne.rows_per_index rowsTwo)).length + 0,
        ColumnType.integer :: []⟩ 2 15 25 =
      query_range decompToy [1, 41, 1, 81]
        ⟨entriesOf compToy 0 (chunksOf dsOne.rows_per_index rowsTwo),
          0 + (payloadOf compToy (chunksOf dsOne.rows_per_index rowsTwo)).length + 0,
          ColumnType.integer :: []⟩
        (((get_range (entriesOf compToy 0 (chunksOf dsOne.rows_per_index rowsTwo))
          15 25).head?.map Prod.fst).getD 15) 25 :=
  parallel_query_range_eq_predecessor decompToy compToy decompToy_compToy
    dsOne [] (by simp) rowsTwo (by decide) (by decide) (by decide)
    0 0 [1, 41, 1, 81] []
    (by simp [dsOne, chunksOf, rowsTwo, payloadOf]; rfl) (by decide)
    15 25 (by decide) (by decide) 2 (by decide)

/-- Witness for C1 (amended): the round trip instantiated on the concrete
two-row table with `E = 25`. -/
theorem build_query_roundtrip_witness :
    build_table compToy dsTwo 0 rowsTwo =
      .ok (entriesOf compToy 0 (chunksOf dsTwo.rows_per_index rowsTwo),
        payloadOf compToy (chunksOf dsTwo.rows_per_index rowsTwo),
        maxPosOf rowsTwo) ∧
    query_range decompToy [2, 41, 81]
      ⟨entriesOf compToy 0 (chunksOf dsTwo.rows_per_index rowsTwo),
        0 + (payloadOf compToy (chunksOf dsTwo.rows_per_index rowsTwo)).length + 0,
        ColumnType.integer :: []⟩ 0 25 = some rowsTwo :=
  build_query_roundtrip decompToy compToy decompToy_compToy
    dsTwo [] (by simp) rowsTwo (by simp [rowsTwo]) (by decide) (by decide)
    (by decide) 0 0 [2, 41, 81] []
    (by simp [dsTwo, chunksOf, rowsTwo, payloadOf]; rfl) (by decide)
    25 (by decide) (by decide)

end ZygosDB
